import Mathlib

/-! RearCodedArray: a shallow embedding of `rear_coded_array.separate_headers.hpp`, and of
the search `block_containing_string` of `rear_coded_array.hpp` (namespace `SingleRegion`).

Conventions of the embedding.

* A byte is a natural number in `0..255`; a `std::string` is the list of its bytes.
* A `const char *` into an immutable region (`headers.data() + k`, `data.data() + k`,
  `s.data() + k`) is the list of the bytes from that address to the end of the region.
  `read p i` is `p[i]`; at and past the end of the region it gives `0`: the terminator a
  `std::string` keeps at `data()[size()]`.  The word-wide loads of `strcmp_lcp` and `lcp64`
  may touch up to seven bytes further; they are only compared for equality.
* A `std::string_view` argument is the region at its `data()` together with its `length()`.
  The view of a whole `std::string` `q` is the region `q` with the length `q.length`; a view
  of the first `len` bytes of a longer buffer `p` is the region `p` with the length `len`,
  and the code may read the byte `p[len]` that follows the view.
* `char` is signed (the platform on which `decode_int`, whose loop test is `*in >= 0`,
  terminates): `signed_char b` is the value of the byte `b` read through a `char`.
* `size_t` is 64 bits wide, `uint32_t` 32 bits wide; the three fields of `BlockInfo` are
  reduced modulo `2^32` where the constructor converts its `size_t` arguments.
* Reads of the vector `info` past its end, `info.back()` on an empty vector, writes past the
  end of the output buffer, shifts by 64 or more and division by zero have no defined result:
  the embedding returns `none` (or a `Fault`) there.
* The loop counters declared `int` are compared after conversion to the unsigned type of
  their bound; the embedding counts iterations in `Nat`.
* The constructor's counters `input_bytes`, `max_lcp`, `sum_lcp` and `sum_length` and the text
  it prints are left out: nothing is computed from them.
-/

namespace RCA

/-! ## Strings and C strings -/

/-- The byte `p[i]` of the region that starts at pointer `p`. -/
def read (p : List Nat) (i : Nat) : Nat := p.getD i 0

/-- The bytes of the C string at `p`: everything before the first NUL. -/
def cstr (p : List Nat) : List Nat := p.takeWhile (fun b => b != 0)

/-- Length of the C string at `p`, as `std::strlen` computes it. -/
def strlen (p : List Nat) : Nat := (cstr p).length

/-- The value of byte `b` when it is read through a (signed) `char`. -/
def signed_char (b : Nat) : Int :=
  if b % 256 < 128 then ((b % 256 : Nat) : Int) else ((b % 256 : Nat) : Int) - 256

/-- The overload `compute_lcp(std::string_view, std::string_view)`: the position of the first
mismatch as `std::mismatch` finds it. -/
def compute_lcp : List Nat → List Nat → Nat
  | a :: as, b :: bs => if a = b then compute_lcp as bs + 1 else 0
  | _, _ => 0

/-- The overload `compute_lcp(const char *, const char *)`:
`while (a[i] != 0 && a[i] == b[i]) ++i`. -/
def compute_lcp_cstr : List Nat → List Nat → Nat
  | [], _ => 0
  | a :: as, bs => if a ≠ 0 ∧ a = read bs 0 then compute_lcp_cstr as (bs.drop 1) + 1 else 0

/-- The comparison `a <= b` of two `std::string`s: lexicographic on the bytes taken as
`unsigned char`, a proper prefix being smaller. -/
def string_le : List Nat → List Nat → Bool
  | [], _ => true
  | _ :: _, [] => false
  | a :: as, b :: bs => if a < b then true else if b < a then false else string_le as bs

/-- The comparison `a < b` of two `std::string`s. -/
def string_lt (a b : List Nat) : Bool := !string_le b a

/-- A NUL-free byte string: every byte is in `1..255`. -/
def NulFree (s : List Nat) : Prop := ∀ b ∈ s, 0 < b ∧ b < 256

instance (s : List Nat) : Decidable (NulFree s) := by
  unfold NulFree; exact inferInstance

/-! ## Varint codec -/

/-- The loop of `encode_int(size_t x, std::string &out)`.  The first argument bounds the number
of iterations; `x` itself is enough, since `x >> 7 < x` whenever `x > 127`. -/
def encode_int_loop : Nat → Nat → List Nat → List Nat
  | 0, x, out => out ++ [(x % 256) ||| 128]
  | fuel + 1, x, out =>
    if x > 127 then encode_int_loop fuel (x >>> 7) (out ++ [(x % 256) &&& 127])
    else out ++ [(x % 256) ||| 128]

/-- The function `encode_int(size_t x, std::string &out)`; the result is the new `out`. -/
def encode_int (x : Nat) (out : List Nat) : List Nat := encode_int_loop x x out

/-- The loop of `decode_int(const char *&in)`: `result`, `shift` and the cursor.  Running off
the region, or shifting a `size_t` by 64 or more, has no defined result. -/
def decode_int_loop : List Nat → Nat → Nat → Option (Nat × List Nat)
  | [], _, _ => none
  | b :: rest, result, shift =>
    if 64 ≤ shift then none
    else if 0 ≤ signed_char b then
      decode_int_loop rest (result ||| ((b <<< shift) % 2 ^ 64)) ((shift + 7) % 256)
    else some (result ||| (((b &&& 127) <<< shift) % 2 ^ 64), rest)

/-- The function `decode_int(const char *&in)`: the decoded value and the advanced cursor. -/
def decode_int (inp : List Nat) : Option (Nat × List Nat) := decode_int_loop inp 0 0

/-! ## The dictionary and its builder -/

/-- The packed `struct BlockInfo`, three `uint32_t`. -/
structure BlockInfo where
  count : Nat
  data_pointer : Nat
  header_pointer : Nat
deriving DecidableEq

/-- The constructor `BlockInfo(uint32_t, uint32_t, uint32_t)` called with `size_t` arguments. -/
def BlockInfo.make (count data_pointer header_pointer : Nat) : BlockInfo :=
  BlockInfo.mk (count % 2 ^ 32) (data_pointer % 2 ^ 32) (header_pointer % 2 ^ 32)

/-- The members of `class RearCodedArray`. -/
structure RearCodedArray where
  data : List Nat
  headers : List Nat
  info : List BlockInfo
  n : Nat
  buffer : List Nat
deriving DecidableEq

/-- The ways construction can end without an object. -/
inductive Fault where
  | invalid_argument (what : String)
  | out_of_range
  | division_by_zero
deriving DecidableEq

/-- The locals of the constructor's main loop that later iterations read. -/
structure BuildState where
  data : List Nat
  headers : List Nat
  info : List BlockInfo
  n : Nat
  max_length : Nat
  prev : List Nat
deriving DecidableEq

/-- The state before the first iteration. -/
def BuildState.init : BuildState := BuildState.mk [] [] [] 0 0 []

/-- The value `current_block_bytes`: `size_t(-1)` for the first string, otherwise
`data.size() - info.back().data_pointer` (the subtrahend never exceeds `data.size()`). -/
def current_block_bytes (st : BuildState) : Option Nat :=
  if st.n = 0 then some (2 ^ 64 - 1)
  else match st.info.getLast? with
    | none => none
    | some b => some (st.data.length - b.data_pointer)

/-- One iteration of the constructor's main loop on the string `s`. -/
def build_step (block_bytes : Nat) (st : BuildState) (s : List Nat) : Except Fault BuildState :=
  if string_le s st.prev then Except.error (Fault.invalid_argument "data is not sorted")
  else
    let lcp := compute_lcp st.prev s
    let max_length := max st.max_length s.length
    match current_block_bytes st with
    | none => Except.error Fault.out_of_range
    | some cbb =>
      if cbb ≥ block_bytes then
        Except.ok (BuildState.mk st.data (st.headers ++ s ++ [0])
          (st.info ++ [BlockInfo.make st.n st.data.length st.headers.length])
          (st.n + 1) max_length s)
      else
        let rear_length := st.prev.length - lcp
        Except.ok (BuildState.mk (encode_int rear_length st.data ++ s.drop lcp ++ [0])
          st.headers st.info (st.n + 1) max_length s)

/-- The constructor's main loop over the input range. -/
def build_loop (block_bytes : Nat) : List (List Nat) → BuildState → Except Fault BuildState
  | [], st => Except.ok st
  | s :: rest, st =>
    match build_step block_bytes st s with
    | Except.error e => Except.error e
    | Except.ok st1 => build_loop block_bytes rest st1

/-- The statements after the main loop up to the allocation of `buffer`.  The call
`headers.append('\0', sizeof(uint64_t))` selects `append(size_type count, char ch)` with
`count = '\0' = 0` and `ch = char(8)`: it appends zero copies of the byte 8. -/
def finish (st : BuildState) : RearCodedArray :=
  let headers := st.headers ++ List.replicate 0 8
  RearCodedArray.mk st.data headers
    (st.info ++ [BlockInfo.make st.n st.data.length headers.length])
    st.n (List.replicate st.max_length 0)

/-- The member `blocks_count()`. -/
def blocks_count (r : RearCodedArray) : Nat := r.info.length - 1

/-- The loop `for (auto it = headers_begin() + 1; it != headers_end(); ++it)` of the
constructor; it returns `(max_hdr_lcp, sum_hdr_lcp)`.  Each iteration reads `info[it]` and
`info[it - 1]`.  The first argument bounds the iterations: after `info.size()` of them `it` is
past the end of `info`, which is the fault returned. -/
def header_stats_loop (r : RearCodedArray) : Nat → Nat → Nat × Nat → Except Fault (Nat × Nat)
  | 0, _, _ => Except.error Fault.out_of_range
  | fuel + 1, it, acc =>
    if it = blocks_count r then Except.ok acc
    else match r.info[it]?, r.info[it - 1]? with
      | some a, some b =>
        let lcp := compute_lcp_cstr (r.headers.drop a.header_pointer)
          (r.headers.drop b.header_pointer)
        header_stats_loop r fuel (it + 1) (max acc.1 lcp, acc.2 + lcp)
      | _, _ => Except.error Fault.out_of_range

/-- The constructor `RearCodedArray(first, last, block_bytes)`: the main loop, the sentinel
entry, the header statistics and the integer division `n / blocks_count()` of the report. -/
def build (S : List (List Nat)) (block_bytes : Nat) : Except Fault RearCodedArray :=
  match build_loop block_bytes S BuildState.init with
  | Except.error e => Except.error e
  | Except.ok st =>
    let r := finish st
    match header_stats_loop r r.info.length 1 (0, 0) with
    | Except.error e => Except.error e
    | Except.ok _ =>
      if blocks_count r = 0 then Except.error Fault.division_by_zero else Except.ok r

/-! ## Access -/

/-- The call `std::upper_bound(info.begin(), info.end(), i, comp)` with
`comp(a, b) = a < b.count`: the index of the first entry whose count exceeds `i`. -/
def upper_bound (i : Nat) : List BlockInfo → Nat
  | [] => 0
  | b :: bs => if i < b.count then 0 else upper_bound i bs + 1

/-- The member `block_containing_position(i)`; `std::prev` of `begin()` is undefined. -/
def block_containing_position (r : RearCodedArray) (i : Nat) : Option Nat :=
  let it := upper_bound i r.info
  if it = 0 then none else some (it - 1)

/-- The call `stpcpy(out + pos, src)`: the new buffer and the offset of the NUL written. -/
def stpcpy (out : List Nat) (pos : Nat) (src : List Nat) : Option (List Nat × Nat) :=
  let s := cstr src
  if pos + s.length + 1 ≤ out.length then
    some (out.take pos ++ s ++ [0] ++ out.drop (pos + s.length + 1), pos + s.length)
  else none

/-- The loop of `access`, by the number of iterations left. -/
def access_loop : Nat → List Nat → List Nat → Nat → Option (List Nat × Nat)
  | 0, _, out, out_ptr => some (out, out_ptr)
  | k + 1, data_ptr, out, out_ptr =>
    match decode_int data_ptr with
    | none => none
    | some (rear_length, data_ptr1) =>
      if out_ptr < rear_length then none
      else
        match stpcpy out (out_ptr - rear_length) data_ptr1 with
        | none => none
        | some (out1, tmp) =>
          access_loop k (data_ptr1.drop (tmp - (out_ptr - rear_length) + 1)) out1 tmp

/-- The member `access(i, out)`: the buffer it leaves and the returned pointer as an offset
from `out`. -/
def access (r : RearCodedArray) (i : Nat) (out : List Nat) : Option (List Nat × Nat) :=
  match block_containing_position r i with
  | none => none
  | some block =>
    match r.info[block]? with
    | none => none
    | some bi =>
      match stpcpy out 0 (r.headers.drop bi.header_pointer) with
      | none => none
      | some (out1, out_ptr) =>
        match access_loop ((i + 2 ^ 64 - bi.count) % 2 ^ 64) (r.data.drop bi.data_pointer)
            out1 out_ptr with
        | none => none
        | some (out2, out_ptr2) => some (out2, out_ptr2 + 1)

/-! ## Rank -/

/-- The eight bytes a `uint64_t` load at `p + i` reads. -/
def load64 (p : List Nat) (i : Nat) : List Nat :=
  (List.range 8).map (fun k => read p (i + k))

/-- The loop `while (i + 8 < len1 && *w1++ == *w2++) i += 8` shared by `strcmp_lcp` and
`lcp64`.  The first argument bounds the iterations (`len1` is enough). -/
def word_loop (s1 : List Nat) (len1 : Nat) (s2 : List Nat) : Nat → Nat → Nat
  | 0, i => i
  | fuel + 1, i =>
    if i + 8 < len1 ∧ load64 s1 i = load64 s2 i then word_loop s1 len1 s2 fuel (i + 8) else i

/-- The loop `while (true)` of `strcmp_lcp`, by `len1 - i`. -/
def strcmp_lcp_loop (s1 : List Nat) (len1 : Nat) (s2 : List Nat) : Nat → Nat → Int × Nat
  | 0, i =>
    let u1 := read s1 i % 256
    let u2 := read s2 i % 256
    if u1 ≠ u2 then ((u1 : Int) - (u2 : Int), i) else (0, i)
  | k + 1, i =>
    let u1 := read s1 i % 256
    let u2 := read s2 i % 256
    if u1 ≠ u2 then ((u1 : Int) - (u2 : Int), i)
    else if i = len1 then (0, i)
    else strcmp_lcp_loop s1 len1 s2 k (i + 1)

/-- The function `strcmp_lcp(s1, len1, s2)`. -/
def strcmp_lcp (s1 : List Nat) (len1 : Nat) (s2 : List Nat) : Int × Nat :=
  let i := word_loop s1 len1 s2 len1 0
  strcmp_lcp_loop s1 len1 s2 (len1 - i) i

/-- The loop `while (i != len1 && s1[i] == s2[i]) ++i` of `lcp64`, by `len1 - i`. -/
def lcp64_loop (s1 : List Nat) (len1 : Nat) (s2 : List Nat) : Nat → Nat → Nat
  | 0, i => i
  | k + 1, i =>
    if i ≠ len1 ∧ read s1 i = read s2 i then lcp64_loop s1 len1 s2 k (i + 1) else i

/-- The function `lcp64(s1, len1, s2)`. -/
def lcp64 (s1 : List Nat) (len1 : Nat) (s2 : List Nat) : Nat :=
  let i := word_loop s1 len1 s2 len1 0
  lcp64_loop s1 len1 s2 (len1 - i) i

/-- The loop of `block_containing_string(std::string_view s)`: `s` is the region at
`s.data()` and `len` is `s.length()`.  The first argument bounds the iterations (`count` is
enough: it decreases in every iteration).  The two prefetches read `info` as well.  The
value `min_lcp` never exceeds `len`: `strcmp_lcp` returns an offset of at most its `len1`. -/
def block_containing_string_loop (r : RearCodedArray) (s : List Nat) (len : Nat) :
    Nat → Nat → Nat → Nat → Nat → Option Nat
  | 0, lo, _, _, _ => some lo
  | fuel + 1, lo, count, llcp, rlcp =>
    if count > 0 then
      let step := count / 2
      let i := lo + step
      match r.info[lo + step / 2]?, r.info[lo + step + step / 2]?, r.info[i]? with
      | some _, some _, some bi =>
        let min_lcp := min llcp rlcp
        let res := strcmp_lcp (s.drop min_lcp) (len - min_lcp)
          (r.headers.drop (bi.header_pointer + min_lcp))
        let lcp := res.2 + min_lcp
        if res.1 ≥ 0 then
          block_containing_string_loop r s len fuel (i + 1) (count - (step + 1)) lcp rlcp
        else
          block_containing_string_loop r s len fuel lo step llcp lcp
      | _, _, _ => none
    else some lo

/-- The member `block_containing_string(std::string_view s)`, on the region at `s.data()` and
`len = s.length()`. -/
def block_containing_string (r : RearCodedArray) (s : List Nat) (len : Nat) : Option Nat :=
  match block_containing_string_loop r s len (blocks_count r) 0 (blocks_count r) 0 0 with
  | none => none
  | some lo => some (lo - (if lo ≠ 0 then 1 else 0))

/-- The loop of `block_rank(std::string_view pattern, size_t block)`, by the number of
iterations left; `pattern` is the region at `pattern.data()`, `len` is `pattern.length()` and
`j` is the loop counter.  The read `pattern[pattern_lcp]` is the byte of the region at that
offset, also when `pattern_lcp` is `len`; `pattern_lcp` never exceeds `len`. -/
def block_rank_loop (pattern : List Nat) (len : Nat) (strings_in_block : Nat) :
    Nat → Nat → List Nat → Nat → Nat → Option Nat
  | 0, _, _, _, _ => some strings_in_block
  | k + 1, j, data_ptr, curr_length, pattern_lcp =>
    match decode_int data_ptr with
    | none => none
    | some (suffix_to_remove, data_ptr1) =>
      let prev_string_lcp := (curr_length + 2 ^ 64 - suffix_to_remove) % 2 ^ 64
      if prev_string_lcp < pattern_lcp then some j
      else
        let lcp :=
          if prev_string_lcp = pattern_lcp then
            lcp64 (pattern.drop prev_string_lcp) (len - prev_string_lcp) data_ptr1
          else 0
        let pattern_lcp1 := pattern_lcp + lcp
        if prev_string_lcp = pattern_lcp ∧
            signed_char (read pattern pattern_lcp1) < signed_char (read data_ptr1 lcp) then
          some j
        else
          let suffix_len := strlen data_ptr1
          block_rank_loop pattern len strings_in_block k (j + 1)
            (data_ptr1.drop (suffix_len + 1))
            ((prev_string_lcp + suffix_len) % 2 ^ 64) pattern_lcp1

/-- The member `block_rank(std::string_view pattern, size_t block)`, on the region at
`pattern.data()` and `len = pattern.length()`. -/
def block_rank (r : RearCodedArray) (pattern : List Nat) (len : Nat) (block : Nat) :
    Option Nat :=
  match r.info[block]?, r.info[block + 1]? with
  | some bi, some bi1 =>
    let header_ptr := r.headers.drop bi.header_pointer
    let pattern_lcp := lcp64 pattern len header_ptr
    if signed_char (read pattern pattern_lcp) < signed_char (read header_ptr pattern_lcp) then
      some 0
    else
      let strings_in_block := (bi1.count + 2 ^ 32 - bi.count) % 2 ^ 32
      let curr_length := pattern_lcp + strlen (header_ptr.drop pattern_lcp)
      block_rank_loop pattern len strings_in_block (strings_in_block - 1) 1
        (r.data.drop bi.data_pointer) curr_length pattern_lcp
  | _, _ => none

/-- The member `rank(std::string_view s)`, on the region at `s.data()` and
`len = s.length()`. -/
def rank (r : RearCodedArray) (s : List Nat) (len : Nat) : Option Nat :=
  match block_containing_string r s len with
  | none => none
  | some block =>
    match r.info[block]?, block_rank r s len block with
    | some bi, some br => some (bi.count + br)
    | _, _ => none

/-- The member `rank(std::string_view s, size_t block)`, on the region at `s.data()` and
`len = s.length()`. -/
def rank_in_block (r : RearCodedArray) (s : List Nat) (len : Nat) (block : Nat) :
    Option Nat :=
  match r.info[block]?, block_rank r s len block with
  | some bi, some br => some (bi.count + br)
  | _, _ => none

/-! ## Header iteration -/

/-- The class `HeaderIterator`: the region `headers_ptr` points into, the block number and the
array `block_info_ptr` points into. -/
structure HeaderIterator where
  headers_ptr : List Nat
  block : Nat
  block_info_ptr : List BlockInfo
deriving DecidableEq

/-- The member `headers_begin()`. -/
def headers_begin (r : RearCodedArray) : HeaderIterator :=
  HeaderIterator.mk r.headers 0 r.info

/-- The member `headers_end()`. -/
def headers_end (r : RearCodedArray) : HeaderIterator :=
  HeaderIterator.mk r.headers (blocks_count r) r.info

/-- The operator `HeaderIterator::operator+(difference_type)` for a non-negative offset. -/
def HeaderIterator.add (it : HeaderIterator) (off : Nat) : HeaderIterator :=
  HeaderIterator.mk it.headers_ptr ((it.block + off) % 2 ^ 64) it.block_info_ptr

/-- The operator `HeaderIterator::operator-(const HeaderIterator &)`: the `size_t` difference
of the block numbers, converted to the signed `difference_type`. -/
def HeaderIterator.diff (l r : HeaderIterator) : Int :=
  let d : Nat := (l.block + 2 ^ 64 - r.block % 2 ^ 64) % 2 ^ 64
  if d < 2 ^ 63 then Int.ofNat d else Int.ofNat d - 2 ^ 64

/-- The operator `HeaderIterator::operator*`: a pointer into the header region. -/
def HeaderIterator.deref (it : HeaderIterator) : Option (List Nat) :=
  match it.block_info_ptr[it.block]? with
  | none => none
  | some bi => some (it.headers_ptr.drop bi.header_pointer)


/-! ## Specification of the layout

The definitions of this section are not part of the program: they describe the three regions
a partition of the input into blocks gives rise to, and are what the builder is proved to
compute. -/

/-- The tail record of `s` when it follows `prev` in a block:
`varint(rear_length) ‖ s[lcp..] ‖ NUL`. -/
def tail_record (prev s : List Nat) : List Nat :=
  encode_int (prev.length - compute_lcp prev s) [] ++ s.drop (compute_lcp prev s) ++ [0]

/-- The tail records of the strings `ss` that follow `prev` in a block. -/
def tail_records : List Nat → List (List Nat) → List Nat
  | _, [] => []
  | prev, s :: ss => tail_record prev s ++ tail_records s ss

/-- The last string of the block with leader `l` and followers `ss`. -/
def block_last : List Nat → List (List Nat) → List Nat
  | l, [] => l
  | _, s :: ss => block_last s ss

/-- A block: its leader and the strings that follow it. -/
abbrev Block := List Nat × List (List Nat)

/-- The strings of a list of blocks, in order. -/
def layout_strings : List Block → List (List Nat)
  | [] => []
  | b :: bs => (b.1 :: b.2) ++ layout_strings bs

/-- The header region of a list of blocks. -/
def layout_headers : List Block → List Nat
  | [] => []
  | b :: bs => (b.1 ++ [0]) ++ layout_headers bs

/-- The tail region of a list of blocks. -/
def layout_data : List Block → List Nat
  | [] => []
  | b :: bs => tail_records b.1 b.2 ++ layout_data bs

/-- The block-index entries of a list of blocks, without the sentinel, when the first block
starts at string `n`, tail offset `d` and header offset `h`. -/
def layout_info : Nat → Nat → Nat → List Block → List BlockInfo
  | _, _, _, [] => []
  | n, d, h, b :: bs =>
    BlockInfo.mk n d h ::
      layout_info (n + (b.2.length + 1)) (d + (tail_records b.1 b.2).length)
        (h + (b.1.length + 1)) bs

/-- The block index of a list of blocks, sentinel included, when the first block starts at
string `n`, tail offset `d` and header offset `h`. -/
def layout_index_from : Nat → Nat → Nat → List Block → List BlockInfo
  | n, d, h, [] => [BlockInfo.mk n d h]
  | n, d, h, b :: bs =>
    BlockInfo.mk n d h ::
      layout_index_from (n + (b.2.length + 1)) (d + (tail_records b.1 b.2).length)
        (h + (b.1.length + 1)) bs

/-- The block index of a list of blocks: the entries and the sentinel. -/
def layout_index (bs : List Block) : List BlockInfo := layout_index_from 0 0 0 bs

/-- The string the builder holds in `prev` after it has laid out the blocks `bs`. -/
def layout_prev : List Block → List Nat
  | [] => []
  | [b] => block_last b.1 b.2
  | _ :: b :: bs => layout_prev (b :: bs)

/-- The conversion of an index entry to three `uint32_t`. -/
def BlockInfo.trunc (e : BlockInfo) : BlockInfo :=
  BlockInfo.make e.count e.data_pointer e.header_pointer

/-- The builder state `st` holds the layout of the blocks `bs`. -/
def Represents (bs : List Block) (st : BuildState) : Prop :=
  st.data = layout_data bs ∧ st.headers = layout_headers bs ∧
  st.info = (layout_info 0 0 0 bs).map BlockInfo.trunc ∧
  st.n = (layout_strings bs).length ∧ st.prev = layout_prev bs

/-- The dictionary `r` is the layout of the blocks `bs`. -/
def Layout (bs : List Block) (r : RearCodedArray) : Prop :=
  r.data = layout_data bs ∧ r.headers = layout_headers bs ∧ r.info = layout_index bs ∧
  r.n = (layout_strings bs).length

/-- The environment the 32-bit block index assumes: string count, tail region and header
region below `2^32`, and every string shorter than `2^32` bytes. -/
def FitsOffsets (S : List (List Nat)) (r : RearCodedArray) : Prop :=
  r.n < 2 ^ 32 ∧ r.data.length < 2 ^ 32 ∧ r.headers.length < 2 ^ 32 ∧
  ∀ s ∈ S, s.length < 2 ^ 32

/-- The entry `info[b]`, for statements about indices that are in range. -/
def info_at (r : RearCodedArray) (b : Nat) : BlockInfo := r.info.getD b (BlockInfo.mk 0 0 0)


/-- The count a straight linear scan over `S` produces: the number of strings `<= q`. -/
def linear_scan_rank (S : List (List Nat)) (q : List Nat) : Nat :=
  S.countP (fun s => string_le s q)

/-! ## Sample inputs -/

/-- The input `["a", "ab"]`. -/
def sample_strings : List (List Nat) := [[97], [97, 98]]

/-- The dictionary the builder returns for `["a", "ab"]` with `block_bytes = 8`. -/
def sample_dictionary : RearCodedArray :=
  RearCodedArray.mk [128, 98, 0] [97, 0] [BlockInfo.mk 0 0 0, BlockInfo.mk 2 3 2] 2 [0, 0]

/-- The dictionary the builder returns for `["a"]` with `block_bytes = 8`. -/
def single_dictionary : RearCodedArray :=
  RearCodedArray.mk [] [97, 0] [BlockInfo.mk 0 0 0, BlockInfo.mk 1 0 2] 1 [0]

/-- The dictionary the builder returns for `["a", "a\x80"]` with `block_bytes = 8`. -/
def high_byte_dictionary : RearCodedArray :=
  RearCodedArray.mk [128, 128, 0] [97, 0] [BlockInfo.mk 0 0 0, BlockInfo.mk 2 3 2] 2 [0, 0]

/-- The members the constructor has set up for the empty input when it reaches the header
statistics: no bytes, the sentinel entry alone. -/
def empty_dictionary : RearCodedArray := finish BuildState.init


/-! ## The search over the block leaders -/

/-- Strictly ascending in the order of `std::string`: each string is `<` its successor. -/
def strictly_ascending : List (List Nat) → Bool
  | [] => true
  | [_] => true
  | a :: b :: rest => string_lt a b && strictly_ascending (b :: rest)

/-- The dictionary `r` stores the leaders `L`: `info` has one entry per leader and a sentinel,
and `headers.data() + info[i].header_pointer` points at leader `i` followed by a NUL. -/
def HeaderTable (L : List (List Nat)) (r : RearCodedArray) : Prop :=
  r.info.length = L.length + 1 ∧
  ∀ i, i < L.length → ∃ e rest, r.info[i]? = some e ∧
    r.headers.drop e.header_pointer = L.getD i [] ++ 0 :: rest

/-- The offsets the loop of `block_containing_string` skips: the same loop on the region at
`s.data()` and `len = s.length()`, returning for each iteration the middle index `i` and the
value of `min_lcp` there, in order. -/
def block_containing_string_skips (r : RearCodedArray) (s : List Nat) (len : Nat) :
    Nat → Nat → Nat → Nat → Nat → List (Nat × Nat)
  | 0, _, _, _, _ => []
  | fuel + 1, lo, count, llcp, rlcp =>
    if count > 0 then
      let step := count / 2
      let i := lo + step
      match r.info[lo + step / 2]?, r.info[lo + step + step / 2]?, r.info[i]? with
      | some _, some _, some bi =>
        let min_lcp := min llcp rlcp
        let res := strcmp_lcp (s.drop min_lcp) (len - min_lcp)
          (r.headers.drop (bi.header_pointer + min_lcp))
        let lcp := res.2 + min_lcp
        (i, min_lcp) ::
          (if res.1 ≥ 0 then
            block_containing_string_skips r s len fuel (i + 1) (count - (step + 1)) lcp rlcp
          else
            block_containing_string_skips r s len fuel lo step llcp lcp)
      | _, _, _ => []
    else []

/-- What the loop of `block_containing_string` maintains on the leaders `L` for the query `q`:
the window stays inside `L`, the leaders left of it are `<= q`, those right of it are `> q`,
and `llcp`, `rlcp` are bytes `q` shares with the leaders next to the window. -/
def SearchInv (L : List (List Nat)) (q : List Nat) (lo count llcp rlcp : Nat) : Prop :=
  lo + count ≤ L.length ∧
  (∀ j, j < lo → string_le (L.getD j []) q = true) ∧
  (∀ j, lo + count ≤ j → j < L.length → string_le (L.getD j []) q = false) ∧
  (llcp = 0 ∨ (0 < lo ∧ llcp ≤ compute_lcp q (L.getD (lo - 1) []))) ∧
  (rlcp = 0 ∨ (lo + count < L.length ∧ rlcp ≤ compute_lcp q (L.getD (lo + count) [])))

/-! ## The variant `rear_coded_array.hpp`: leaders and tail records in one region -/

namespace SingleRegion

/-- An integer with the sign of `std::strcmp(a, b)`: the difference of the first bytes that
differ, taken as `unsigned char`, or 0 when both strings end together. -/
def strcmp : List Nat → List Nat → Int
  | [], b => (0 : Int) - ((read b 0 % 256 : Nat) : Int)
  | a :: as, b =>
    if a % 256 ≠ read b 0 % 256 then ((a % 256 : Nat) : Int) - ((read b 0 % 256 : Nat) : Int)
    else if a % 256 = 0 then 0
    else strcmp as (b.drop 1)

/-- The loop of `block_containing_string(std::string_view s)` in `rear_coded_array.hpp`; `s`
is the region at `s.data()`, which `std::strcmp` reads up to its first NUL (`s.length()` is
not used).  The first argument bounds the iterations (`count` is enough). -/
def block_containing_string_loop (data : List Nat) (pointers : List Nat) (s : List Nat) :
    Nat → Nat → Nat → Option Nat
  | 0, lo, _ => some lo
  | fuel + 1, lo, count =>
    if count > 0 then
      let step := count / 2
      let i := lo + step
      match pointers[i]? with
      | some p =>
        if strcmp s (data.drop p) ≥ 0 then
          block_containing_string_loop data pointers s fuel (i + 1) (count - (step + 1))
        else
          block_containing_string_loop data pointers s fuel lo step
      | none => none
    else some lo

/-- The member `block_containing_string(s)` of `rear_coded_array.hpp`, on its members `data`
and `pointers` and the region at `s.data()`. -/
def block_containing_string (data : List Nat) (pointers : List Nat) (s : List Nat) :
    Option Nat :=
  match block_containing_string_loop data pointers s pointers.length 0 pointers.length with
  | none => none
  | some lo => some (lo - (if lo ≠ 0 then 1 else 0))

/-- The members `data` and `pointers` store the leaders `L`: `data.data() + pointers[i]`
points at leader `i` followed by a NUL. -/
def PointerTable (L : List (List Nat)) (data pointers : List Nat) : Prop :=
  pointers.length = L.length ∧
  ∀ i, i < L.length → ∃ p rest, pointers[i]? = some p ∧
    data.drop p = L.getD i [] ++ 0 :: rest

end SingleRegion

/-! ## Specification of the block boundaries -/

/-- The block `b` could still be extended when its last string was appended: it is a leader
alone, or its tail without the last record is shorter than `block_bytes`. -/
def block_open (bb : Nat) (b : Block) : Prop :=
  b.2 = [] ∨ (tail_records b.1 b.2.dropLast).length < bb

/-- The block `b` was closed by the builder: its tail has reached `block_bytes`, and it was
open when its last string was appended. -/
def block_closed (bb : Nat) (b : Block) : Prop :=
  bb ≤ (tail_records b.1 b.2).length ∧ block_open bb b

/-- The rule of the builder on a list of blocks: every block but the last is closed and the
last one is open. -/
def BlockRule (bb : Nat) (bs : List Block) : Prop :=
  bs = [] ∨ ∃ init b, bs = init ++ [b] ∧ (∀ x ∈ init, block_closed bb x) ∧ block_open bb b

/-- The input `["a", "ab", "b"]`. -/
def tail_sample : List (List Nat) := [[97], [97, 98], [98]]

/-- The dictionary the builder returns for `["a", "ab", "b"]` with `block_bytes = 1`: the
block `a, ab`, whose tail is the three bytes `varint(0) ‖ "b" ‖ NUL`, and the block `b`. -/
def tail_dictionary : RearCodedArray :=
  RearCodedArray.mk [128, 98, 0] [97, 0, 98, 0]
    [BlockInfo.mk 0 0 0, BlockInfo.mk 2 3 2, BlockInfo.mk 3 3 4] 3 [0, 0]

/-- The input of scenario E2: `["a", "aa", "aaa", "aaaa", "aaaaa"]`. -/
def e2_strings : List (List Nat) :=
  [[97], [97, 97], [97, 97, 97], [97, 97, 97, 97], [97, 97, 97, 97, 97]]

/-- The dictionary the builder returns for the input of E2 with `block_bytes = 8`: the block
`a, aa, aaa, aaaa` and the block `aaaaa`. -/
def e2_dictionary : RearCodedArray :=
  RearCodedArray.mk [128, 97, 0, 128, 97, 0, 128, 97, 0] [97, 0, 97, 97, 97, 97, 97, 0]
    [BlockInfo.mk 0 0 0, BlockInfo.mk 4 9 2, BlockInfo.mk 5 9 8] 5 [0, 0, 0, 0, 0]

/-- The input of scenario E5: `["alpha", "alphabet"]`. -/
def e5_strings : List (List Nat) :=
  [[97, 108, 112, 104, 97], [97, 108, 112, 104, 97, 98, 101, 116]]

/-- The dictionary the builder returns for the input of E5 with `block_bytes = 1`: one block,
`alphabet` stored as the tail record `varint(0) ‖ "bet" ‖ NUL`. -/
def e5_dictionary : RearCodedArray :=
  RearCodedArray.mk [128, 98, 101, 116, 0] [97, 108, 112, 104, 97, 0]
    [BlockInfo.mk 0 0 0, BlockInfo.mk 2 5 6] 2 [0, 0, 0, 0, 0, 0, 0, 0]

/-- The input `["a", "b"]`. -/
def leaders_sample : List (List Nat) := [[97], [98]]

/-- The dictionary the builder returns for `["a", "b"]` with `block_bytes = 0`: two blocks of
one leader each. -/
def leaders_dictionary : RearCodedArray :=
  RearCodedArray.mk [] [97, 0, 98, 0]
    [BlockInfo.mk 0 0 0, BlockInfo.mk 1 0 2, BlockInfo.mk 2 0 4] 2 [0]

/-! ## Queries passed as views into a longer buffer -/

/-- The dictionary the builder returns for `["a", "ab"]` with `block_bytes = 0`: two blocks of
one leader each. -/
def split_dictionary : RearCodedArray :=
  RearCodedArray.mk [] [97, 0, 97, 98, 0]
    [BlockInfo.mk 0 0 0, BlockInfo.mk 1 0 2, BlockInfo.mk 2 0 5] 2 [0, 0]

/-- The input `["a", "abXY"]`. -/
def past_view_strings : List (List Nat) := [[97], [97, 98, 88, 89]]

/-- The dictionary the builder returns for `["a", "abXY"]` with `block_bytes = 0`: two blocks
of one leader each. -/
def past_view_dictionary : RearCodedArray :=
  RearCodedArray.mk [] [97, 0, 97, 98, 88, 89, 0]
    [BlockInfo.mk 0 0 0, BlockInfo.mk 1 0 2, BlockInfo.mk 2 0 7] 2 [0, 0, 0, 0]

/-- The input `["A", "a", "abXY", "ac", "ad", "ae", "af"]`. -/
def carry_strings : List (List Nat) :=
  [[65], [97], [97, 98, 88, 89], [97, 99], [97, 100], [97, 101], [97, 102]]

/-- The dictionary the builder returns for the seven strings of `carry_strings` with
`block_bytes = 0`: seven blocks of one leader each. -/
def carry_dictionary : RearCodedArray :=
  RearCodedArray.mk []
    [65, 0, 97, 0, 97, 98, 88, 89, 0, 97, 99, 0, 97, 100, 0, 97, 101, 0, 97, 102, 0]
    [BlockInfo.mk 0 0 0, BlockInfo.mk 1 0 2, BlockInfo.mk 2 0 4, BlockInfo.mk 3 0 9,
      BlockInfo.mk 4 0 12, BlockInfo.mk 5 0 15, BlockInfo.mk 6 0 18, BlockInfo.mk 7 0 21]
    7 [0, 0, 0, 0]

/-! ## 7-bit data -/

/-- A string of 7-bit data: every byte is in `1..127`. -/
def SevenBit (s : List Nat) : Prop := ∀ b ∈ s, 0 < b ∧ b < 128

instance (s : List Nat) : Decidable (SevenBit s) := by
  unfold SevenBit; exact inferInstance


/-! # Theorems -/

/-! ## Varint codec -/

theorem and_127_of_mod (x : Nat) : (x % 256) &&& 127 = x % 128 := by
  have h := Nat.and_pow_two_sub_one_eq_mod (x % 256) 7
  have h2 : (2 : Nat) ^ 7 - 1 = 127 := by norm_num
  rw [h2] at h
  rw [h]
  omega

theorem or_128_of_le (x : Nat) (h : x ≤ 127) : (x % 256) ||| 128 = x + 128 := by
  have h1 : x % 256 = x := Nat.mod_eq_of_lt (by omega)
  rw [h1]
  have h2 := Nat.mul_add_lt_is_or (show x < 2 ^ 7 by omega) 1
  simp only [Nat.mul_one] at h2
  rw [Nat.or_comm]
  have h3 : (2 : Nat) ^ 7 = 128 := by norm_num
  rw [h3] at h2
  omega

theorem and_127_add_128 (x : Nat) (h : x ≤ 127) : (x + 128) &&& 127 = x := by
  have h1 := Nat.and_pow_two_sub_one_eq_mod (x + 128) 7
  have h2 : (2 : Nat) ^ 7 - 1 = 127 := by norm_num
  rw [h2] at h1
  rw [h1]
  omega

theorem lor_shift (result v shift : Nat) (h : result < 2 ^ shift) :
    result ||| (v <<< shift) = result + v * 2 ^ shift := by
  rw [Nat.shiftLeft_eq, Nat.or_comm, Nat.mul_comm v, ← Nat.mul_add_lt_is_or h v]
  omega

theorem signed_char_nonneg (b : Nat) (h : b < 128) : 0 ≤ signed_char b := by
  unfold signed_char
  have : b % 256 = b := Nat.mod_eq_of_lt (by omega)
  simp [this, h]

theorem signed_char_neg (b : Nat) (h : 128 ≤ b) (h2 : b < 256) : ¬ 0 ≤ signed_char b := by
  unfold signed_char
  have : b % 256 = b := Nat.mod_eq_of_lt h2
  rw [this]
  have : ¬ b < 128 := by omega
  simp only [this, if_false]
  omega

theorem encode_int_loop_append (fuel x : Nat) (out : List Nat) :
    encode_int_loop fuel x out = out ++ encode_int_loop fuel x [] := by
  induction fuel generalizing x out with
  | zero => simp [encode_int_loop]
  | succ f ih =>
    unfold encode_int_loop
    by_cases h : x > 127
    · simp only [h, if_true]
      rw [ih (x >>> 7) (out ++ [x % 256 &&& 127]), ih (x >>> 7) ([] ++ [x % 256 &&& 127])]
      simp
    · simp [h]

theorem encode_int_append (x : Nat) (out : List Nat) :
    encode_int x out = out ++ encode_int x [] :=
  encode_int_loop_append x x out

theorem decode_final (x result shift : Nat) (rest : List Nat) (hx' : x ≤ 127)
    (hs : shift < 64) (hxb : x < 2 ^ (64 - shift)) (hr : result < 2 ^ shift) :
    decode_int_loop ((x % 256 ||| 128) :: rest) result shift
      = some (result + x * 2 ^ shift, rest) := by
  have hs' : ¬ 64 ≤ shift := by omega
  rw [or_128_of_le x hx']
  unfold decode_int_loop
  have hn := signed_char_neg (x + 128) (by omega) (by omega)
  simp only [hs', if_false, hn]
  rw [and_127_add_128 x hx']
  have hlt : x <<< shift < 2 ^ 64 := by
    rw [Nat.shiftLeft_eq]
    calc x * 2 ^ shift < 2 ^ (64 - shift) * 2 ^ shift :=
          Nat.mul_lt_mul_of_pos_right hxb (by positivity)
      _ = 2 ^ 64 := by rw [← Nat.pow_add]; congr 1; omega
  rw [Nat.mod_eq_of_lt hlt, lor_shift _ _ _ hr]

theorem decode_encode_loop (fuel : Nat) : ∀ (x result shift : Nat) (rest : List Nat),
    x ≤ fuel → shift < 64 → x < 2 ^ (64 - shift) → result < 2 ^ shift →
    decode_int_loop (encode_int_loop fuel x [] ++ rest) result shift
      = some (result + x * 2 ^ shift, rest) := by
  induction fuel with
  | zero =>
    intro x result shift rest hx hs hxb hr
    simp only [encode_int_loop, List.nil_append, List.singleton_append]
    exact decode_final x result shift rest (by omega) hs hxb hr
  | succ f ih =>
    intro x result shift rest hx hs hxb hr
    have hs' : ¬ 64 ≤ shift := by omega
    unfold encode_int_loop
    by_cases h : x > 127
    · simp only [h, if_true, List.nil_append]
      rw [encode_int_loop_append, and_127_of_mod]
      simp only [List.singleton_append, List.cons_append]
      unfold decode_int_loop
      have hb : x % 128 < 128 := Nat.mod_lt _ (by norm_num)
      simp only [hs', if_false, signed_char_nonneg _ hb, if_true]
      have hsh : shift + 7 < 64 := by
        by_contra hc
        have : 64 - shift ≤ 7 := by omega
        have : 2 ^ (64 - shift) ≤ 2 ^ 7 := Nat.pow_le_pow_right (by norm_num) this
        omega
      have hmod : (shift + 7) % 256 = shift + 7 := Nat.mod_eq_of_lt (by omega)
      have hlt : (x % 128) <<< shift < 2 ^ 64 := by
        rw [Nat.shiftLeft_eq]
        calc x % 128 * 2 ^ shift < 2 ^ 7 * 2 ^ shift :=
              Nat.mul_lt_mul_of_pos_right (by omega) (by positivity)
          _ = 2 ^ (7 + shift) := by rw [Nat.pow_add]
          _ ≤ 2 ^ 64 := Nat.pow_le_pow_right (by norm_num) (by omega)
      rw [hmod, Nat.mod_eq_of_lt hlt, lor_shift _ _ _ hr]
      have hx7 : x >>> 7 = x / 128 := by rw [Nat.shiftRight_eq_div_pow]
      rw [hx7]
      have hxf : x / 128 ≤ f := by omega
      have hxb' : x / 128 < 2 ^ (64 - (shift + 7)) := by
        have e : 2 ^ (64 - shift) = 2 ^ (64 - (shift + 7)) * 128 := by
          have : 64 - shift = (64 - (shift + 7)) + 7 := by omega
          rw [this, Nat.pow_add]
        rw [e] at hxb
        exact Nat.div_lt_of_lt_mul (by rw [Nat.mul_comm]; exact hxb)
      have hr' : result + x % 128 * 2 ^ shift < 2 ^ (shift + 7) := by
        rw [Nat.pow_add]
        have : x % 128 * 2 ^ shift ≤ 127 * 2 ^ shift := Nat.mul_le_mul_right _ (by omega)
        have e : 2 ^ shift * 2 ^ 7 = 128 * 2 ^ shift := by ring
        omega
      rw [List.nil_append, ih (x / 128) _ (shift + 7) rest hxf hsh hxb' hr']
      have e : 2 ^ (shift + 7) = 128 * 2 ^ shift := by rw [Nat.pow_add]; ring
      rw [e]
      have key : x % 128 * 2 ^ shift + x / 128 * (128 * 2 ^ shift) = x * 2 ^ shift := by
        have hdm := Nat.div_add_mod x 128
        calc x % 128 * 2 ^ shift + x / 128 * (128 * 2 ^ shift)
            = (128 * (x / 128) + x % 128) * 2 ^ shift := by ring
          _ = x * 2 ^ shift := by rw [hdm]
      rw [Nat.add_assoc, key]
    · have hx' : x ≤ 127 := by omega
      simp only [h, if_false, List.nil_append, List.singleton_append]
      exact decode_final x result shift rest hx' hs hxb hr

theorem decode_encode (x : Nat) (rest : List Nat) (hx : x < 2 ^ 64) :
    decode_int (encode_int x [] ++ rest) = some (x, rest) := by
  unfold decode_int encode_int
  rw [decode_encode_loop x x 0 0 rest (Nat.le_refl _) (by norm_num) (by simpa using hx)
    (by norm_num)]
  simp


/-! ## The builder computes a layout -/

theorem tail_records_snoc (l : List Nat) (ss : List (List Nat)) (s : List Nat) :
    tail_records l (ss ++ [s]) = tail_records l ss ++ tail_record (block_last l ss) s := by
  induction ss generalizing l with
  | nil => simp [tail_records, block_last]
  | cons a as ih => simp [tail_records, block_last, ih]

theorem layout_strings_append (bs cs : List Block) :
    layout_strings (bs ++ cs) = layout_strings bs ++ layout_strings cs := by
  induction bs with
  | nil => simp [layout_strings]
  | cons b bs ih => simp [layout_strings, ih]

theorem layout_headers_append (bs cs : List Block) :
    layout_headers (bs ++ cs) = layout_headers bs ++ layout_headers cs := by
  induction bs with
  | nil => simp [layout_headers]
  | cons b bs ih => simp [layout_headers, ih]

theorem layout_data_append (bs cs : List Block) :
    layout_data (bs ++ cs) = layout_data bs ++ layout_data cs := by
  induction bs with
  | nil => simp [layout_data]
  | cons b bs ih => simp [layout_data, ih]

theorem layout_info_congr (cs : List Block) {a b c a1 b1 c1 : Nat} (ha : a = a1) (hb : b = b1)
    (hc : c = c1) : layout_info a b c cs = layout_info a1 b1 c1 cs := by
  subst ha hb hc; rfl

theorem layout_info_append (bs cs : List Block) (n d h : Nat) :
    layout_info n d h (bs ++ cs) = layout_info n d h bs ++
      layout_info (n + (layout_strings bs).length) (d + (layout_data bs).length)
        (h + (layout_headers bs).length) cs := by
  induction bs generalizing n d h with
  | nil => simp [layout_info, layout_strings, layout_data, layout_headers]
  | cons b bs ih =>
    rw [List.cons_append]
    simp only [layout_info]
    rw [ih]
    simp only [List.cons_append, List.cons.injEq, true_and, List.append_cancel_left_eq]
    apply layout_info_congr
    · simp [layout_strings]; omega
    · simp [layout_data]; omega
    · simp [layout_headers]; omega

theorem layout_prev_snoc (bs : List Block) (b : Block) :
    layout_prev (bs ++ [b]) = block_last b.1 b.2 := by
  induction bs with
  | nil => simp [layout_prev]
  | cons a as ih =>
    cases as with
    | nil => simp [layout_prev]
    | cons c cs => simpa [layout_prev] using ih

theorem block_last_snoc (l : List Nat) (ss : List (List Nat)) (s : List Nat) :
    block_last l (ss ++ [s]) = s := by
  induction ss generalizing l with
  | nil => simp [block_last]
  | cons a as ih => simp [block_last, ih]

theorem represents_init : Represents [] BuildState.init := by
  simp [Represents, BuildState.init, layout_data, layout_headers, layout_info, layout_strings,
    layout_prev]

theorem build_step_represents (bb : Nat) (hbb : bb < 2 ^ 64) (bs : List Block)
    (st st1 : BuildState) (s : List Nat) (hrep : Represents bs st)
    (hstep : build_step bb st s = Except.ok st1) :
    ∃ bs1, Represents bs1 st1 ∧ layout_strings bs1 = layout_strings bs ++ [s] := by
  obtain ⟨hd, hh, hi, hn, hp⟩ := hrep
  unfold build_step at hstep
  by_cases hle : string_le s st.prev = true
  · simp [hle] at hstep
  · simp only [hle] at hstep
    cases hc : current_block_bytes st with
    | none => simp [hc] at hstep
    | some cbb =>
      simp only [hc] at hstep
      by_cases hge : cbb ≥ bb
      · simp only [hge, if_true] at hstep
        injection hstep with hstep
        subst hstep
        refine ⟨bs ++ [(s, [])], ⟨?_, ?_, ?_, ?_, ?_⟩, ?_⟩
        · simp [layout_data_append, layout_data, tail_records, hd]
        · simp [layout_headers_append, layout_headers, hh]
        · simp [layout_info_append, layout_info, hi, BlockInfo.trunc, hn, hd, hh]
        · simp [layout_strings_append, layout_strings, hn]
        · simp [layout_prev_snoc, block_last]
        · simp [layout_strings_append, layout_strings]
      · simp only [hge, if_false] at hstep
        injection hstep with hstep
        subst hstep
        have hn0 : st.n ≠ 0 := by
          intro h0
          simp [current_block_bytes, h0] at hc
          omega
        have hne : bs ≠ [] := by
          intro h0
          subst h0
          simp [layout_strings] at hn
          exact hn0 hn
        obtain ⟨init, b, rfl⟩ : ∃ init b, bs = init ++ [b] := by
          rcases List.eq_nil_or_concat bs with h | ⟨init, b, h⟩
          · exact absurd h hne
          · exact ⟨init, b, by simpa using h⟩
        refine ⟨init ++ [(b.1, b.2 ++ [s])], ⟨?_, ?_, ?_, ?_, ?_⟩, ?_⟩
        · simp only [layout_data_append, layout_data, tail_records_snoc, List.append_nil]
          rw [encode_int_append, hd, hp, layout_prev_snoc]
          simp [layout_data_append, layout_data, tail_record]
        · simp [layout_headers_append, layout_headers, hh]
        · simp [layout_info_append, layout_info, hi]
        · simp [layout_strings_append, layout_strings, hn]
          omega
        · simp [layout_prev_snoc, block_last_snoc]
        · simp [layout_strings_append, layout_strings]

theorem build_loop_represents (bb : Nat) (hbb : bb < 2 ^ 64) (S : List (List Nat)) :
    ∀ (bs : List Block) (st st1 : BuildState), Represents bs st →
      build_loop bb S st = Except.ok st1 →
      ∃ bs1, Represents bs1 st1 ∧ layout_strings bs1 = layout_strings bs ++ S := by
  induction S with
  | nil =>
    intro bs st st1 hrep h
    simp only [build_loop] at h
    injection h with h
    subst h
    exact ⟨bs, hrep, by simp⟩
  | cons s rest ih =>
    intro bs st st1 hrep h
    simp only [build_loop] at h
    cases hs : build_step bb st s with
    | error e => simp [hs] at h
    | ok st2 =>
      simp only [hs] at h
      obtain ⟨bs2, hrep2, hstr2⟩ := build_step_represents bb hbb bs st st2 s hrep hs
      obtain ⟨bs1, hrep1, hstr1⟩ := ih bs2 st2 st1 hrep2 h
      exact ⟨bs1, hrep1, by simp [hstr1, hstr2]⟩


theorem layout_index_from_eq (bs : List Block) (n d h : Nat) :
    layout_index_from n d h bs = layout_info n d h bs ++
      [BlockInfo.mk (n + (layout_strings bs).length) (d + (layout_data bs).length)
        (h + (layout_headers bs).length)] := by
  induction bs generalizing n d h with
  | nil => simp [layout_index_from, layout_info, layout_strings, layout_data, layout_headers]
  | cons b bs ih =>
    simp only [layout_index_from, layout_info]
    rw [ih]
    have e1 : n + (b.2.length + 1) + (layout_strings bs).length
        = n + (layout_strings (b :: bs)).length := by simp [layout_strings]; omega
    have e2 : d + (tail_records b.1 b.2).length + (layout_data bs).length
        = d + (layout_data (b :: bs)).length := by simp [layout_data]; omega
    have e3 : h + (b.1.length + 1) + (layout_headers bs).length
        = h + (layout_headers (b :: bs)).length := by simp [layout_headers]; omega
    rw [e1, e2, e3]
    rfl

theorem layout_index_from_append (bs cs : List Block) (n d h : Nat) :
    layout_index_from n d h (bs ++ cs) = layout_info n d h bs ++
      layout_index_from (n + (layout_strings bs).length) (d + (layout_data bs).length)
        (h + (layout_headers bs).length) cs := by
  induction bs generalizing n d h with
  | nil => simp [layout_info, layout_strings, layout_data, layout_headers]
  | cons b bs ih =>
    rw [List.cons_append]
    simp only [layout_index_from, layout_info]
    rw [ih]
    simp only [List.cons_append, List.cons.injEq, true_and, List.append_cancel_left_eq]
    have e : ∀ {a b c a1 b1 c1 : Nat}, a = a1 → b = b1 → c = c1 →
        layout_index_from a b c cs = layout_index_from a1 b1 c1 cs := by
      intro a b c a1 b1 c1 ha hb hc; subst ha hb hc; rfl
    apply e
    · simp [layout_strings]; omega
    · simp [layout_data]; omega
    · simp [layout_headers]; omega

theorem layout_info_length (bs : List Block) (n d h : Nat) :
    (layout_info n d h bs).length = bs.length := by
  induction bs generalizing n d h with
  | nil => simp [layout_info]
  | cons b bs ih => simp [layout_info, ih]

theorem layout_index_length (bs : List Block) : (layout_index bs).length = bs.length + 1 := by
  simp [layout_index, layout_index_from_eq, layout_info_length]

theorem layout_info_bound (bs : List Block) (n d h : Nat) :
    ∀ e ∈ layout_info n d h bs, e.count ≤ n + (layout_strings bs).length ∧
      e.data_pointer ≤ d + (layout_data bs).length ∧
      e.header_pointer ≤ h + (layout_headers bs).length := by
  induction bs generalizing n d h with
  | nil => simp [layout_info]
  | cons b bs ih =>
    intro e he
    simp only [layout_info, List.mem_cons] at he
    rcases he with rfl | he
    · simp
    · have := ih _ _ _ e he
      simp only [layout_strings, layout_data, layout_headers, List.length_append,
        List.length_cons, List.length_nil]
      omega

theorem layout_info_count_lt (bs : List Block) (n d h : Nat) :
    ∀ e ∈ layout_info n d h bs, e.count < n + (layout_strings bs).length := by
  induction bs generalizing n d h with
  | nil => simp [layout_info]
  | cons b bs ih =>
    intro e he
    simp only [layout_info, List.mem_cons] at he
    rcases he with rfl | he
    · simp [layout_strings]
    · have := ih _ _ _ e he
      simp only [layout_strings, List.length_append, List.length_cons]
      omega

theorem trunc_eq_self (e : BlockInfo) (h1 : e.count < 2 ^ 32) (h2 : e.data_pointer < 2 ^ 32)
    (h3 : e.header_pointer < 2 ^ 32) : e.trunc = e := by
  cases e
  simp only [BlockInfo.trunc, BlockInfo.make, BlockInfo.mk.injEq]
  exact ⟨Nat.mod_eq_of_lt h1, Nat.mod_eq_of_lt h2, Nat.mod_eq_of_lt h3⟩

theorem map_trunc_layout_info (bs : List Block)
    (h1 : (layout_strings bs).length < 2 ^ 32) (h2 : (layout_data bs).length < 2 ^ 32)
    (h3 : (layout_headers bs).length < 2 ^ 32) :
    (layout_info 0 0 0 bs).map BlockInfo.trunc = layout_info 0 0 0 bs := by
  have hb := layout_info_bound bs 0 0 0
  have : ∀ e ∈ layout_info 0 0 0 bs, BlockInfo.trunc e = id e := by
    intro e he
    have := hb e he
    exact trunc_eq_self e (by omega) (by omega) (by omega)
  rw [List.map_congr_left this, List.map_id]

theorem build_unfold (S : List (List Nat)) (bb : Nat) (r : RearCodedArray)
    (hb : build S bb = Except.ok r) :
    ∃ st, build_loop bb S BuildState.init = Except.ok st ∧ r = finish st ∧
      blocks_count r ≠ 0 := by
  unfold build at hb
  split at hb
  · cases hb
  · rename_i st hl
    dsimp only at hb
    split at hb
    · cases hb
    · split at hb
      · cases hb
      · rename_i h0
        injection hb with hb
        exact ⟨st, hl, hb.symm, by rw [← hb]; exact h0⟩

/-- A successful build yields the layout of a non-empty list of blocks whose strings are the
input, provided the sizes fit the 32-bit index. -/
theorem build_layout (S : List (List Nat)) (bb : Nat) (r : RearCodedArray)
    (hbb : bb < 2 ^ 64) (hb : build S bb = Except.ok r) (hf : FitsOffsets S r) :
    ∃ bs, bs ≠ [] ∧ layout_strings bs = S ∧ Layout bs r := by
  obtain ⟨st, hl, hr, hB⟩ := build_unfold S bb r hb
  obtain ⟨bs, hrep, hstr⟩ := build_loop_represents bb hbb S [] _ st represents_init hl
  simp only [layout_strings, List.nil_append] at hstr
  obtain ⟨hd, hh, hi, hn, _⟩ := hrep
  obtain ⟨f1, f2, f3, _⟩ := hf
  have hrd : r.data = layout_data bs := by rw [hr]; simp [finish, hd]
  have hrh : r.headers = layout_headers bs := by rw [hr]; simp [finish, hh]
  have hrn : r.n = (layout_strings bs).length := by rw [hr]; simp [finish, hn]
  rw [hrd] at f2
  rw [hrh] at f3
  rw [hrn] at f1
  have hri : r.info = layout_index bs := by
    rw [hr]
    simp only [finish, List.replicate_zero, List.append_nil]
    rw [hi, map_trunc_layout_info bs f1 f2 f3, layout_index, layout_index_from_eq, hn, hd, hh]
    simp only [Nat.zero_add, BlockInfo.make, Nat.mod_eq_of_lt f1, Nat.mod_eq_of_lt f2,
      Nat.mod_eq_of_lt f3]
  refine ⟨bs, ?_, hstr, hrd, hrh, hri, hrn⟩
  intro h0
  subst h0
  apply hB
  simp [blocks_count, hri, layout_index, layout_index_from]


/-! ## Reading a layout -/

theorem layout_index_from_head (bs : List Block) (n d h : Nat) :
    (layout_index_from n d h bs)[0]? = some (BlockInfo.mk n d h) := by
  cases bs <;> simp [layout_index_from]

theorem layout_index_entry (pre : List Block) (blk : Block) (post : List Block) :
    (layout_index (pre ++ blk :: post))[pre.length]? =
      some (BlockInfo.mk (layout_strings pre).length (layout_data pre).length
        (layout_headers pre).length) := by
  rw [layout_index, layout_index_from_append]
  rw [List.getElem?_append_right (by simp [layout_info_length])]
  simp [layout_info_length, layout_index_from]

theorem layout_index_entry_succ (pre : List Block) (blk : Block) (post : List Block) :
    (layout_index (pre ++ blk :: post))[pre.length + 1]? =
      some (BlockInfo.mk ((layout_strings pre).length + (blk.2.length + 1))
        ((layout_data pre).length + (tail_records blk.1 blk.2).length)
        ((layout_headers pre).length + (blk.1.length + 1))) := by
  rw [layout_index, layout_index_from_append]
  rw [List.getElem?_append_right (by simp [layout_info_length])]
  simp only [layout_info_length, Nat.add_sub_cancel_left, layout_index_from, Nat.zero_add,
    List.getElem?_cons_succ]
  exact layout_index_from_head _ _ _ _

theorem layout_index_last (bs : List Block) :
    (layout_index bs)[bs.length]? =
      some (BlockInfo.mk (layout_strings bs).length (layout_data bs).length
        (layout_headers bs).length) := by
  rw [layout_index, layout_index_from_eq]
  rw [List.getElem?_append_right (by simp [layout_info_length])]
  simp [layout_info_length]

theorem block_split (bs : List Block) (b : Nat) (hb : b < bs.length) :
    ∃ pre blk post, bs = pre ++ blk :: post ∧ pre.length = b := by
  refine ⟨bs.take b, bs[b], bs.drop (b + 1), ?_, ?_⟩
  · rw [← List.drop_eq_getElem_cons hb, List.take_append_drop]
  · simp; omega

theorem layout_strings_at_leader (pre : List Block) (blk : Block) (post : List Block) :
    (layout_strings (pre ++ blk :: post)).getD (layout_strings pre).length [] = blk.1 := by
  rw [layout_strings_append, List.getD_eq_getElem?_getD,
    List.getElem?_append_right (Nat.le_refl _)]
  simp [layout_strings]

theorem layout_length_le (bs : List Block) : bs.length ≤ (layout_strings bs).length := by
  induction bs with
  | nil => simp
  | cons b bs ih => simp [layout_strings]; omega

theorem info_at_of_getElem (r : RearCodedArray) (b : Nat) (e : BlockInfo)
    (h : r.info[b]? = some e) : info_at r b = e := by
  simp [info_at, List.getD_eq_getElem?_getD, h]

/-- The consecutive entries of a built dictionary's index around block `b`. -/
theorem layout_block (bs : List Block) (r : RearCodedArray) (hl : Layout bs r) (b : Nat)
    (hb : b < bs.length) :
    ∃ pre blk post, bs = pre ++ blk :: post ∧ pre.length = b ∧
      r.info[b]? = some (BlockInfo.mk (layout_strings pre).length (layout_data pre).length
        (layout_headers pre).length) ∧
      r.info[b + 1]? = some (BlockInfo.mk ((layout_strings pre).length + (blk.2.length + 1))
        ((layout_data pre).length + (tail_records blk.1 blk.2).length)
        ((layout_headers pre).length + (blk.1.length + 1))) := by
  obtain ⟨pre, blk, post, hbs, hlen⟩ := block_split bs b hb
  obtain ⟨_, _, hi, _⟩ := hl
  refine ⟨pre, blk, post, hbs, hlen, ?_, ?_⟩
  · rw [hi, hbs, ← hlen]; exact layout_index_entry pre blk post
  · rw [hi, hbs, ← hlen]; exact layout_index_entry_succ pre blk post

theorem blocks_count_layout (bs : List Block) (r : RearCodedArray) (hl : Layout bs r) :
    blocks_count r = bs.length := by
  obtain ⟨_, _, hi, _⟩ := hl
  simp [blocks_count, hi, layout_index_length]

theorem index_step_facts (S : List (List Nat)) (bb : Nat) (r : RearCodedArray)
    (hbb : bb < 2 ^ 64) (hb : build S bb = Except.ok r) (hf : FitsOffsets S r) (b : Nat)
    (hlt : b < blocks_count r) :
    (info_at r b).count < (info_at r (b + 1)).count ∧
    (info_at r b).header_pointer ≤ (info_at r (b + 1)).header_pointer ∧
    (info_at r b).data_pointer ≤ (info_at r (b + 1)).data_pointer ∧
    (info_at r (b + 1)).header_pointer
      = (info_at r b).header_pointer + ((S.getD (info_at r b).count []).length + 1) := by
  obtain ⟨bs, _, hstr, hl⟩ := build_layout S bb r hbb hb hf
  rw [blocks_count_layout bs r hl] at hlt
  obtain ⟨pre, blk, post, hbs, _, h1, h2⟩ := layout_block bs r hl b hlt
  rw [info_at_of_getElem r b _ h1, info_at_of_getElem r (b + 1) _ h2]
  have hS : S.getD (layout_strings pre).length [] = blk.1 := by
    rw [← hstr, hbs]; exact layout_strings_at_leader pre blk post
  dsimp only
  rw [hS]
  refine ⟨?_, ?_, ?_, ?_⟩ <;> omega

theorem index_mono (S : List (List Nat)) (bb : Nat) (r : RearCodedArray)
    (hbb : bb < 2 ^ 64) (hb : build S bb = Except.ok r) (hf : FitsOffsets S r) (b k : Nat)
    (hk : b + k ≤ blocks_count r) :
    (info_at r b).header_pointer ≤ (info_at r (b + k)).header_pointer ∧
    (info_at r b).data_pointer ≤ (info_at r (b + k)).data_pointer := by
  induction k with
  | zero => simp
  | succ k ih =>
    have h1 := ih (by omega)
    have h2 := index_step_facts S bb r hbb hb hf (b + k) (by omega)
    rw [← Nat.add_assoc]
    omega

/-! ## C strings and longest common prefixes -/

theorem cstr_append_nul (s rest : List Nat) (h : NulFree s) : cstr (s ++ 0 :: rest) = s := by
  induction s with
  | nil => simp [cstr]
  | cons a as ih =>
    have ha : 0 < a := (h a (List.mem_cons_self _ _)).1
    have has : NulFree as := fun b hb => h b (List.mem_cons_of_mem _ hb)
    have ha' : (a != 0) = true := by simp; omega
    have := ih has
    simp only [cstr] at this ⊢
    simp [List.takeWhile, ha', this]

theorem nulfree_drop (s : List Nat) (k : Nat) (h : NulFree s) : NulFree (s.drop k) :=
  fun b hb => h b (List.mem_of_mem_drop hb)

theorem compute_lcp_le_left (a b : List Nat) : compute_lcp a b ≤ a.length := by
  induction a generalizing b with
  | nil => simp [compute_lcp]
  | cons x xs ih =>
    cases b with
    | nil => simp [compute_lcp]
    | cons y ys =>
      simp only [compute_lcp]
      split
      · have := ih ys; simp; omega
      · simp

theorem compute_lcp_le_right (a b : List Nat) : compute_lcp a b ≤ b.length := by
  induction a generalizing b with
  | nil => simp [compute_lcp]
  | cons x xs ih =>
    cases b with
    | nil => simp [compute_lcp]
    | cons y ys =>
      simp only [compute_lcp]
      split
      · have := ih ys; simp; omega
      · simp

theorem compute_lcp_take (a b : List Nat) :
    a.take (compute_lcp a b) = b.take (compute_lcp a b) := by
  induction a generalizing b with
  | nil => simp [compute_lcp]
  | cons x xs ih =>
    cases b with
    | nil => simp [compute_lcp]
    | cons y ys =>
      simp only [compute_lcp]
      split
      · rename_i hxy
        subst hxy
        simp [ih ys]
      · simp

theorem stpcpy_spec (out : List Nat) (pos : Nat) (s rest : List Nat) (hs : NulFree s)
    (hcap : pos + s.length + 1 ≤ out.length) :
    stpcpy out pos (s ++ 0 :: rest) =
      some (out.take pos ++ s ++ [0] ++ out.drop (pos + s.length + 1), pos + s.length) := by
  unfold stpcpy
  simp only [cstr_append_nul s rest hs]
  simp [hcap]

/-! ## Access replays a block -/

theorem access_loop_spec (rest : List (List Nat)) :
    ∀ (k : Nat) (cur junk out : List Nat), k ≤ rest.length →
      out.take (cur.length + 1) = cur ++ [0] →
      (∀ s ∈ rest, NulFree s) → (∀ s ∈ rest, s.length < out.length) →
      cur.length < 2 ^ 64 → (∀ s ∈ rest, s.length < 2 ^ 64) →
      ∃ out1, access_loop k (tail_records cur rest ++ junk) out cur.length
          = some (out1, ((cur :: rest).getD k []).length) ∧
        out1.length = out.length ∧
        out1.take (((cur :: rest).getD k []).length + 1) = (cur :: rest).getD k [] ++ [0] := by
  induction rest with
  | nil =>
    intro k cur junk out hk hout _ _ _ _
    have : k = 0 := by simpa using hk
    subst this
    exact ⟨out, by simp [access_loop], rfl, by simpa using hout⟩
  | cons s ss ih =>
    intro k cur junk out hk hout hnul hcap hlen hlens
    cases k with
    | zero => exact ⟨out, by simp [access_loop], rfl, by simpa using hout⟩
    | succ k =>
      have hs : NulFree s := hnul s (List.mem_cons_self _ _)
      have hscap : s.length < out.length := hcap s (List.mem_cons_self _ _)
      have hl1 := compute_lcp_le_left cur s
      have hl2 := compute_lcp_le_right cur s
      have hdata : tail_records cur (s :: ss) ++ junk =
          encode_int (cur.length - compute_lcp cur s) [] ++
            (s.drop (compute_lcp cur s) ++ 0 :: (tail_records s ss ++ junk)) := by
        simp [tail_records, tail_record]
      have hdl : (s.drop (compute_lcp cur s)).length = s.length - compute_lcp cur s := by simp
      have hptr : cur.length - (cur.length - compute_lcp cur s) = compute_lcp cur s := by omega
      have hst := stpcpy_spec out (compute_lcp cur s) (s.drop (compute_lcp cur s))
        (tail_records s ss ++ junk) (nulfree_drop s _ hs) (by rw [hdl]; omega)
      have hnot : ¬ cur.length < cur.length - compute_lcp cur s := by omega
      unfold access_loop
      rw [hdata, decode_encode _ _ (by omega)]
      simp only [hnot, if_false, hptr, hst]
      have htmp : compute_lcp cur s + (s.drop (compute_lcp cur s)).length = s.length := by
        rw [hdl]; omega
      have hdrop : (s.drop (compute_lcp cur s) ++ 0 :: (tail_records s ss ++ junk)).drop
          (compute_lcp cur s + (s.drop (compute_lcp cur s)).length - compute_lcp cur s + 1)
          = tail_records s ss ++ junk := by
        have e : compute_lcp cur s + (s.drop (compute_lcp cur s)).length - compute_lcp cur s + 1
            = (s.drop (compute_lcp cur s) ++ [0]).length := by simp
        rw [e]
        have e2 : s.drop (compute_lcp cur s) ++ 0 :: (tail_records s ss ++ junk)
            = (s.drop (compute_lcp cur s) ++ [0]) ++ (tail_records s ss ++ junk) := by simp
        rw [e2, List.drop_left]
      rw [hdrop, htmp]
      have houtlen : cur.length + 1 ≤ out.length := by
        have := congrArg List.length hout
        simp at this
        omega
      have htake : out.take (compute_lcp cur s) = s.take (compute_lcp cur s) := by
        have h1 : out.take (compute_lcp cur s) = (out.take (cur.length + 1)).take
            (compute_lcp cur s) := by
          rw [List.take_take]; congr 1; omega
        rw [h1, hout, List.take_append_of_le_length hl1, compute_lcp_take]
      have hnew : out.take (compute_lcp cur s) ++ s.drop (compute_lcp cur s) ++ [0] ++
          out.drop (s.length + 1) = (s ++ [0]) ++ out.drop (s.length + 1) := by
        rw [htake, List.take_append_drop]
      rw [hnew]
      have hnewlen : ((s ++ [0]) ++ out.drop (s.length + 1)).length = out.length := by
        simp; omega
      obtain ⟨out1, h1, h2, h3⟩ := ih k s junk ((s ++ [0]) ++ out.drop (s.length + 1))
        (by simpa using hk)
        (by
          have e : s.length + 1 = (s ++ [0]).length := by simp
          rw [e, List.take_left])
        (fun t ht => hnul t (List.mem_cons_of_mem _ ht))
        (fun t ht => by rw [hnewlen]; exact hcap t (List.mem_cons_of_mem _ ht))
        (hlens s (List.mem_cons_self _ _))
        (fun t ht => hlens t (List.mem_cons_of_mem _ ht))
      refine ⟨out1, ?_, ?_, ?_⟩
      · simpa using h1
      · rw [h2, hnewlen]
      · simpa using h3


theorem upper_bound_append (i : Nat) (l1 l2 : List BlockInfo)
    (h : ∀ e ∈ l1, e.count ≤ i) :
    upper_bound i (l1 ++ l2) = l1.length + upper_bound i l2 := by
  induction l1 with
  | nil => simp
  | cons a as ih =>
    have ha : ¬ i < a.count := by
      have := h a (List.mem_cons_self _ _); omega
    have := ih (fun e he => h e (List.mem_cons_of_mem _ he))
    rw [List.cons_append]
    simp only [upper_bound, ha, if_false, List.length_cons]
    rw [this]
    omega

theorem upper_bound_layout (pre : List Block) (blk : Block) (post : List Block) (k : Nat)
    (hk : k ≤ blk.2.length) :
    upper_bound ((layout_strings pre).length + k) (layout_index (pre ++ blk :: post))
      = pre.length + 1 := by
  rw [layout_index, layout_index_from_append, upper_bound_append]
  · rw [layout_info_length]
    simp only [layout_index_from, Nat.zero_add, upper_bound]
    have h1 : ¬ (layout_strings pre).length + k < (layout_strings pre).length := by omega
    simp only [h1, if_false]
    cases post with
    | nil =>
      simp only [layout_index_from, upper_bound]
      have : (layout_strings pre).length + k < (layout_strings pre).length + (blk.2.length + 1) := by
        omega
      simp [this]
    | cons c cs =>
      simp only [layout_index_from, upper_bound]
      have : (layout_strings pre).length + k < (layout_strings pre).length + (blk.2.length + 1) := by
        omega
      simp [this]
  · intro e he
    have := layout_info_count_lt pre 0 0 0 e he
    omega

theorem locate (bs : List Block) : ∀ (i : Nat), i < (layout_strings bs).length →
    ∃ pre blk post k, bs = pre ++ blk :: post ∧ i = (layout_strings pre).length + k ∧
      k ≤ blk.2.length ∧ (layout_strings bs).getD i [] = (blk.1 :: blk.2).getD k [] := by
  induction bs with
  | nil => intro i hi; simp [layout_strings] at hi
  | cons b bs ih =>
    intro i hi
    by_cases hlt : i < b.2.length + 1
    · refine ⟨[], b, bs, i, by simp, by simp [layout_strings], by omega, ?_⟩
      simp only [layout_strings, List.getD_eq_getElem?_getD]
      rw [List.getElem?_append_left (by simpa using hlt)]
    · simp only [layout_strings, List.length_append, List.length_cons] at hi
      obtain ⟨pre, blk, post, k, h1, h2, h3, h4⟩ := ih (i - (b.2.length + 1)) (by omega)
      refine ⟨b :: pre, blk, post, k, by simp [h1], ?_, h3, ?_⟩
      · simp only [layout_strings, List.length_append, List.length_cons]; omega
      · rw [← h4]
        simp only [layout_strings, List.getD_eq_getElem?_getD]
        rw [List.getElem?_append_right (by simp; omega)]
        simp

theorem layout_headers_drop (pre : List Block) (blk : Block) (post : List Block) :
    (layout_headers (pre ++ blk :: post)).drop (layout_headers pre).length
      = blk.1 ++ 0 :: layout_headers post := by
  rw [layout_headers_append, List.drop_left]
  simp [layout_headers]

theorem layout_data_drop (pre : List Block) (blk : Block) (post : List Block) :
    (layout_data (pre ++ blk :: post)).drop (layout_data pre).length
      = tail_records blk.1 blk.2 ++ layout_data post := by
  rw [layout_data_append, List.drop_left]
  simp [layout_data]

theorem mem_layout_strings_leader (pre : List Block) (blk : Block) (post : List Block) :
    blk.1 ∈ layout_strings (pre ++ blk :: post) := by
  rw [layout_strings_append]
  simp [layout_strings]

theorem mem_layout_strings_follower (pre : List Block) (blk : Block) (post : List Block)
    (s : List Nat) (hs : s ∈ blk.2) : s ∈ layout_strings (pre ++ blk :: post) := by
  rw [layout_strings_append]
  simp [layout_strings, hs]

/-- The run of `access` on position `|pre| + k` of a layout: block `pre ++ [blk]` is selected
and the replay leaves string `k` of `blk` in `out`. -/
theorem access_layout (r : RearCodedArray) (pre : List Block) (blk : Block)
    (post : List Block) (hl : Layout (pre ++ blk :: post) r) (k : Nat) (hk : k ≤ blk.2.length)
    (out : List Nat)
    (hnul : ∀ s ∈ layout_strings (pre ++ blk :: post), NulFree s)
    (hcap : ∀ s ∈ layout_strings (pre ++ blk :: post), s.length < out.length)
    (hlen : ∀ s ∈ layout_strings (pre ++ blk :: post), s.length < 2 ^ 64)
    (hk64 : (layout_strings pre).length + k < 2 ^ 64) :
    ∃ out1, access r ((layout_strings pre).length + k) out
        = some (out1, ((blk.1 :: blk.2).getD k []).length + 1) ∧
      out1.length = out.length ∧
      out1.take (((blk.1 :: blk.2).getD k []).length + 1) = (blk.1 :: blk.2).getD k [] ++ [0] := by
  obtain ⟨hd, hh, hi, _⟩ := hl
  have hlead := mem_layout_strings_leader pre blk post
  have hfol := mem_layout_strings_follower pre blk post
  have hub := upper_bound_layout pre blk post k hk
  have hent := layout_index_entry pre blk post
  have hst := stpcpy_spec out 0 blk.1 (layout_headers post) (hnul _ hlead)
    (by have := hcap _ hlead; omega)
  have hiter : ((layout_strings pre).length + k + 2 ^ 64 - (layout_strings pre).length) % 2 ^ 64
      = k := by
    have : (layout_strings pre).length + k + 2 ^ 64 - (layout_strings pre).length
        = k + 2 ^ 64 := by omega
    rw [this, Nat.add_mod_right]
    exact Nat.mod_eq_of_lt (by omega)
  obtain ⟨out1, h1, h2, h3⟩ := access_loop_spec blk.2 k blk.1 (layout_data post)
    (List.take 0 out ++ blk.1 ++ [0] ++ List.drop (0 + blk.1.length + 1) out) hk
    (by
      have e : blk.1.length + 1 = (List.take 0 out ++ blk.1 ++ [0]).length := by simp
      rw [e, List.take_left]; simp)
    (fun s hs => hnul s (hfol s hs))
    (fun s hs => by
      have := hcap s (hfol s hs)
      have := hcap _ hlead
      simp; omega)
    (hlen _ hlead)
    (fun s hs => hlen s (hfol s hs))
  refine ⟨out1, ?_, ?_, h3⟩
  · unfold access block_containing_position
    rw [hi, hub]
    simp only [Nat.add_one_ne_zero, if_false, Nat.add_sub_cancel, hent, hh,
      layout_headers_drop, hst, hiter, hd, layout_data_drop]
    simp only [Nat.zero_add] at h1 ⊢
    rw [h1]
  · rw [h2]
    have := hcap _ hlead
    simp; omega


theorem cstr_of_take (out s : List Nat) (hs : NulFree s)
    (h : out.take (s.length + 1) = s ++ [0]) : cstr out = s := by
  have e : out = s ++ 0 :: out.drop (s.length + 1) := by
    conv_lhs => rw [← List.take_append_drop (s.length + 1) out, h]
    simp
  rw [e]
  exact cstr_append_nul s _ hs

theorem getD_eq_getElem (S : List (List Nat)) (i : Nat) (hi : i < S.length) :
    S.getD i [] = S[i] := by
  simp [List.getD_eq_getElem?_getD, List.getElem?_eq_getElem hi]

/-- The core of the access round-trip, shared by the statements on `access` and on the header
iterator. -/
theorem access_spec (S : List (List Nat)) (bb : Nat) (r : RearCodedArray) (i : Nat)
    (out : List Nat) (hbb : bb < 2 ^ 64) (hnul : ∀ s ∈ S, NulFree s)
    (hb : build S bb = Except.ok r) (hf : FitsOffsets S r) (hi : i < S.length)
    (hcap : ∀ s ∈ S, s.length < out.length) :
    ∃ out1, access r i out = some (out1, (S.getD i []).length + 1) ∧
      out1.length = out.length ∧
      out1.take ((S.getD i []).length + 1) = S.getD i [] ++ [0] := by
  obtain ⟨bs, _, hstr, hl⟩ := build_layout S bb r hbb hb hf
  subst hstr
  obtain ⟨pre, blk, post, k, hbs, hik, hk, hget⟩ := locate bs i hi
  subst hbs
  have hn : (layout_strings (pre ++ blk :: post)).length < 2 ^ 32 := by
    have := hf.1; rw [hl.2.2.2] at this; exact this
  have hlen : ∀ s ∈ layout_strings (pre ++ blk :: post), s.length < 2 ^ 64 := by
    intro s hs
    have := hf.2.2.2 s hs
    omega
  have := access_layout r pre blk post hl k hk out hnul hcap hlen (by omega)
  rw [hget, hik]
  exact this


/-! ## The builder rejects disorder -/

theorem current_block_bytes_some (bs : List Block) (st : BuildState)
    (hrep : Represents bs st) : ∃ cbb, current_block_bytes st = some cbb := by
  obtain ⟨_, _, hi, hn, _⟩ := hrep
  unfold current_block_bytes
  by_cases h0 : st.n = 0
  · simp [h0]
  · simp only [h0, if_false]
    cases hg : st.info.getLast? with
    | some e => exact ⟨_, rfl⟩
    | none =>
      exfalso
      rw [List.getLast?_eq_none_iff] at hg
      have hlen := congrArg List.length hi
      rw [hg, List.length_map, layout_info_length] at hlen
      have : bs = [] := List.length_eq_zero.mp hlen.symm
      subst this
      simp [layout_strings] at hn
      exact h0 hn

theorem build_step_sorted (bb : Nat) (bs : List Block) (st : BuildState) (s : List Nat)
    (hrep : Represents bs st) (hs : string_le s st.prev = false) :
    ∃ st1, build_step bb st s = Except.ok st1 ∧ st1.prev = s := by
  obtain ⟨cbb, hc⟩ := current_block_bytes_some bs st hrep
  unfold build_step
  simp only [hs, hc]
  by_cases hge : cbb ≥ bb
  · simp only [hge, if_true]
    exact ⟨_, rfl, rfl⟩
  · simp only [hge, if_false]
    exact ⟨_, rfl, rfl⟩

theorem build_loop_rejects (bb : Nat) (hbb : bb < 2 ^ 64) (S : List (List Nat)) :
    ∀ (bs : List Block) (st : BuildState) (k : Nat), Represents bs st → k < S.length →
      string_le (S.getD k []) ((st.prev :: S).getD k []) = true →
      build_loop bb S st = Except.error (Fault.invalid_argument "data is not sorted") := by
  induction S with
  | nil => intro bs st k _ hk _; simp at hk
  | cons s rest ih =>
    intro bs st k hrep hk hle
    simp only [build_loop]
    by_cases hs : string_le s st.prev = true
    · simp [build_step, hs]
    · have hs' : string_le s st.prev = false := by simpa using hs
      obtain ⟨st1, hstep, hprev⟩ := build_step_sorted bb bs st s hrep hs'
      obtain ⟨bs1, hrep1, _⟩ := build_step_represents bb hbb bs st st1 s hrep hstep
      rw [hstep]
      cases k with
      | zero => simp [hs'] at hle
      | succ k =>
        simp only [List.getD_cons_succ] at hle
        exact ih bs1 st1 k hrep1 (by simpa using hk) (by rw [hprev]; exact hle)


/-! ## Sample runs -/

theorem sample_build : build sample_strings 8 = Except.ok sample_dictionary := rfl

theorem sample_fits : FitsOffsets sample_strings sample_dictionary := by
  unfold FitsOffsets sample_strings sample_dictionary
  decide

theorem sample_nulfree : ∀ s ∈ sample_strings, NulFree s := by
  unfold sample_strings; decide

/-! ## The claims -/

/-- C1 (access round-trip): for every input `S` of NUL-free byte strings on which the
constructor succeeds (any `block_bytes` a `size_t` holds, sizes within the 32-bit index),
every `i < N` and every output buffer longer than each string of `S`, `access(i, out)`
returns and leaves in `out`, from its first byte, exactly the bytes of `S[i]` followed by a
NUL; the buffer keeps its size and the C string it holds is `S[i]`. -/
theorem access_round_trip (S : List (List Nat)) (bb : Nat) (r : RearCodedArray) (i : Nat)
    (out : List Nat) (hbb : bb < 2 ^ 64) (hnul : ∀ s ∈ S, NulFree s)
    (hb : build S bb = Except.ok r) (hf : FitsOffsets S r) (hi : i < S.length)
    (hcap : ∀ s ∈ S, s.length < out.length) :
    ∃ out1 ret, access r i out = some (out1, ret) ∧ out1.length = out.length ∧
      out1.take (S[i].length + 1) = S[i] ++ [0] ∧ cstr out1 = S[i] := by
  obtain ⟨out1, h1, h2, h3⟩ := access_spec S bb r i out hbb hnul hb hf hi hcap
  rw [getD_eq_getElem S i hi] at h1 h3
  exact ⟨out1, _, h1, h2, h3, cstr_of_take out1 S[i] (hnul _ (List.getElem_mem _)) h3⟩

theorem access_round_trip_witness :
    build sample_strings 8 = Except.ok sample_dictionary ∧
    ∃ out1 ret, access sample_dictionary 1 [7, 7, 7, 7] = some (out1, ret) ∧
      out1.length = 4 ∧ out1.take 3 = [97, 98, 0] ∧ cstr out1 = [97, 98] :=
  ⟨sample_build, access_round_trip sample_strings 8 sample_dictionary 1 [7, 7, 7, 7]
    (by decide) sample_nulfree sample_build sample_fits (by decide) (by decide)⟩

/-- C2 (failing input): on the dictionary built from `["a"]` the query `"\x80"`, which is
greater than `"a"` in the unsigned byte order, gets rank 0, while the linear scan counts one
string `<= q`: `block_rank` compares `pattern[lcp] < header_ptr[lcp]` through signed `char`. -/
theorem rank_high_byte_query :
    build [[97]] 8 = Except.ok single_dictionary ∧
    rank single_dictionary [128] 1 = some 0 ∧ linear_scan_rank [[97]] [128] = 1 :=
  ⟨rfl, by decide, by decide⟩

/-- C3 (failing input): on the dictionary built from `["a", "a\x80"]` the member `S[0] = "a"`
gets rank 2 instead of 1 and the member `S[1] = "a\x80"` gets rank 0 instead of 2. -/
theorem rank_high_byte_member :
    build [[97], [97, 128]] 8 = Except.ok high_byte_dictionary ∧
    rank high_byte_dictionary [97] 1 = some 2 ∧
    rank high_byte_dictionary [97, 128] 2 = some 0 :=
  ⟨rfl, by decide, by decide⟩

/-- C4 (failing input): on the dictionary built from `["a"]` the queries `"b" <= "\x80"`
(unsigned byte order) get the ranks 1 and 0. -/
theorem rank_high_byte_not_monotone :
    build [[97]] 8 = Except.ok single_dictionary ∧ string_le [98] [128] = true ∧
    rank single_dictionary [98] 1 = some 1 ∧ rank single_dictionary [128] 1 = some 0 :=
  ⟨rfl, by decide, by decide, by decide⟩

/-- C5 (failing input): on the dictionary built from `["a"]`, whose block 0 holds the one
string `"a"` and has `count[0] = 0`, the two-argument rank of `"\x80"` in block 0 is 0, while
one string of the block is `<= "\x80"`. -/
theorem rank_in_block_high_byte :
    build [[97]] 8 = Except.ok single_dictionary ∧ (info_at single_dictionary 0).count = 0 ∧
    rank_in_block single_dictionary [128] 1 0 = some 0 ∧
    linear_scan_rank [[97]] [128] = 1 :=
  ⟨rfl, by decide, by decide, by decide⟩

/-- C6 (the builder rejects disorder): for every `block_bytes` a `size_t` holds, the
constructor throws `invalid_argument` on every input in which some string is `<=` its
predecessor, and so on `["b", "a"]` and on `["a", "a"]`; no object is returned. -/
theorem builder_rejects_disorder (bb : Nat) (hbb : bb < 2 ^ 64) :
    (∀ (S : List (List Nat)) (k : Nat), k + 1 < S.length →
      string_le (S.getD (k + 1) []) (S.getD k []) = true →
      build S bb = Except.error (Fault.invalid_argument "data is not sorted")) ∧
    build [[98], [97]] bb = Except.error (Fault.invalid_argument "data is not sorted") ∧
    build [[97], [97]] bb = Except.error (Fault.invalid_argument "data is not sorted") := by
  have key : ∀ (S : List (List Nat)) (k : Nat), k + 1 < S.length →
      string_le (S.getD (k + 1) []) (S.getD k []) = true →
      build S bb = Except.error (Fault.invalid_argument "data is not sorted") := by
    intro S k hk hle
    have := build_loop_rejects bb hbb S [] BuildState.init (k + 1) represents_init hk
      (by simpa using hle)
    simp [build, this]
  exact ⟨key, key [[98], [97]] 0 (by decide) (by decide),
    key [[97], [97]] 0 (by decide) (by decide)⟩

theorem builder_rejects_disorder_witness :
    8 < 2 ^ 64 ∧
    build [[98], [97]] 8 = Except.error (Fault.invalid_argument "data is not sorted") ∧
    build [[97], [97]] 8 = Except.error (Fault.invalid_argument "data is not sorted") ∧
    build [[97], [99], [98]] 8 = Except.error (Fault.invalid_argument "data is not sorted") :=
  ⟨by decide, (builder_rejects_disorder 8 (by decide)).2.1,
    (builder_rejects_disorder 8 (by decide)).2.2,
    (builder_rejects_disorder 8 (by decide)).1 [[97], [99], [98]] 1 (by decide) (by decide)⟩

/-- C7 (varint round-trip): for every `x < 2^63` and every byte sequence `rest`, `decode_int`
on the bytes `encode_int` emits for `x` followed by `rest` returns `x` and leaves the cursor
at `rest`, that is advanced by exactly the number of bytes emitted; `encode_int` appends
these bytes to whatever `out` holds. -/
theorem varint_round_trip (x : Nat) (rest : List Nat) (hx : x < 2 ^ 63) :
    decode_int (encode_int x [] ++ rest) = some (x, rest) ∧
    (encode_int x [] ++ rest).drop (encode_int x []).length = rest ∧
    ∀ out, encode_int x out = out ++ encode_int x [] :=
  ⟨decode_encode x rest (by omega), List.drop_left _ _, fun out => encode_int_append x out⟩

theorem varint_round_trip_witness :
    300 < 2 ^ 63 ∧ encode_int 300 [] = [44, 130] ∧
    decode_int (encode_int 300 [] ++ [1, 2]) = some (300, [1, 2]) :=
  ⟨by decide, by decide, (varint_round_trip 300 [1, 2] (by decide)).1⟩

/-- C8 (header iteration): in a dictionary the builder returns (NUL-free input, sizes within
the 32-bit index) `headers_end() - headers_begin()` is the number of blocks `B`, and for every
`b < B` dereferencing `headers_begin() + b` gives a pointer to the bytes of `S[count[b]]`
followed by a NUL, so the C string there is `S[count[b]]`, the same bytes
`access(count[b], out)` leaves in `out`. -/
theorem header_iteration (S : List (List Nat)) (bb : Nat) (r : RearCodedArray)
    (hbb : bb < 2 ^ 64) (hnul : ∀ s ∈ S, NulFree s) (hb : build S bb = Except.ok r)
    (hf : FitsOffsets S r) :
    (headers_end r).diff (headers_begin r) = Int.ofNat (blocks_count r) ∧
    ∀ b, b < blocks_count r →
      (info_at r b).count < S.length ∧
      ∃ p rest, ((headers_begin r).add b).deref = some p ∧
        p = S.getD (info_at r b).count [] ++ 0 :: rest ∧
        cstr p = S.getD (info_at r b).count [] ∧
        ∀ out, (∀ s ∈ S, s.length < out.length) →
          ∃ out1 ret, access r (info_at r b).count out = some (out1, ret) ∧
            cstr out1 = cstr p := by
  obtain ⟨bs, _, hstr, hl⟩ := build_layout S bb r hbb hb hf
  have hB := blocks_count_layout bs r hl
  have hBn : blocks_count r < 2 ^ 32 := by
    have h1 := layout_length_le bs
    have h2 := hf.1
    rw [hl.2.2.2] at h2
    omega
  refine ⟨?_, ?_⟩
  · simp only [HeaderIterator.diff, headers_end, headers_begin, Nat.zero_mod, Nat.sub_zero,
      Nat.add_mod_right]
    rw [Nat.mod_eq_of_lt (by omega)]
    simp only [show blocks_count r < 2 ^ 63 by omega, if_true]
  · intro b hlt
    have hlt' : b < bs.length := by rw [← hB]; exact hlt
    obtain ⟨pre, blk, post, hbs, _, h1, _⟩ := layout_block bs r hl b hlt'
    have hcount : (info_at r b).count = (layout_strings pre).length := by
      rw [info_at_of_getElem r b _ h1]
    have hS : S.getD (layout_strings pre).length [] = blk.1 := by
      rw [← hstr, hbs]; exact layout_strings_at_leader pre blk post
    have hin : (layout_strings pre).length < S.length := by
      rw [← hstr, hbs, layout_strings_append]
      simp [layout_strings]
    have hleadnul : NulFree blk.1 := by
      apply hnul
      rw [← hstr, hbs]
      exact mem_layout_strings_leader pre blk post
    rw [hcount, hS]
    refine ⟨hin, blk.1 ++ 0 :: layout_headers post, layout_headers post, ?_, rfl,
      cstr_append_nul _ _ hleadnul, ?_⟩
    · simp only [HeaderIterator.deref, HeaderIterator.add, headers_begin, Nat.zero_add]
      rw [Nat.mod_eq_of_lt (by omega), h1]
      simp only [hl.2.1, hbs, layout_headers_drop]
    · intro out hcap
      obtain ⟨out1, ha, _, ht⟩ := access_spec S bb r (layout_strings pre).length out hbb hnul
        hb hf hin hcap
      rw [hS] at ha ht
      exact ⟨out1, _, ha, by
        rw [cstr_append_nul _ _ hleadnul]; exact cstr_of_take out1 blk.1 hleadnul ht⟩

theorem header_iteration_witness :
    build sample_strings 8 = Except.ok sample_dictionary ∧
    (headers_end sample_dictionary).diff (headers_begin sample_dictionary) = 1 ∧
    ∃ p, ((headers_begin sample_dictionary).add 0).deref = some p ∧ cstr p = [97] ∧
      ∃ out1 ret, access sample_dictionary 0 [7, 7, 7, 7] = some (out1, ret) ∧
        cstr out1 = cstr p := by
  have h := header_iteration sample_strings 8 sample_dictionary (by decide) sample_nulfree
    sample_build sample_fits
  obtain ⟨_, p, _, hp, _, hc, hacc⟩ := h.2 0 (by decide)
  obtain ⟨out1, ret, ha, hcs⟩ := hacc [7, 7, 7, 7] (by decide)
  exact ⟨sample_build, h.1, p, hp, hc, out1, ret, ha, hcs⟩

/-- C9 (block-index invariant): in a dictionary the builder returns (sizes within the 32-bit
index), the index has `B + 1` entries, `count[0] = 0`, `count[B] = N`, `count` increases
strictly from each block to the next, `header_off` and `tail_off` are nondecreasing, and for
every block `b < B`, the last one included (its successor is the sentinel entry),
`header_off[b+1] - header_off[b] = len(leader_b) + 1`, where `leader_b` is the input string
number `count[b]`. -/
theorem block_index_invariant (S : List (List Nat)) (bb : Nat) (r : RearCodedArray)
    (hbb : bb < 2 ^ 64) (hb : build S bb = Except.ok r) (hf : FitsOffsets S r) :
    r.info.length = blocks_count r + 1 ∧
    (info_at r 0).count = 0 ∧
    (info_at r (blocks_count r)).count = S.length ∧
    (∀ b, b < blocks_count r → (info_at r b).count < (info_at r (b + 1)).count) ∧
    (∀ b c, b ≤ c → c ≤ blocks_count r →
      (info_at r b).header_pointer ≤ (info_at r c).header_pointer ∧
      (info_at r b).data_pointer ≤ (info_at r c).data_pointer) ∧
    (∀ b, b < blocks_count r →
      (info_at r (b + 1)).header_pointer - (info_at r b).header_pointer
        = (S.getD (info_at r b).count []).length + 1) := by
  obtain ⟨bs, hne, hstr, hl⟩ := build_layout S bb r hbb hb hf
  have hB := blocks_count_layout bs r hl
  refine ⟨?_, ?_, ?_, ?_, ?_, ?_⟩
  · rw [hB, hl.2.2.1, layout_index_length]
  · have h0 : r.info[0]? = some (BlockInfo.mk 0 0 0) := by
      rw [hl.2.2.1, layout_index]; exact layout_index_from_head bs 0 0 0
    rw [info_at_of_getElem r 0 _ h0]
  · have h1 := layout_index_last bs
    rw [← hl.2.2.1] at h1
    rw [hB, info_at_of_getElem r _ _ h1, hstr]
  · intro b hlt
    exact (index_step_facts S bb r hbb hb hf b hlt).1
  · intro b c hbc hc
    obtain ⟨k, rfl⟩ := Nat.exists_eq_add_of_le hbc
    exact index_mono S bb r hbb hb hf b k hc
  · intro b hlt
    have := (index_step_facts S bb r hbb hb hf b hlt).2.2.2
    omega

theorem block_index_invariant_witness :
    build sample_strings 8 = Except.ok sample_dictionary ∧
    blocks_count sample_dictionary = 1 ∧
    (info_at sample_dictionary 0).count = 0 ∧
    (info_at sample_dictionary 1).count = 2 ∧
    (info_at sample_dictionary 1).header_pointer - (info_at sample_dictionary 0).header_pointer
      = 1 + 1 :=
  ⟨sample_build, by decide,
    (block_index_invariant sample_strings 8 sample_dictionary (by decide) sample_build
      sample_fits).2.1,
    (block_index_invariant sample_strings 8 sample_dictionary (by decide) sample_build
      sample_fits).2.2.1,
    (block_index_invariant sample_strings 8 sample_dictionary (by decide) sample_build
      sample_fits).2.2.2.2.2 0 (by decide)⟩

/-- C10 (failing input): for the empty input, whatever `block_bytes`, the constructor does not
return: its header-statistics loop starts at `headers_begin() + 1` and reads `info[1]` while
`info` holds the sentinel alone.  On the members set up by then, `rank("x")` reads
`info[block + 1] = info[1]` as well and has no defined result. -/
theorem empty_input_faults (bb : Nat) :
    build [] bb = Except.error Fault.out_of_range ∧
    empty_dictionary.info.length = 1 ∧ blocks_count empty_dictionary = 0 ∧
    block_containing_string empty_dictionary [120] 1 = some 0 ∧
    empty_dictionary.info[0 + 1]? = none ∧
    rank empty_dictionary [120] 1 = none :=
  ⟨rfl, by decide, by decide, by decide, by decide, by decide⟩

/-! ## Longest common prefixes, byte by byte and word by word -/

theorem read_nil (i : Nat) : read [] i = 0 := by simp [read]

theorem read_cons_zero (a : Nat) (l : List Nat) : read (a :: l) 0 = a := by simp [read]

theorem read_cons_succ (a : Nat) (l : List Nat) (i : Nat) : read (a :: l) (i + 1) = read l i := by
  simp [read]

theorem read_append_left (A t : List Nat) (i : Nat) (h : i < A.length) :
    read (A ++ t) i = read A i := by
  simp [read, List.getD_eq_getElem?_getD, List.getElem?_append_left h]

theorem read_append_right (A t : List Nat) (k : Nat) :
    read (A ++ t) (A.length + k) = read t k := by
  simp [read, List.getD_eq_getElem?_getD, List.getElem?_append_right]

theorem read_mem (A : List Nat) (i : Nat) (h : i < A.length) : read A i ∈ A := by
  simp only [read, List.getD_eq_getElem?_getD, List.getElem?_eq_getElem h, Option.getD_some]
  exact List.getElem_mem _

theorem read_pos (A : List Nat) (hA : NulFree A) (i : Nat) (h : i < A.length) :
    0 < read A i ∧ read A i < 256 := hA _ (read_mem A i h)

theorem compute_lcp_read_eq (A B : List Nat) :
    ∀ k, k < compute_lcp A B → read A k = read B k := by
  induction A generalizing B with
  | nil => intro k hk; simp [compute_lcp] at hk
  | cons a as ih =>
    cases B with
    | nil => intro k hk; simp [compute_lcp] at hk
    | cons b bs =>
      intro k hk
      simp only [compute_lcp] at hk
      split at hk
      · rename_i hab
        cases k with
        | zero => simp [read_cons_zero, hab]
        | succ k => simp only [read_cons_succ]; exact ih bs k (by omega)
      · omega

theorem compute_lcp_read_ne (A B : List Nat) (h1 : compute_lcp A B < A.length)
    (h2 : compute_lcp A B < B.length) :
    read A (compute_lcp A B) ≠ read B (compute_lcp A B) := by
  induction A generalizing B with
  | nil => simp at h1
  | cons a as ih =>
    cases B with
    | nil => simp at h2
    | cons b bs =>
      simp only [compute_lcp] at h1 h2 ⊢
      split
      · rename_i hab
        simp only [hab, if_true, List.length_cons] at h1 h2
        simp only [read_cons_succ]
        exact ih bs (by omega) (by omega)
      · rename_i hab
        simpa [read_cons_zero] using hab

theorem le_compute_lcp (A B : List Nat) : ∀ i, i ≤ A.length → i ≤ B.length →
    (∀ k, k < i → read A k = read B k) → i ≤ compute_lcp A B := by
  induction A generalizing B with
  | nil => intro i h1 _ _; simp at h1; omega
  | cons a as ih =>
    cases B with
    | nil => intro i _ h2 _; simp at h2; omega
    | cons b bs =>
      intro i h1 h2 hk
      cases i with
      | zero => omega
      | succ i =>
        have h0 := hk 0 (by omega)
        simp only [read_cons_zero] at h0
        simp only [compute_lcp, h0, if_true]
        have := ih bs i (by simpa using h1) (by simpa using h2)
          (fun k hk' => by
            have := hk (k + 1) (by omega)
            simpa [read_cons_succ] using this)
        omega

/-- The facts about a position `i` of the common prefix that the loops use: the bytes the two
regions hold there, when the first region is `A ++ t1`, the second `Bs ++ t2` and `t2` starts
with a NUL (or is empty). -/
theorem read_second (Bs t2 : List Nat) (ht2 : read t2 0 = 0) (i : Nat) (hi : i ≤ Bs.length) :
    (i < Bs.length → read (Bs ++ t2) i = read Bs i) ∧
    (i = Bs.length → read (Bs ++ t2) i = 0) := by
  refine ⟨fun h => read_append_left Bs t2 i h, fun h => ?_⟩
  subst h
  have := read_append_right Bs t2 0
  simpa [ht2] using this

theorem lcp_extend (A t1 Bs t2 : List Nat) (hA : NulFree A) (ht2 : read t2 0 = 0) (i : Nat)
    (hi : i ≤ compute_lcp A Bs) (hlt : i < A.length)
    (heq : read (A ++ t1) i = read (Bs ++ t2) i) : i + 1 ≤ compute_lcp A Bs := by
  have hB : i ≤ Bs.length := le_trans hi (compute_lcp_le_right A Bs)
  have h1 : read (A ++ t1) i = read A i := read_append_left A t1 i hlt
  have hpos := (read_pos A hA i hlt).1
  have hlt2 : i < Bs.length := by
    rcases Nat.lt_or_ge i Bs.length with h | h
    · exact h
    · have := (read_second Bs t2 ht2 i hB).2 (by omega)
      omega
  have h2 := (read_second Bs t2 ht2 i hB).1 hlt2
  apply le_compute_lcp A Bs (i + 1) (by omega) (by omega)
  intro k hk
  rcases Nat.lt_or_ge k i with h | h
  · exact compute_lcp_read_eq A Bs k (by omega)
  · have : k = i := by omega
    subst this
    omega

theorem load64_read (p : List Nat) (i k : Nat) (hk : k < 8) :
    (load64 p i).getD k 0 = read p (i + k) := by
  unfold load64
  interval_cases k <;> rfl

theorem word_loop_spec (A t1 Bs t2 : List Nat) (hA : NulFree A) (ht2 : read t2 0 = 0) :
    ∀ (fuel i : Nat), i ≤ compute_lcp A Bs →
      word_loop (A ++ t1) A.length (Bs ++ t2) fuel i ≤ compute_lcp A Bs := by
  intro fuel
  induction fuel with
  | zero => intro i hi; simpa [word_loop] using hi
  | succ f ih =>
    intro i hi
    unfold word_loop
    split
    · rename_i hc
      apply ih
      have hstep : ∀ k, k ≤ 8 → i + k ≤ compute_lcp A Bs := by
        intro k
        induction k with
        | zero => intro _; simpa using hi
        | succ k ihk =>
          intro hk
          have h1 := ihk (by omega)
          have hw := congrArg (fun l => l.getD k 0) hc.2
          simp only [load64_read _ _ _ (show k < 8 by omega)] at hw
          have := lcp_extend A t1 Bs t2 hA ht2 (i + k) h1 (by omega) hw
          omega
      exact hstep 8 (Nat.le_refl _)
    · exact hi

theorem lcp64_loop_spec (A t1 Bs t2 : List Nat) (hA : NulFree A) (ht2 : read t2 0 = 0) :
    ∀ (k i : Nat), i ≤ compute_lcp A Bs → A.length - i ≤ k →
      lcp64_loop (A ++ t1) A.length (Bs ++ t2) k i = compute_lcp A Bs := by
  intro k
  induction k with
  | zero =>
    intro i hi hk
    have := compute_lcp_le_left A Bs
    simp only [lcp64_loop]
    omega
  | succ k ih =>
    intro i hi hk
    have hl := compute_lcp_le_left A Bs
    have hr := compute_lcp_le_right A Bs
    unfold lcp64_loop
    split
    · rename_i hc
      have hlt : i < A.length := by omega
      exact ih (i + 1) (lcp_extend A t1 Bs t2 hA ht2 i hi hlt hc.2) (by omega)
    · rename_i hc
      by_contra hne
      have hlt : i < compute_lcp A Bs := by omega
      apply hc
      refine ⟨by omega, ?_⟩
      rw [read_append_left A t1 i (by omega), read_append_left Bs t2 i (by omega)]
      exact compute_lcp_read_eq A Bs i hlt

/-- The word-wise `lcp64` computes the byte-wise longest common prefix. -/
theorem lcp64_spec (A t1 Bs t2 : List Nat) (hA : NulFree A) (ht2 : read t2 0 = 0) :
    lcp64 (A ++ t1) A.length (Bs ++ t2) = compute_lcp A Bs := by
  unfold lcp64
  exact lcp64_loop_spec A t1 Bs t2 hA ht2 _ _
    (word_loop_spec A t1 Bs t2 hA ht2 _ 0 (Nat.zero_le _)) (Nat.le_refl _)

theorem read_second_lt (Bs t2 : List Nat) (hB : NulFree Bs) (ht2 : read t2 0 = 0) (i : Nat)
    (hi : i ≤ Bs.length) : read (Bs ++ t2) i < 256 := by
  rcases Nat.lt_or_ge i Bs.length with h | h
  · rw [read_append_left Bs t2 i h]; exact (read_pos Bs hB i h).2
  · rw [(read_second Bs t2 ht2 i hi).2 (by omega)]; omega

theorem strcmp_lcp_loop_spec (A t1 Bs t2 : List Nat) (hA : NulFree A) (hB : NulFree Bs)
    (ht1 : read t1 0 = 0) (ht2 : read t2 0 = 0) :
    ∀ (k i : Nat), i ≤ compute_lcp A Bs → A.length - i = k →
      strcmp_lcp_loop (A ++ t1) A.length (Bs ++ t2) k i =
        ((read (A ++ t1) (compute_lcp A Bs) : Int) - (read (Bs ++ t2) (compute_lcp A Bs) : Int),
          compute_lcp A Bs) := by
  intro k
  induction k with
  | zero =>
    intro i hi hk
    have hl := compute_lcp_le_left A Bs
    have hr := compute_lcp_le_right A Bs
    have hil : i = compute_lcp A Bs := by omega
    have hiA : i = A.length := by omega
    have h1 : read (A ++ t1) i = 0 := (read_second A t1 ht1 i (by omega)).2 hiA
    have h2 := read_second_lt Bs t2 hB ht2 i (by omega)
    simp only [strcmp_lcp_loop, h1, Nat.zero_mod, Nat.mod_eq_of_lt h2]
    rw [← hil, h1]
    split
    · simp
    · rename_i hc
      have : read (Bs ++ t2) i = 0 := by omega
      simp [this]
  | succ k ih =>
    intro i hi hk
    have hl := compute_lcp_le_left A Bs
    have hr := compute_lcp_le_right A Bs
    have hlt : i < A.length := by omega
    have h1 : read (A ++ t1) i = read A i := read_append_left A t1 i hlt
    have hb1 := read_pos A hA i hlt
    have h2 := read_second_lt Bs t2 hB ht2 i (by omega)
    unfold strcmp_lcp_loop
    simp only [h1, Nat.mod_eq_of_lt hb1.2, Nat.mod_eq_of_lt h2]
    split
    · rename_i hc
      have hil : i = compute_lcp A Bs := by
        by_contra hne
        have hlt2 : i < compute_lcp A Bs := by omega
        apply hc
        rw [read_append_left Bs t2 i (by omega)]
        exact compute_lcp_read_eq A Bs i hlt2
      rw [← hil, h1]
    · rename_i hc
      have hne : ¬ i = A.length := by omega
      simp only [hne, if_false]
      have heq : read (A ++ t1) i = read (Bs ++ t2) i := by
        rw [h1]; omega
      exact ih (i + 1) (lcp_extend A t1 Bs t2 hA ht2 i hi hlt heq) (by omega)

/-- The function `strcmp_lcp` returns the difference of the bytes at the end of the longest
common prefix, and the length of that prefix. -/
theorem strcmp_lcp_spec (A t1 Bs t2 : List Nat) (hA : NulFree A) (hB : NulFree Bs)
    (ht1 : read t1 0 = 0) (ht2 : read t2 0 = 0) :
    strcmp_lcp (A ++ t1) A.length (Bs ++ t2) =
      ((read (A ++ t1) (compute_lcp A Bs) : Int) - (read (Bs ++ t2) (compute_lcp A Bs) : Int),
        compute_lcp A Bs) := by
  unfold strcmp_lcp
  exact strcmp_lcp_loop_spec A t1 Bs t2 hA hB ht1 ht2 _ _
    (word_loop_spec A t1 Bs t2 hA ht2 _ 0 (Nat.zero_le _)) rfl

/-! ## The order of `std::string` -/

theorem string_le_refl (a : List Nat) : string_le a a = true := by
  induction a with
  | nil => rfl
  | cons x xs ih => simp [string_le, ih]

theorem string_le_total (a b : List Nat) (h : string_le a b = false) : string_le b a = true := by
  induction a generalizing b with
  | nil => simp [string_le] at h
  | cons x xs ih =>
    cases b with
    | nil => rfl
    | cons y ys =>
      simp only [string_le] at h ⊢
      by_cases h1 : x < y
      · simp [h1] at h
      · by_cases h2 : y < x
        · simp [h2]
        · simp only [h1, h2, if_false] at h ⊢
          exact ih ys h

theorem string_le_trans (a b c : List Nat) (h1 : string_le a b = true)
    (h2 : string_le b c = true) : string_le a c = true := by
  induction a generalizing b c with
  | nil => rfl
  | cons x xs ih =>
    cases b with
    | nil => simp [string_le] at h1
    | cons y ys =>
      cases c with
      | nil => simp [string_le] at h2
      | cons z zs =>
        simp only [string_le] at h1 h2 ⊢
        by_cases hxy : x < y
        · by_cases hyz : y < z
          · have : x < z := by omega
            simp [this]
          · by_cases hzy : z < y
            · simp [hyz, hzy] at h2
            · have : x < z := by omega
              simp [this]
        · by_cases hyx : y < x
          · simp [hxy, hyx] at h1
          · simp only [hxy, hyx, if_false] at h1
            have hxy' : x = y := by omega
            subst hxy'
            by_cases hyz : x < z
            · simp [hyz]
            · by_cases hzy : z < x
              · simp [hyz, hzy] at h2
              · simp only [hyz, hzy, if_false] at h2 ⊢
                exact ih ys zs h1 h2

theorem string_le_antisymm (a b : List Nat) (h1 : string_le a b = true)
    (h2 : string_le b a = true) : a = b := by
  induction a generalizing b with
  | nil =>
    cases b with
    | nil => rfl
    | cons y ys => simp [string_le] at h2
  | cons x xs ih =>
    cases b with
    | nil => simp [string_le] at h1
    | cons y ys =>
      simp only [string_le] at h1 h2
      by_cases hxy : x < y
      · have : ¬ y < x := by omega
        simp [hxy, this] at h2
      · by_cases hyx : y < x
        · simp [hxy, hyx] at h1
        · simp only [hxy, hyx, if_false] at h1 h2
          have : x = y := by omega
          rw [this, ih ys h1 h2]

theorem string_lt_iff (a b : List Nat) : string_lt a b = true ↔ string_le b a = false := by
  simp [string_lt]

theorem string_lt_le (a b : List Nat) (h : string_lt a b = true) : string_le a b = true :=
  string_le_total b a ((string_lt_iff a b).mp h)

theorem string_lt_of_lt_le (a b c : List Nat) (h1 : string_lt a b = true)
    (h2 : string_le b c = true) : string_lt a c = true := by
  rw [string_lt_iff] at h1 ⊢
  cases h : string_le c a with
  | false => rfl
  | true =>
    have := string_le_trans b c a h2 h
    rw [h1] at this
    exact absurd this (by simp)

theorem string_lt_of_le_lt (a b c : List Nat) (h1 : string_le a b = true)
    (h2 : string_lt b c = true) : string_lt a c = true := by
  rw [string_lt_iff] at h2 ⊢
  cases h : string_le c a with
  | false => rfl
  | true =>
    have := string_le_trans c a b h h1
    rw [h2] at this
    exact absurd this (by simp)

theorem string_lt_trans (a b c : List Nat) (h1 : string_lt a b = true)
    (h2 : string_lt b c = true) : string_lt a c = true :=
  string_lt_of_lt_le a b c h1 (string_lt_le b c h2)

/-! ## Comparing past a common prefix -/

/-- The sign of the byte difference at the end of the longest common prefix decides the
order of the two strings. -/
theorem byte_diff_sign (A t1 Bs t2 : List Nat) (hA : NulFree A) (hB : NulFree Bs)
    (ht1 : read t1 0 = 0) (ht2 : read t2 0 = 0) :
    (0 ≤ (read (A ++ t1) (compute_lcp A Bs) : Int) - (read (Bs ++ t2) (compute_lcp A Bs) : Int))
      ↔ string_le Bs A = true := by
  induction A generalizing Bs with
  | nil =>
    cases Bs with
    | nil => simp [compute_lcp, ht1, ht2, string_le]
    | cons b bs =>
      have hb := (hB b (List.mem_cons_self _ _)).1
      simp only [compute_lcp, List.nil_append, ht1, List.cons_append, read_cons_zero, string_le]
      constructor
      · intro h; omega
      · intro h; simp at h
  | cons a as ih =>
    have hAs : NulFree as := fun x hx => hA x (List.mem_cons_of_mem _ hx)
    cases Bs with
    | nil =>
      simp only [compute_lcp, List.cons_append, read_cons_zero, List.nil_append, ht2, string_le]
      constructor
      · intro _; trivial
      · intro _; omega
    | cons b bs =>
      have hBs : NulFree bs := fun x hx => hB x (List.mem_cons_of_mem _ hx)
      simp only [compute_lcp, string_le]
      by_cases hab : a = b
      · subst hab
        simp only [if_true, List.cons_append, read_cons_succ, Nat.lt_irrefl, if_false]
        exact ih bs hAs hBs
      · simp only [hab, if_false, List.cons_append, read_cons_zero]
        by_cases hlt : b < a
        · simp only [hlt, if_true]
          constructor
          · intro _; trivial
          · intro _; omega
        · have : a < b := by omega
          simp only [hlt, if_false, this, if_true]
          constructor
          · intro h; omega
          · intro h; simp at h

theorem compute_lcp_drop (q l : List Nat) : ∀ m, m ≤ compute_lcp q l →
    compute_lcp (q.drop m) (l.drop m) + m = compute_lcp q l := by
  induction q generalizing l with
  | nil => intro m hm; simp [compute_lcp] at hm; subst hm; simp
  | cons a as ih =>
    cases l with
    | nil => intro m hm; simp [compute_lcp] at hm; subst hm; simp
    | cons b bs =>
      intro m hm
      cases m with
      | zero => simp
      | succ m =>
        simp only [compute_lcp] at hm ⊢
        by_cases hab : a = b
        · simp only [hab, if_true] at hm ⊢
          simp only [List.drop_succ_cons]
          have := ih bs m (by omega)
          omega
        · simp [hab] at hm

theorem string_le_drop (q l : List Nat) : ∀ m, m ≤ compute_lcp q l →
    string_le (l.drop m) (q.drop m) = string_le l q := by
  induction q generalizing l with
  | nil => intro m hm; simp [compute_lcp] at hm; subst hm; simp
  | cons a as ih =>
    cases l with
    | nil => intro m hm; simp [compute_lcp] at hm; subst hm; simp
    | cons b bs =>
      intro m hm
      cases m with
      | zero => simp
      | succ m =>
        simp only [compute_lcp] at hm
        by_cases hab : a = b
        · simp only [hab, if_true] at hm
          subst hab
          simp only [List.drop_succ_cons, string_le, Nat.lt_irrefl, if_false]
          exact ih bs m (by omega)
        · simp [hab] at hm

/-- Between two strings that share `m` bytes with `q`, every string shares `m` bytes with
`q`. -/
theorem compute_lcp_sandwich (q : List Nat) : ∀ (m : Nat) (a x b : List Nat),
    string_le a x = true → string_le x b = true → m ≤ compute_lcp q a → m ≤ compute_lcp q b →
    m ≤ compute_lcp q x := by
  induction q with
  | nil => intro m a x b _ _ h _; simpa [compute_lcp] using h
  | cons c cs ih =>
    intro m a x b hax hxb hma hmb
    cases m with
    | zero => omega
    | succ m =>
      cases a with
      | nil => simp [compute_lcp] at hma
      | cons a0 as =>
        cases b with
        | nil => simp [compute_lcp] at hmb
        | cons b0 bs =>
          simp only [compute_lcp] at hma hmb
          by_cases hca : c = a0
          · by_cases hcb : c = b0
            · subst hca
              subst hcb
              simp only [if_true] at hma hmb
              cases x with
              | nil => simp [string_le] at hax
              | cons x0 xs =>
                simp only [string_le] at hax hxb
                by_cases h1 : c < x0
                · have h2 : ¬ x0 < c := by omega
                  simp [h1, h2] at hxb
                · by_cases h2 : x0 < c
                  · simp [h1, h2] at hax
                  · simp only [h1, h2, if_false] at hax hxb
                    have : c = x0 := by omega
                    subst this
                    simp only [compute_lcp, if_true]
                    have := ih m as xs bs hax hxb (by omega) (by omega)
                    omega
            · simp [hcb] at hmb
          · simp [hca] at hma

/-! ## The search over the block leaders -/

theorem ascending_pairwise (L : List (List Nat)) (h : strictly_ascending L = true) :
    L.Pairwise (fun a b => string_lt a b = true) := by
  induction L with
  | nil => exact List.Pairwise.nil
  | cons a rest ih =>
    cases rest with
    | nil => simp
    | cons b rest2 =>
      simp only [strictly_ascending, Bool.and_eq_true] at h
      have hp := ih h.2
      refine List.Pairwise.cons ?_ hp
      intro x hx
      rcases List.mem_cons.mp hx with rfl | hx
      · exact h.1
      · exact string_lt_trans a b x h.1 ((List.pairwise_cons.mp hp).1 x hx)

theorem pairwise_getD (L : List (List Nat))
    (h : L.Pairwise (fun a b => string_lt a b = true)) (i j : Nat) (hij : i < j)
    (hj : j < L.length) : string_lt (L.getD i []) (L.getD j []) = true := by
  have hi : i < L.length := by omega
  rw [List.getD_eq_getElem?_getD, List.getD_eq_getElem?_getD, List.getElem?_eq_getElem hi,
    List.getElem?_eq_getElem hj]
  exact (List.pairwise_iff_getElem.mp h) i j hi hj hij

theorem pairwise_getD_le (L : List (List Nat))
    (h : L.Pairwise (fun a b => string_lt a b = true)) (i j : Nat) (hij : i ≤ j)
    (hj : j < L.length) : string_le (L.getD i []) (L.getD j []) = true := by
  rcases Nat.lt_or_ge i j with h1 | h1
  · exact string_lt_le _ _ (pairwise_getD L h i j h1 hj)
  · have : i = j := by omega
    subst this
    exact string_le_refl _

/-- One probe of the search: with `m` bytes known to be shared, `strcmp_lcp` past them gives
the order of `q` and leader `i`, and the rest of their common prefix. -/
theorem search_probe (L : List (List Nat)) (r : RearCodedArray) (q t1 : List Nat)
    (hL : ∀ l ∈ L, NulFree l) (hq : NulFree q) (ht1 : read t1 0 = 0) (i m : Nat)
    (hi : i < L.length)
    (hm : m ≤ compute_lcp q (L.getD i [])) (e : BlockInfo) (rest : List Nat)
    (he : r.headers.drop e.header_pointer = L.getD i [] ++ 0 :: rest) :
    (0 ≤ (strcmp_lcp ((q ++ t1).drop m) (q.length - m)
        (r.headers.drop (e.header_pointer + m))).1
      ↔ string_le (L.getD i []) q = true) ∧
    (strcmp_lcp ((q ++ t1).drop m) (q.length - m) (r.headers.drop (e.header_pointer + m))).2 + m
      = compute_lcp q (L.getD i []) := by
  have hLi : NulFree (L.getD i []) := by
    apply hL
    rw [List.getD_eq_getElem?_getD, List.getElem?_eq_getElem hi]
    exact List.getElem_mem _
  have hmq := compute_lcp_le_left q (L.getD i [])
  have hml := compute_lcp_le_right q (L.getD i [])
  have hdrop : r.headers.drop (e.header_pointer + m) = (L.getD i []).drop m ++ 0 :: rest := by
    rw [← List.drop_drop, he, List.drop_append_of_le_length (by omega)]
  have hlen : q.length - m = (q.drop m).length := by simp
  have hqd : (q ++ t1).drop m = q.drop m ++ t1 := List.drop_append_of_le_length (by omega)
  have key := strcmp_lcp_spec (q.drop m) t1 ((L.getD i []).drop m) (0 :: rest)
    (nulfree_drop q m hq) (nulfree_drop _ m hLi) ht1 (read_cons_zero 0 rest)
  have hs := byte_diff_sign (q.drop m) t1 ((L.getD i []).drop m) (0 :: rest)
    (nulfree_drop q m hq) (nulfree_drop _ m hLi) ht1 (read_cons_zero 0 rest)
  rw [hqd, hdrop, hlen, key]
  refine ⟨?_, ?_⟩
  · rw [hs, string_le_drop q (L.getD i []) m hm]
  · exact compute_lcp_drop q (L.getD i []) m hm

/-- The bytes skipped at the middle of the window are shared by `q` and the middle leader. -/
theorem search_skip_le (L : List (List Nat)) (q : List Nat)
    (hasc : L.Pairwise (fun a b => string_lt a b = true)) (lo count llcp rlcp : Nat)
    (hinv : SearchInv L q lo count llcp rlcp) (hc : 0 < count) :
    min llcp rlcp ≤ compute_lcp q (L.getD (lo + count / 2) []) := by
  obtain ⟨h1, _, _, h4, h5⟩ := hinv
  rcases h4 with h4 | ⟨h4a, h4b⟩
  · rw [h4]; simp
  · rcases h5 with h5 | ⟨h5a, h5b⟩
    · rw [h5]; simp
    · have hdiv : count / 2 < count := Nat.div_lt_self hc (by norm_num)
      apply compute_lcp_sandwich q (min llcp rlcp) (L.getD (lo - 1) [])
        (L.getD (lo + count / 2) []) (L.getD (lo + count) [])
      · exact pairwise_getD_le L hasc _ _ (by omega) (by omega)
      · exact pairwise_getD_le L hasc _ _ (by omega) (by omega)
      · exact le_trans (Nat.min_le_left _ _) h4b
      · exact le_trans (Nat.min_le_right _ _) h5b

theorem search_inv_right (L : List (List Nat)) (q : List Nat)
    (hasc : L.Pairwise (fun a b => string_lt a b = true)) (lo count llcp rlcp : Nat)
    (hinv : SearchInv L q lo count llcp rlcp) (hc : 0 < count)
    (hle : string_le (L.getD (lo + count / 2) []) q = true) :
    SearchInv L q (lo + count / 2 + 1) (count - (count / 2 + 1))
      (compute_lcp q (L.getD (lo + count / 2) [])) rlcp := by
  obtain ⟨h1, h2, h3, _, h5⟩ := hinv
  have hdiv : count / 2 < count := Nat.div_lt_self hc (by norm_num)
  have hsum : lo + count / 2 + 1 + (count - (count / 2 + 1)) = lo + count := by omega
  refine ⟨by omega, ?_, ?_, ?_, ?_⟩
  · intro j hj
    exact string_le_trans _ _ _ (pairwise_getD_le L hasc j (lo + count / 2) (by omega)
      (by omega)) hle
  · intro j hj hjl
    exact h3 j (by omega) hjl
  · right
    exact ⟨by omega, by simp⟩
  · rw [hsum]; exact h5

theorem search_inv_left (L : List (List Nat)) (q : List Nat)
    (hasc : L.Pairwise (fun a b => string_lt a b = true)) (lo count llcp rlcp : Nat)
    (hinv : SearchInv L q lo count llcp rlcp) (hc : 0 < count)
    (hle : string_le (L.getD (lo + count / 2) []) q = false) :
    SearchInv L q lo (count / 2) llcp (compute_lcp q (L.getD (lo + count / 2) [])) := by
  obtain ⟨h1, h2, h3, h4, _⟩ := hinv
  have hdiv : count / 2 < count := Nat.div_lt_self hc (by norm_num)
  refine ⟨by omega, h2, ?_, h4, ?_⟩
  · intro j hj hjl
    cases hjq : string_le (L.getD j []) q with
    | false => rfl
    | true =>
      have := string_le_trans _ _ _ (pairwise_getD_le L hasc (lo + count / 2) j hj hjl) hjq
      rw [hle] at this
      exact absurd this (by simp)
  · right
    exact ⟨by omega, Nat.le_refl _⟩

theorem header_table_entry (L : List (List Nat)) (r : RearCodedArray) (hr : HeaderTable L r)
    (i : Nat) (hi : i < L.length) : ∃ e, r.info[i]? = some e := by
  obtain ⟨e, _, he, _⟩ := hr.2 i hi
  exact ⟨e, he⟩

/-- The loop of `block_containing_string` returns, and what it returns splits the leaders into
those `<= q` and those `> q`. -/
theorem search_loop_spec (L : List (List Nat)) (r : RearCodedArray) (q t1 : List Nat)
    (hr : HeaderTable L r) (hasc : L.Pairwise (fun a b => string_lt a b = true))
    (hL : ∀ l ∈ L, NulFree l) (hq : NulFree q) (ht1 : read t1 0 = 0) :
    ∀ (fuel lo count llcp rlcp : Nat), count ≤ fuel → SearchInv L q lo count llcp rlcp →
      ∃ lo1, block_containing_string_loop r (q ++ t1) q.length fuel lo count llcp rlcp
          = some lo1 ∧
        lo1 ≤ L.length ∧ (∀ j, j < lo1 → string_le (L.getD j []) q = true) ∧
        (∀ j, lo1 ≤ j → j < L.length → string_le (L.getD j []) q = false) := by
  intro fuel
  induction fuel with
  | zero =>
    intro lo count llcp rlcp hc hinv
    have : count = 0 := by omega
    subst this
    exact ⟨lo, rfl, by have := hinv.1; omega, hinv.2.1, fun j hj => hinv.2.2.1 j (by omega)⟩
  | succ f ih =>
    intro lo count llcp rlcp hc hinv
    unfold block_containing_string_loop
    by_cases hpos : count > 0
    · simp only [hpos, if_true]
      have hdiv : count / 2 < count := Nat.div_lt_self hpos (by norm_num)
      have hB := hinv.1
      have hi : lo + count / 2 < L.length := by omega
      obtain ⟨e1, he1⟩ := header_table_entry L r hr (lo + count / 2 / 2) (by omega)
      obtain ⟨e2, he2⟩ := header_table_entry L r hr (lo + count / 2 + count / 2 / 2) (by omega)
      obtain ⟨e, rest, he, hhdr⟩ := hr.2 (lo + count / 2) hi
      simp only [he1, he2, he]
      have hskip := search_skip_le L q hasc lo count llcp rlcp hinv hpos
      obtain ⟨hsign, hlcp⟩ := search_probe L r q t1 hL hq ht1 (lo + count / 2)
        (min llcp rlcp) hi hskip e rest hhdr
      rw [hlcp]
      by_cases hge : (strcmp_lcp ((q ++ t1).drop (min llcp rlcp)) (q.length - min llcp rlcp)
          (r.headers.drop (e.header_pointer + min llcp rlcp))).1 ≥ 0
      · simp only [hge, if_true]
        exact ih _ _ _ _ (by omega)
          (search_inv_right L q hasc lo count llcp rlcp hinv hpos (hsign.mp hge))
      · simp only [hge, if_false]
        have hfalse : string_le (L.getD (lo + count / 2) []) q = false := by
          cases h : string_le (L.getD (lo + count / 2) []) q with
          | false => rfl
          | true => exact absurd (hsign.mpr h) hge
        exact ih _ _ _ _ (by omega)
          (search_inv_left L q hasc lo count llcp rlcp hinv hpos hfalse)
    · have : count = 0 := by omega
      subst this
      simp only [Nat.lt_irrefl, if_false, gt_iff_lt]
      exact ⟨lo, rfl, by have := hinv.1; omega, hinv.2.1, fun j hj => hinv.2.2.1 j (by omega)⟩

theorem search_inv_init (L : List (List Nat)) (q : List Nat) :
    SearchInv L q 0 L.length 0 0 :=
  ⟨by omega, fun j hj => by omega, fun j hj hjl => by omega, Or.inl rfl, Or.inl rfl⟩

/-- The offsets skipped by the search never exceed the length of `q` or of the middle
leader. -/
theorem search_skips_spec (L : List (List Nat)) (r : RearCodedArray) (q t1 : List Nat)
    (hr : HeaderTable L r) (hasc : L.Pairwise (fun a b => string_lt a b = true))
    (hL : ∀ l ∈ L, NulFree l) (hq : NulFree q) (ht1 : read t1 0 = 0) :
    ∀ (fuel lo count llcp rlcp : Nat), SearchInv L q lo count llcp rlcp →
      ∀ e ∈ block_containing_string_skips r (q ++ t1) q.length fuel lo count llcp rlcp,
        e.1 < L.length ∧ e.2 ≤ q.length ∧ e.2 ≤ (L.getD e.1 []).length := by
  intro fuel
  induction fuel with
  | zero => intro lo count llcp rlcp _ e he; simp [block_containing_string_skips] at he
  | succ f ih =>
    intro lo count llcp rlcp hinv x hx
    unfold block_containing_string_skips at hx
    by_cases hpos : count > 0
    · simp only [hpos, if_true] at hx
      have hdiv : count / 2 < count := Nat.div_lt_self hpos (by norm_num)
      have hB := hinv.1
      have hi : lo + count / 2 < L.length := by omega
      obtain ⟨e1, he1⟩ := header_table_entry L r hr (lo + count / 2 / 2) (by omega)
      obtain ⟨e2, he2⟩ := header_table_entry L r hr (lo + count / 2 + count / 2 / 2) (by omega)
      obtain ⟨e, rest, he, hhdr⟩ := hr.2 (lo + count / 2) hi
      simp only [he1, he2, he] at hx
      have hskip := search_skip_le L q hasc lo count llcp rlcp hinv hpos
      obtain ⟨hsign, hlcp⟩ := search_probe L r q t1 hL hq ht1 (lo + count / 2)
        (min llcp rlcp) hi hskip e rest hhdr
      rw [hlcp] at hx
      rcases List.mem_cons.mp hx with rfl | hx
      · exact ⟨hi, le_trans hskip (compute_lcp_le_left _ _),
          le_trans hskip (compute_lcp_le_right _ _)⟩
      · by_cases hge : (strcmp_lcp ((q ++ t1).drop (min llcp rlcp)) (q.length - min llcp rlcp)
            (r.headers.drop (e.header_pointer + min llcp rlcp))).1 ≥ 0
        · simp only [hge, if_true] at hx
          exact ih _ _ _ _
            (search_inv_right L q hasc lo count llcp rlcp hinv hpos (hsign.mp hge)) x hx
        · simp only [hge, if_false] at hx
          have hfalse : string_le (L.getD (lo + count / 2) []) q = false := by
            cases h : string_le (L.getD (lo + count / 2) []) q with
            | false => rfl
            | true => exact absurd (hsign.mpr h) hge
          exact ih _ _ _ _
            (search_inv_left L q hasc lo count llcp rlcp hinv hpos hfalse) x hx
    · simp [hpos] at hx

/-! ## The plain search of `rear_coded_array.hpp` -/

theorem strcmp_sign (q : List Nat) (hq : NulFree q) : ∀ (l rest : List Nat), NulFree l →
    (0 ≤ SingleRegion.strcmp q (l ++ 0 :: rest) ↔ string_le l q = true) := by
  induction q with
  | nil =>
    intro l rest hl
    cases l with
    | nil => simp [SingleRegion.strcmp, read_cons_zero, string_le]
    | cons b bs =>
      have hb := hl b (List.mem_cons_self _ _)
      simp only [SingleRegion.strcmp, List.cons_append, read_cons_zero, string_le,
        Nat.mod_eq_of_lt hb.2]
      constructor
      · intro h; omega
      · intro h; simp at h
  | cons a as ih =>
    intro l rest hl
    have ha := hq a (List.mem_cons_self _ _)
    have has : NulFree as := fun x hx => hq x (List.mem_cons_of_mem _ hx)
    cases l with
    | nil =>
      have hne : a ≠ 0 := by omega
      simp [SingleRegion.strcmp, read_cons_zero, string_le, Nat.mod_eq_of_lt ha.2, hne]
    | cons b bs =>
      have hb := hl b (List.mem_cons_self _ _)
      have hbs : NulFree bs := fun x hx => hl x (List.mem_cons_of_mem _ hx)
      simp only [SingleRegion.strcmp, List.cons_append, read_cons_zero, string_le,
        Nat.mod_eq_of_lt ha.2, Nat.mod_eq_of_lt hb.2]
      by_cases hab : a = b
      · subst hab
        have hne : a ≠ 0 := by omega
        simp only [ne_eq, not_true_eq_false, if_false, hne, Nat.lt_irrefl, List.drop_succ_cons,
          List.drop_zero]
        exact ih has bs rest hbs
      · simp only [ne_eq, hab, not_false_eq_true, if_true]
        by_cases hlt : b < a
        · simp only [hlt, if_true]
          constructor
          · intro _; trivial
          · intro _; omega
        · have : a < b := by omega
          simp only [hlt, if_false, this, if_true]
          constructor
          · intro h; omega
          · intro h; simp at h

/-- The comparison `std::strcmp` stops at the first NUL of its first argument: bytes after it
do not matter. -/
theorem strcmp_terminated (t1 : List Nat) (ht1 : read t1 0 = 0) :
    ∀ (q b : List Nat), SingleRegion.strcmp (q ++ t1) b = SingleRegion.strcmp q b := by
  intro q
  induction q with
  | nil =>
    intro b
    cases t1 with
    | nil => rfl
    | cons a as =>
      have ha : a = 0 := by simpa [read_cons_zero] using ht1
      subst ha
      simp only [List.nil_append, SingleRegion.strcmp]
      by_cases hb : read b 0 % 256 = 0
      · simp [hb]
      · have hb2 : ¬ (0 : Nat) = read b 0 % 256 := fun h => hb h.symm
        simp [hb2]
  | cons a as ih =>
    intro b
    rw [List.cons_append, SingleRegion.strcmp, SingleRegion.strcmp, ih]

theorem search_inv_forget (L : List (List Nat)) (q : List Nat) (lo count llcp rlcp : Nat)
    (h : SearchInv L q lo count llcp rlcp) : SearchInv L q lo count 0 0 :=
  ⟨h.1, h.2.1, h.2.2.1, Or.inl rfl, Or.inl rfl⟩

/-- The loop of the plain search returns, and what it returns splits the leaders into those
`<= q` and those `> q`. -/
theorem plain_loop_spec (L : List (List Nat)) (data pointers : List Nat) (q t1 : List Nat)
    (hp : SingleRegion.PointerTable L data pointers)
    (hasc : L.Pairwise (fun a b => string_lt a b = true))
    (hL : ∀ l ∈ L, NulFree l) (hq : NulFree q) (ht1 : read t1 0 = 0) :
    ∀ (fuel lo count : Nat), count ≤ fuel → SearchInv L q lo count 0 0 →
      ∃ lo1, SingleRegion.block_containing_string_loop data pointers (q ++ t1) fuel lo count
          = some lo1 ∧
        lo1 ≤ L.length ∧ (∀ j, j < lo1 → string_le (L.getD j []) q = true) ∧
        (∀ j, lo1 ≤ j → j < L.length → string_le (L.getD j []) q = false) := by
  intro fuel
  induction fuel with
  | zero =>
    intro lo count hc hinv
    have : count = 0 := by omega
    subst this
    exact ⟨lo, rfl, by have := hinv.1; omega, hinv.2.1, fun j hj => hinv.2.2.1 j (by omega)⟩
  | succ f ih =>
    intro lo count hc hinv
    unfold SingleRegion.block_containing_string_loop
    by_cases hpos : count > 0
    · simp only [hpos, if_true]
      have hdiv : count / 2 < count := Nat.div_lt_self hpos (by norm_num)
      have hB := hinv.1
      have hi : lo + count / 2 < L.length := by omega
      obtain ⟨p, rest, hpi, hdat⟩ := hp.2 (lo + count / 2) hi
      have hLi : NulFree (L.getD (lo + count / 2) []) := by
        apply hL
        rw [List.getD_eq_getElem?_getD, List.getElem?_eq_getElem hi]
        exact List.getElem_mem _
      have hsign := strcmp_sign q hq (L.getD (lo + count / 2) []) rest hLi
      simp only [hpi, hdat, strcmp_terminated t1 ht1]
      by_cases hge : SingleRegion.strcmp q (L.getD (lo + count / 2) [] ++ 0 :: rest) ≥ 0
      · simp only [hge, if_true]
        exact ih _ _ (by omega) (search_inv_forget _ _ _ _ _ _
          (search_inv_right L q hasc lo count 0 0 hinv hpos (hsign.mp hge)))
      · simp only [hge, if_false]
        have hfalse : string_le (L.getD (lo + count / 2) []) q = false := by
          cases h : string_le (L.getD (lo + count / 2) []) q with
          | false => rfl
          | true => exact absurd (hsign.mpr h) hge
        exact ih _ _ (by omega) (search_inv_forget _ _ _ _ _ _
          (search_inv_left L q hasc lo count 0 0 hinv hpos hfalse))
    · have : count = 0 := by omega
      subst this
      simp only [Nat.lt_irrefl, if_false, gt_iff_lt]
      exact ⟨lo, rfl, by have := hinv.1; omega, hinv.2.1, fun j hj => hinv.2.2.1 j (by omega)⟩

theorem split_point_unique (L : List (List Nat)) (q : List Nat) (a b : Nat)
    (ha : a ≤ L.length) (hb : b ≤ L.length)
    (ha1 : ∀ j, j < a → string_le (L.getD j []) q = true)
    (ha2 : ∀ j, a ≤ j → j < L.length → string_le (L.getD j []) q = false)
    (hb1 : ∀ j, j < b → string_le (L.getD j []) q = true)
    (hb2 : ∀ j, b ≤ j → j < L.length → string_le (L.getD j []) q = false) : a = b := by
  rcases Nat.lt_trichotomy a b with h | h | h
  · have h1 := hb1 a h
    have h2 := ha2 a (Nat.le_refl _) (by omega)
    rw [h1] at h2
    exact absurd h2 (by simp)
  · exact h
  · have h1 := ha1 b h
    have h2 := hb2 b (Nat.le_refl _) (by omega)
    rw [h1] at h2
    exact absurd h2 (by simp)

/-- The member `block_containing_string` on a table of ascending leaders. -/
theorem search_spec (L : List (List Nat)) (r : RearCodedArray) (q t1 : List Nat)
    (hr : HeaderTable L r) (hasc : L.Pairwise (fun a b => string_lt a b = true))
    (hL : ∀ l ∈ L, NulFree l) (hq : NulFree q) (ht1 : read t1 0 = 0) :
    ∃ lo1, block_containing_string r (q ++ t1) q.length
        = some (lo1 - (if lo1 ≠ 0 then 1 else 0)) ∧
      lo1 ≤ L.length ∧ (∀ j, j < lo1 → string_le (L.getD j []) q = true) ∧
      (∀ j, lo1 ≤ j → j < L.length → string_le (L.getD j []) q = false) := by
  have hB : blocks_count r = L.length := by simp [blocks_count, hr.1]
  obtain ⟨lo1, h1, h2, h3, h4⟩ := search_loop_spec L r q t1 hr hasc hL hq ht1 L.length 0
    L.length 0 0 (Nat.le_refl _) (search_inv_init L q)
  refine ⟨lo1, ?_, h2, h3, h4⟩
  simp only [block_containing_string, hB, h1]

/-! ## The leaders of a built dictionary -/

theorem build_step_prev (bb : Nat) (st st1 : BuildState) (s : List Nat)
    (h : build_step bb st s = Except.ok st1) :
    string_lt st.prev s = true ∧ st1.prev = s := by
  unfold build_step at h
  by_cases hle : string_le s st.prev = true
  · simp [hle] at h
  · simp only [hle] at h
    have hlt : string_lt st.prev s = true := by simpa [string_lt] using hle
    cases hc : current_block_bytes st with
    | none => simp [hc] at h
    | some cbb =>
      simp only [hc] at h
      by_cases hge : cbb ≥ bb
      · simp only [hge, if_true] at h
        injection h with h
        subst h
        exact ⟨hlt, rfl⟩
      · simp only [hge, if_false] at h
        injection h with h
        subst h
        exact ⟨hlt, rfl⟩

theorem build_loop_pairwise (bb : Nat) (S : List (List Nat)) :
    ∀ (st st1 : BuildState), build_loop bb S st = Except.ok st1 →
      (st.prev :: S).Pairwise (fun a b => string_lt a b = true) := by
  induction S with
  | nil => intro st st1 _; simp
  | cons s rest ih =>
    intro st st1 h
    simp only [build_loop] at h
    cases hs : build_step bb st s with
    | error e => simp [hs] at h
    | ok st2 =>
      simp only [hs] at h
      obtain ⟨hlt, hprev⟩ := build_step_prev bb st st2 s hs
      have hp := ih st2 st1 h
      rw [hprev] at hp
      refine List.Pairwise.cons ?_ hp
      intro x hx
      rcases List.mem_cons.mp hx with rfl | hx
      · exact hlt
      · exact string_lt_trans _ _ _ hlt ((List.pairwise_cons.mp hp).1 x hx)

/-- The constructor returns only on strictly ascending input. -/
theorem build_pairwise (S : List (List Nat)) (bb : Nat) (r : RearCodedArray)
    (hb : build S bb = Except.ok r) : S.Pairwise (fun a b => string_lt a b = true) := by
  obtain ⟨st, hl, _, _⟩ := build_unfold S bb r hb
  exact (List.pairwise_cons.mp (build_loop_pairwise bb S _ st hl)).2

theorem leaders_sublist (bs : List Block) :
    (bs.map Prod.fst).Sublist (layout_strings bs) := by
  induction bs with
  | nil => simp [layout_strings]
  | cons b bs ih =>
    simp only [List.map_cons, layout_strings, List.cons_append]
    exact List.Sublist.cons₂ _ (List.sublist_append_of_sublist_right ih)

theorem leaders_getD (pre : List Block) (blk : Block) (post : List Block) :
    ((pre ++ blk :: post).map Prod.fst).getD pre.length [] = blk.1 := by
  rw [List.map_append, List.getD_eq_getElem?_getD,
    List.getElem?_append_right (by simp)]
  simp

theorem layout_header_table (bs : List Block) (r : RearCodedArray) (hl : Layout bs r) :
    HeaderTable (bs.map Prod.fst) r := by
  refine ⟨by rw [hl.2.2.1, layout_index_length]; simp, ?_⟩
  intro i hi
  have hi' : i < bs.length := by simpa using hi
  obtain ⟨pre, blk, post, hbs, hlen, h1, _⟩ := layout_block bs r hl i hi'
  refine ⟨_, layout_headers post, h1, ?_⟩
  rw [hl.2.1]
  subst hbs
  subst hlen
  rw [leaders_getD]
  exact layout_headers_drop pre blk post

theorem leader_eq (S : List (List Nat)) (bs : List Block) (r : RearCodedArray)
    (hstr : layout_strings bs = S) (hl : Layout bs r) (j : Nat) (hj : j < bs.length) :
    S.getD (info_at r j).count [] = (bs.map Prod.fst).getD j [] := by
  obtain ⟨pre, blk, post, hbs, hlen, h1, _⟩ := layout_block bs r hl j hj
  rw [info_at_of_getElem r j _ h1]
  subst hbs
  subst hlen
  rw [leaders_getD, ← hstr]
  exact layout_strings_at_leader pre blk post

/-- The facts on a built dictionary the search needs: its leaders form an ascending table of
NUL-free strings. -/
theorem build_header_table (S : List (List Nat)) (bb : Nat) (r : RearCodedArray)
    (hbb : bb < 2 ^ 64) (hnul : ∀ s ∈ S, NulFree s) (hb : build S bb = Except.ok r)
    (hf : FitsOffsets S r) :
    ∃ L : List (List Nat), HeaderTable L r ∧ L.length = blocks_count r ∧ 0 < L.length ∧
      L.Pairwise (fun a b => string_lt a b = true) ∧ (∀ l ∈ L, NulFree l) ∧
      ∀ j, j < L.length → S.getD (info_at r j).count [] = L.getD j [] := by
  obtain ⟨bs, hne, hstr, hl⟩ := build_layout S bb r hbb hb hf
  have hsub := leaders_sublist bs
  rw [hstr] at hsub
  refine ⟨bs.map Prod.fst, layout_header_table bs r hl, ?_, ?_, ?_, ?_, ?_⟩
  · rw [blocks_count_layout bs r hl]; simp
  · cases bs with
    | nil => exact absurd rfl hne
    | cons b rest => simp
  · exact (build_pairwise S bb r hb).sublist hsub
  · intro l hl'
    exact hnul l (hsub.subset hl')
  · intro j hj
    exact leader_eq S bs r hstr hl j (by simpa using hj)

/-! ## The in-block scan stays on the tail records -/

theorem strlen_append_nul (s rest : List Nat) (h : NulFree s) :
    strlen (s ++ 0 :: rest) = s.length := by
  simp [strlen, cstr_append_nul s rest h]

theorem block_rank_loop_step (pattern : List Nat) (len sib k j : Nat) (dp : List Nat)
    (cl pl x : Nat) (dp1 : List Nat) (h : decode_int dp = some (x, dp1)) :
    block_rank_loop pattern len sib (k + 1) j dp cl pl = some j ∨
    ∃ cl1 pl1, block_rank_loop pattern len sib (k + 1) j dp cl pl =
      block_rank_loop pattern len sib k (j + 1) (dp1.drop (strlen dp1 + 1)) cl1 pl1 := by
  by_cases c1 : (cl + 2 ^ 64 - x) % 2 ^ 64 < pl
  · left
    rw [block_rank_loop, h]
    dsimp only
    rw [if_pos c1]
  · by_cases c2 : (cl + 2 ^ 64 - x) % 2 ^ 64 = pl ∧
        signed_char (read pattern (pl + if (cl + 2 ^ 64 - x) % 2 ^ 64 = pl then
          lcp64 (pattern.drop ((cl + 2 ^ 64 - x) % 2 ^ 64))
            (len - (cl + 2 ^ 64 - x) % 2 ^ 64) dp1 else 0)) <
        signed_char (read dp1 (if (cl + 2 ^ 64 - x) % 2 ^ 64 = pl then
          lcp64 (pattern.drop ((cl + 2 ^ 64 - x) % 2 ^ 64))
            (len - (cl + 2 ^ 64 - x) % 2 ^ 64) dp1 else 0))
    · left
      rw [block_rank_loop, h]
      dsimp only
      rw [if_neg c1, if_pos c2]
    · right
      refine ⟨((cl + 2 ^ 64 - x) % 2 ^ 64 + strlen dp1) % 2 ^ 64,
        pl + (if (cl + 2 ^ 64 - x) % 2 ^ 64 = pl then
          lcp64 (pattern.drop ((cl + 2 ^ 64 - x) % 2 ^ 64))
            (len - (cl + 2 ^ 64 - x) % 2 ^ 64) dp1 else 0), ?_⟩
      rw [block_rank_loop, h]
      dsimp only
      rw [if_neg c1, if_neg c2]

theorem block_rank_loop_bound (pattern : List Nat) (len sib : Nat)
    (rest : List (List Nat)) :
    ∀ (j : Nat) (cur junk : List Nat) (curr_length pattern_lcp : Nat),
      (∀ s ∈ rest, NulFree s) → cur.length < 2 ^ 64 → (∀ s ∈ rest, s.length < 2 ^ 64) →
      j + rest.length = sib →
      ∃ v, block_rank_loop pattern len sib rest.length j (tail_records cur rest ++ junk)
          curr_length pattern_lcp = some v ∧ v ≤ sib := by
  induction rest with
  | nil =>
    intro j cur junk cl pl _ _ _ hj
    exact ⟨sib, by simp [block_rank_loop], Nat.le_refl _⟩
  | cons s ss ih =>
    intro j cur junk cl pl hnul hcur hlens hj
    have hs : NulFree s := hnul s (List.mem_cons_self _ _)
    have hl1 := compute_lcp_le_left cur s
    have hdata : tail_records cur (s :: ss) ++ junk =
        encode_int (cur.length - compute_lcp cur s) [] ++
          (s.drop (compute_lcp cur s) ++ 0 :: (tail_records s ss ++ junk)) := by
      simp [tail_records, tail_record]
    have hjs : j ≤ sib := by simp at hj; omega
    have hstr := strlen_append_nul (s.drop (compute_lcp cur s)) (tail_records s ss ++ junk)
      (nulfree_drop s _ hs)
    have hdrop : (s.drop (compute_lcp cur s) ++ 0 :: (tail_records s ss ++ junk)).drop
        ((s.drop (compute_lcp cur s)).length + 1) = tail_records s ss ++ junk := by
      have e : (s.drop (compute_lcp cur s)).length + 1
          = (s.drop (compute_lcp cur s) ++ [0]).length := by simp
      have e2 : s.drop (compute_lcp cur s) ++ 0 :: (tail_records s ss ++ junk)
          = (s.drop (compute_lcp cur s) ++ [0]) ++ (tail_records s ss ++ junk) := by simp
      rw [e, e2, List.drop_left]
    have hdec := decode_encode (cur.length - compute_lcp cur s)
      (s.drop (compute_lcp cur s) ++ 0 :: (tail_records s ss ++ junk)) (by omega)
    rw [← hdata] at hdec
    simp only [List.length_cons]
    rcases block_rank_loop_step pattern len sib ss.length j _ cl pl _ _ hdec with
      h | ⟨cl1, pl1, h⟩
    · exact ⟨j, h, hjs⟩
    · rw [h, hstr, hdrop]
      exact ih (j + 1) s junk _ _ (fun t ht => hnul t (List.mem_cons_of_mem _ ht))
        (hlens s (List.mem_cons_self _ _)) (fun t ht => hlens t (List.mem_cons_of_mem _ ht))
        (by simp at hj; omega)

/-- The member `block_rank` on block `pre.length` of a layout returns a number between 0 and
the number of strings of the block. -/
theorem block_rank_layout (r : RearCodedArray) (pre : List Block) (blk : Block)
    (post : List Block) (hl : Layout (pre ++ blk :: post) r) (q : List Nat) (len : Nat)
    (hnul : ∀ s ∈ layout_strings (pre ++ blk :: post), NulFree s)
    (hlen : ∀ s ∈ layout_strings (pre ++ blk :: post), s.length < 2 ^ 64)
    (hn : (layout_strings (pre ++ blk :: post)).length < 2 ^ 32) :
    ∃ v, block_rank r q len pre.length = some v ∧ v ≤ blk.2.length + 1 := by
  obtain ⟨hd, hh, hi, _⟩ := hl
  have hlead := mem_layout_strings_leader pre blk post
  have hfol := mem_layout_strings_follower pre blk post
  have h1 := layout_index_entry pre blk post
  have h2 := layout_index_entry_succ pre blk post
  have hcount : (layout_strings pre).length + (blk.2.length + 1)
      ≤ (layout_strings (pre ++ blk :: post)).length := by
    rw [layout_strings_append]
    simp [layout_strings]
  have hsib : ((layout_strings pre).length + (blk.2.length + 1) + 2 ^ 32
      - (layout_strings pre).length) % 2 ^ 32 = blk.2.length + 1 := by
    have : (layout_strings pre).length + (blk.2.length + 1) + 2 ^ 32
        - (layout_strings pre).length = blk.2.length + 1 + 2 ^ 32 := by omega
    rw [this, Nat.add_mod_right]
    exact Nat.mod_eq_of_lt (by omega)
  unfold block_rank
  rw [hi, h1, h2]
  dsimp only
  rw [hsib]
  split
  · exact ⟨0, rfl, Nat.zero_le _⟩
  · rw [hd, layout_data_drop]
    simp only [Nat.add_sub_cancel]
    exact block_rank_loop_bound q len (blk.2.length + 1) blk.2 1 blk.1 (layout_data post) _ _
      (fun s hs => hnul s (hfol s hs)) (hlen _ hlead) (fun s hs => hlen s (hfol s hs))
      (by omega)

theorem compute_lcp_cstr_spec (A : List Nat) (hA : NulFree A) :
    ∀ (ja Bs jb : List Nat),
      compute_lcp_cstr (A ++ 0 :: ja) (Bs ++ 0 :: jb) = compute_lcp A Bs := by
  induction A with
  | nil => intro ja Bs jb; simp [compute_lcp_cstr, compute_lcp]
  | cons a as ih =>
    intro ja Bs jb
    have ha := (hA a (List.mem_cons_self _ _)).1
    have has : NulFree as := fun x hx => hA x (List.mem_cons_of_mem _ hx)
    have hne : a ≠ 0 := by omega
    cases Bs with
    | nil => simp [compute_lcp_cstr, compute_lcp, read_cons_zero, hne]
    | cons b bs =>
      simp only [List.cons_append, compute_lcp_cstr, read_cons_zero, compute_lcp,
        List.drop_succ_cons, List.drop_zero]
      by_cases hab : a = b
      · simp only [hab, and_true, if_true]
        subst hab
        simp only [ne_eq, hne, not_false_eq_true, if_true]
        exact congrArg (fun n => n + 1) (ih has ja bs jb)
      · simp [hab]

theorem e2_build : build e2_strings 8 = Except.ok e2_dictionary := rfl

theorem e5_build : build e5_strings 1 = Except.ok e5_dictionary := rfl

theorem leaders_build : build leaders_sample 0 = Except.ok leaders_dictionary := rfl

theorem leaders_header_table : HeaderTable leaders_sample leaders_dictionary := by
  refine ⟨rfl, ?_⟩
  intro i hi
  have hi' : i < 2 := hi
  interval_cases i
  · exact ⟨BlockInfo.mk 0 0 0, [98, 0], rfl, rfl⟩
  · exact ⟨BlockInfo.mk 1 0 2, [], rfl, rfl⟩

theorem leaders_pointer_table :
    SingleRegion.PointerTable leaders_sample [97, 0, 98, 0] [0, 2] := by
  refine ⟨rfl, ?_⟩
  intro i hi
  have hi' : i < 2 := hi
  interval_cases i
  · exact ⟨0, [98, 0], rfl, rfl⟩
  · exact ⟨2, [], rfl, rfl⟩

/-! ## The claims on rank and on the search -/

/-- The loop of `block_containing_string` returns an index of `info`, whatever the bytes of
the query and whatever its length: the comparisons only steer it. -/
theorem search_loop_range (r : RearCodedArray) (s : List Nat) (len : Nat) :
    ∀ (fuel lo count llcp rlcp : Nat), count ≤ fuel → lo + count < r.info.length →
      ∃ lo1, block_containing_string_loop r s len fuel lo count llcp rlcp = some lo1 ∧
        lo1 < r.info.length := by
  intro fuel
  induction fuel with
  | zero =>
    intro lo count llcp rlcp hc hlt
    exact ⟨lo, rfl, by omega⟩
  | succ f ih =>
    intro lo count llcp rlcp hc hlt
    unfold block_containing_string_loop
    by_cases hpos : count > 0
    · simp only [hpos, if_true]
      have hdiv : count / 2 < count := Nat.div_lt_self hpos (by norm_num)
      have h1 : r.info[lo + count / 2 / 2]? = some (r.info.get ⟨lo + count / 2 / 2, by omega⟩) :=
        List.getElem?_eq_getElem (by omega)
      have h2 : r.info[lo + count / 2 + count / 2 / 2]?
          = some (r.info.get ⟨lo + count / 2 + count / 2 / 2, by omega⟩) :=
        List.getElem?_eq_getElem (by omega)
      have h3 : r.info[lo + count / 2]? = some (r.info.get ⟨lo + count / 2, by omega⟩) :=
        List.getElem?_eq_getElem (by omega)
      simp only [h1, h2, h3]
      split
      · exact ih _ _ _ _ (by omega) (by omega)
      · exact ih _ _ _ _ (by omega) (by omega)
    · simp only [hpos, if_false]
      exact ⟨lo, rfl, by omega⟩

/-- The member `block_containing_string` returns a block index below `B` on every dictionary
with at least one block, whatever the bytes of the query and whatever its length. -/
theorem search_range (r : RearCodedArray) (s : List Nat) (len : Nat)
    (hB : 0 < blocks_count r) :
    ∃ b, block_containing_string r s len = some b ∧ b < blocks_count r := by
  unfold blocks_count at hB
  obtain ⟨lo1, h1, h2⟩ := search_loop_range r s len (blocks_count r) 0 (blocks_count r) 0 0
    (Nat.le_refl _) (by unfold blocks_count; omega)
  refine ⟨lo1 - (if lo1 ≠ 0 then 1 else 0), ?_, ?_⟩
  · simp only [block_containing_string, h1]
  · unfold blocks_count
    split <;> omega

/-- C14 (rank range): on a dictionary the builder returns (NUL-free input, sizes within the
32-bit index) and for every query, given as the region `q` at its `data()` and its length
`len` (so for every NUL-free query, whatever byte follows it), `block_containing_string`
selects a block `b < B`, `block_rank(q, b)` returns, `rank(q) = count[b] + block_rank(q, b)`,
and this number is at most `count[b+1]`, hence between 0 and `N`. -/
theorem rank_range (S : List (List Nat)) (bb : Nat) (r : RearCodedArray) (q : List Nat)
    (len : Nat) (hbb : bb < 2 ^ 64) (hnul : ∀ s ∈ S, NulFree s)
    (hb : build S bb = Except.ok r) (hf : FitsOffsets S r) :
    ∃ b br, block_containing_string r q len = some b ∧ b < blocks_count r ∧
      block_rank r q len b = some br ∧ rank r q len = some ((info_at r b).count + br) ∧
      (info_at r b).count + br ≤ (info_at r (b + 1)).count ∧
      (info_at r b).count + br ≤ S.length := by
  obtain ⟨bs, hne, hstr, hl⟩ := build_layout S bb r hbb hb hf
  have hB := blocks_count_layout bs r hl
  have hpos : 0 < bs.length := List.length_pos.mpr hne
  obtain ⟨b, hsel, hblt⟩ := search_range r q len (by rw [hB]; exact hpos)
  rw [hB] at hblt
  obtain ⟨pre, blk, post, hbs, hlen, h1, h2⟩ := layout_block bs r hl _ hblt
  subst hstr
  have hn : (layout_strings bs).length < 2 ^ 32 := by
    have := hf.1; rw [hl.2.2.2] at this; exact this
  have hlens : ∀ s ∈ layout_strings bs, s.length < 2 ^ 64 := by
    intro s hs
    have := hf.2.2.2 s hs
    omega
  have hbr := block_rank_layout r pre blk post (hbs ▸ hl) q len (hbs ▸ hnul) (hbs ▸ hlens)
    (hbs ▸ hn)
  obtain ⟨v, hv, hvle⟩ := hbr
  rw [hlen] at hv
  have htot : (layout_strings pre).length + (blk.2.length + 1) ≤ (layout_strings bs).length := by
    rw [hbs, layout_strings_append]
    simp [layout_strings]
  refine ⟨_, v, hsel, by rw [hB]; exact hblt, hv, ?_, ?_, ?_⟩
  · simp only [rank, hsel, h1, hv, info_at_of_getElem r _ _ h1]
  · rw [info_at_of_getElem r _ _ h1, info_at_of_getElem r _ _ h2]
    show (layout_strings pre).length + v ≤ (layout_strings pre).length + (blk.2.length + 1)
    omega
  · rw [info_at_of_getElem r _ _ h1]
    show (layout_strings pre).length + v ≤ (layout_strings bs).length
    omega

theorem rank_range_witness :
    build sample_strings 8 = Except.ok sample_dictionary ∧
    ∃ b br, block_containing_string sample_dictionary [97, 97] 2 = some b ∧
      b < blocks_count sample_dictionary ∧
      block_rank sample_dictionary [97, 97] 2 b = some br ∧
      rank sample_dictionary [97, 97] 2 = some ((info_at sample_dictionary b).count + br) ∧
      (info_at sample_dictionary b).count + br ≤ (info_at sample_dictionary (b + 1)).count ∧
      (info_at sample_dictionary b).count + br ≤ sample_strings.length :=
  ⟨sample_build, rank_range sample_strings 8 sample_dictionary [97, 97] 2 (by decide)
    sample_nulfree sample_build sample_fits⟩

/-- The block selection on a query that is followed by a NUL (or ends its region, as the
bytes of a `std::string` do): on a dictionary the builder returns, `block_containing_string`
returns a block index `b < B`; `b = 0` if the query is smaller than the leader of block 0,
and otherwise `b` is the largest index whose leader is `<= q` in the unsigned byte order. -/
theorem block_selection (S : List (List Nat)) (bb : Nat) (r : RearCodedArray) (q t1 : List Nat)
    (hbb : bb < 2 ^ 64) (hnul : ∀ s ∈ S, NulFree s) (hq : NulFree q) (ht1 : read t1 0 = 0)
    (hb : build S bb = Except.ok r) (hf : FitsOffsets S r) :
    1 ≤ blocks_count r ∧
    ∃ b, block_containing_string r (q ++ t1) q.length = some b ∧ b < blocks_count r ∧
      (string_le (S.getD (info_at r 0).count []) q = false → b = 0) ∧
      (string_le (S.getD (info_at r 0).count []) q = true →
        string_le (S.getD (info_at r b).count []) q = true ∧
        ∀ j, b < j → j < blocks_count r →
          string_le (S.getD (info_at r j).count []) q = false) := by
  obtain ⟨L, hr, hLB, hpos, hasc, hLnul, hlead⟩ := build_header_table S bb r hbb hnul hb hf
  obtain ⟨lo1, hsel, hlo, h3, h4⟩ := search_spec L r q t1 hr hasc hLnul hq ht1
  rw [← hLB]
  refine ⟨hpos, _, hsel, by split <;> omega, ?_, ?_⟩
  · intro h0
    rw [hlead 0 hpos] at h0
    have : lo1 = 0 := by
      by_contra hne
      have := h3 0 (by omega)
      rw [h0] at this
      exact absurd this (by simp)
    simp [this]
  · intro h0
    rw [hlead 0 hpos] at h0
    have hne : lo1 ≠ 0 := by
      intro hz
      have := h4 0 (by omega) hpos
      rw [h0] at this
      exact absurd this (by simp)
    simp only [hne, ne_eq, not_false_eq_true, if_true]
    refine ⟨?_, ?_⟩
    · rw [hlead (lo1 - 1) (by omega)]
      exact h3 (lo1 - 1) (by omega)
    · intro j hj hjl
      rw [hlead j hjl]
      exact h4 j (by omega) hjl

/-- C15 (failing input): on the dictionary built from `["a", "ab"]` with `block_bytes = 0`
(two blocks, leaders `"a"` and `"ab"`) the query `"a"` passed as the view of the first byte
of the buffer `"ab"` selects block 1, whose leader `"ab"` is greater than `"a"`; the largest
block whose leader is `<= "a"` is block 0, which the same query selects when a NUL follows
it.  `strcmp_lcp` compares the byte after the view, `s1[len1] = 'b'`, with the leader's. -/
theorem block_selection_past_view :
    build sample_strings 0 = Except.ok split_dictionary ∧
    blocks_count split_dictionary = 2 ∧
    sample_strings.getD (info_at split_dictionary 0).count [] = [97] ∧
    sample_strings.getD (info_at split_dictionary 1).count [] = [97, 98] ∧
    block_containing_string split_dictionary [97, 98] 1 = some 1 ∧
    string_le [97, 98] ([97, 98].take 1) = false ∧
    string_le [97] ([97, 98].take 1) = true ∧
    block_containing_string split_dictionary [97] 1 = some 0 :=
  ⟨rfl, by decide, by decide, by decide, by decide, by decide, by decide, by decide⟩

/-- LCP carry-over on a query that is followed by a NUL: on every strictly ascending list `L`
of NUL-free leaders, the search of `block_containing_string` that skips `min(llcp, rlcp)`
bytes, run on a header region holding `L`, returns the same block index as the search of
`rear_coded_array.hpp` that calls `strcmp` from the first byte, run on a region holding the
same leaders; at every iteration the skipped offset is at most the length of `q` and at most
the length of the middle leader. -/
theorem lcp_search_refines_strcmp (L : List (List Nat)) (r : RearCodedArray)
    (data pointers : List Nat) (q t1 : List Nat) (hasc : strictly_ascending L = true)
    (hL : ∀ l ∈ L, NulFree l) (hq : NulFree q) (ht1 : read t1 0 = 0) (hr : HeaderTable L r)
    (hp : SingleRegion.PointerTable L data pointers) :
    (∃ b, block_containing_string r (q ++ t1) q.length = some b ∧
      SingleRegion.block_containing_string data pointers (q ++ t1) = some b) ∧
    ∀ e ∈ block_containing_string_skips r (q ++ t1) q.length (blocks_count r) 0
        (blocks_count r) 0 0,
      e.1 < L.length ∧ e.2 ≤ q.length ∧ e.2 ≤ (L.getD e.1 []).length := by
  have hpw := ascending_pairwise L hasc
  refine ⟨?_, ?_⟩
  · obtain ⟨lo1, hsel, hlo, h3, h4⟩ := search_spec L r q t1 hr hpw hL hq ht1
    obtain ⟨lo2, hsel2, hlo2, h5, h6⟩ := plain_loop_spec L data pointers q t1 hp hpw hL hq ht1
      L.length 0 L.length (Nat.le_refl _) (search_inv_init L q)
    have heq := split_point_unique L q lo1 lo2 hlo hlo2 h3 h4 h5 h6
    refine ⟨_, hsel, ?_⟩
    simp only [SingleRegion.block_containing_string, hp.1, hsel2, heq]
  · have hB : blocks_count r = L.length := by simp [blocks_count, hr.1]
    rw [hB]
    exact search_skips_spec L r q t1 hr hpw hL hq ht1 _ _ _ _ _ (search_inv_init L q)

/-- A run of the two searches in which bytes are skipped: on the seven leaders
`"A", "a", "abXY", "ac", "ad", "ae", "af"` and the query `"ab"` (a whole `std::string`) the
LCP search probes leader 3, leader 1 and then leader 2 past one shared byte, and both
searches return block 1. -/
theorem lcp_search_skips_a_byte :
    build carry_strings 0 = Except.ok carry_dictionary ∧
    block_containing_string_skips carry_dictionary [97, 98] 2 7 0 7 0 0
      = [(3, 0), (1, 0), (2, 1)] ∧
    block_containing_string carry_dictionary [97, 98] 2 = some 1 ∧
    SingleRegion.block_containing_string carry_dictionary.headers [0, 2, 4, 9, 12, 15, 18]
      [97, 98] = some 1 :=
  ⟨rfl, by decide, by decide, by decide⟩

/-- C16 (failing input): on the leaders `"a"`, `"abXY"` (the dictionary built from them with
`block_bytes = 0`, and the region `a\0abXY\0` with pointers `0, 2` of `rear_coded_array.hpp`)
and the query `"ab"` passed as the view of the first two bytes of the buffer `"abX"`, the LCP
search returns block 1 and the `strcmp` search returns block 0: `strcmp_lcp` finds the byte
after the view equal to the leader's and stops at `i == len1` with result 0.  On the seven
leaders `"A", "a", "abXY", "ac", "ad", "ae", "af"` the same view makes the searches differ
(2 and 1) at a probe that skips one byte. -/
theorem lcp_search_past_view :
    build past_view_strings 0 = Except.ok past_view_dictionary ∧
    past_view_dictionary.headers = [97, 0, 97, 98, 88, 89, 0] ∧
    block_containing_string past_view_dictionary [97, 98, 88] 2 = some 1 ∧
    SingleRegion.block_containing_string [97, 0, 97, 98, 88, 89, 0] [0, 2] [97, 98, 88]
      = some 0 ∧
    string_le [97, 98, 88, 89] ([97, 98, 88].take 2) = false ∧
    build carry_strings 0 = Except.ok carry_dictionary ∧
    block_containing_string_skips carry_dictionary [97, 98, 88] 2 7 0 7 0 0
      = [(3, 0), (1, 0), (2, 1)] ∧
    block_containing_string carry_dictionary [97, 98, 88] 2 = some 2 ∧
    SingleRegion.block_containing_string carry_dictionary.headers [0, 2, 4, 9, 12, 15, 18]
      [97, 98, 88] = some 1 :=
  ⟨rfl, by decide, by decide, by decide, by decide, rfl, by decide, by decide, by decide⟩

/-- C19 (compare with LCP): for `a` holding `len_a` non-NUL bytes `A` then a NUL and `b`
holding the NUL-free bytes `Bs` then a NUL, whatever follows the two terminators,
`strcmp_lcp(a, len_a, b)` returns `(c, l)` where `l` is the length of the longest common
prefix of `A` and `Bs` (they agree on `l` bytes and end or differ there) and `c` is the
difference `a[l] - b[l]` of the bytes taken as unsigned; `c = 0` exactly when `l = len_a` and
`b[l] = 0`, and `c >= 0` exactly when `Bs <= A`. -/
theorem strcmp_lcp_compare (A ja Bs jb : List Nat) (hA : NulFree A) (hB : NulFree Bs) :
    strcmp_lcp (A ++ 0 :: ja) A.length (Bs ++ 0 :: jb) =
      ((read (A ++ 0 :: ja) (compute_lcp A Bs) : Int)
        - (read (Bs ++ 0 :: jb) (compute_lcp A Bs) : Int), compute_lcp A Bs) ∧
    compute_lcp A Bs ≤ A.length ∧ compute_lcp A Bs ≤ Bs.length ∧
    A.take (compute_lcp A Bs) = Bs.take (compute_lcp A Bs) ∧
    (compute_lcp A Bs < A.length → compute_lcp A Bs < Bs.length →
      read A (compute_lcp A Bs) ≠ read Bs (compute_lcp A Bs)) ∧
    ((strcmp_lcp (A ++ 0 :: ja) A.length (Bs ++ 0 :: jb)).1 = 0 ↔
      compute_lcp A Bs = A.length ∧ read (Bs ++ 0 :: jb) (compute_lcp A Bs) = 0) ∧
    (0 ≤ (strcmp_lcp (A ++ 0 :: ja) A.length (Bs ++ 0 :: jb)).1 ↔ string_le Bs A = true) := by
  have hspec := strcmp_lcp_spec A (0 :: ja) Bs (0 :: jb) hA hB (read_cons_zero 0 ja)
    (read_cons_zero 0 jb)
  have hl := compute_lcp_le_left A Bs
  have hr := compute_lcp_le_right A Bs
  refine ⟨hspec, hl, hr, compute_lcp_take A Bs, compute_lcp_read_ne A Bs, ?_, ?_⟩
  · rw [hspec]
    dsimp only
    constructor
    · intro hc
      have heq : read (A ++ 0 :: ja) (compute_lcp A Bs) = read (Bs ++ 0 :: jb) (compute_lcp A Bs) := by
        omega
      have hlen : compute_lcp A Bs = A.length := by
        by_contra hne
        have hlt : compute_lcp A Bs < A.length := by omega
        have h1 := read_append_left A (0 :: ja) _ hlt
        have hpos := (read_pos A hA _ hlt).1
        rcases Nat.lt_or_ge (compute_lcp A Bs) Bs.length with h | h
        · have h2 := read_append_left Bs (0 :: jb) _ h
          exact compute_lcp_read_ne A Bs hlt h (by omega)
        · have := (read_second Bs (0 :: jb) (read_cons_zero 0 jb) _ hr).2 (by omega)
          omega
      refine ⟨hlen, ?_⟩
      have := (read_second A (0 :: ja) (read_cons_zero 0 ja) _ hl).2 hlen
      omega
    · intro ⟨hlen, hz⟩
      have := (read_second A (0 :: ja) (read_cons_zero 0 ja) _ hl).2 hlen
      omega
  · rw [hspec]
    exact byte_diff_sign A (0 :: ja) Bs (0 :: jb) hA hB (read_cons_zero 0 ja)
      (read_cons_zero 0 jb)

theorem strcmp_lcp_compare_witness :
    strcmp_lcp [97, 98, 99, 100, 101, 102, 103, 104, 105, 106, 0, 1]
      10 [97, 98, 99, 100, 101, 102, 103, 104, 105, 120, 0, 255, 255] = (-14, 9) ∧
    strcmp_lcp ([97, 98, 99, 100, 101, 102, 103, 104, 105, 106] ++ 0 :: [1])
      10 ([97, 98, 99, 100, 101, 102, 103, 104, 105, 120] ++ 0 :: [255, 255]) =
      ((read ([97, 98, 99, 100, 101, 102, 103, 104, 105, 106] ++ 0 :: [1]) 9 : Int)
        - (read ([97, 98, 99, 100, 101, 102, 103, 104, 105, 120] ++ 0 :: [255, 255]) 9 : Int),
        9) :=
  ⟨by decide,
    (strcmp_lcp_compare [97, 98, 99, 100, 101, 102, 103, 104, 105, 106] [1]
      [97, 98, 99, 100, 101, 102, 103, 104, 105, 120] [255, 255] (by decide) (by decide)).1⟩

/-- C20 (word-wise LCP): for `a` starting with `len_a` non-NUL bytes `A` and `b` holding the
NUL-free bytes `Bs` then a NUL, `lcp64(a, len_a, b)`, which compares eight bytes at a time and
then byte by byte, returns the length of the longest common prefix of `A` and `Bs`: the value
of the byte-wise `compute_lcp` on the two strings, in its `string_view` overload and, when `a`
is NUL-terminated, in its C-string overload.  It is at most `len_a` and at most the length of
`b`, and does not depend on the bytes after the terminator of `b`. -/
theorem lcp64_bytewise (A ja Bs jb : List Nat) (hA : NulFree A) (hB : NulFree Bs) :
    lcp64 (A ++ ja) A.length (Bs ++ 0 :: jb) = compute_lcp A Bs ∧
    lcp64 (A ++ 0 :: ja) A.length (Bs ++ 0 :: jb)
      = compute_lcp_cstr (A ++ 0 :: ja) (Bs ++ 0 :: jb) ∧
    lcp64 (A ++ ja) A.length (Bs ++ 0 :: jb) ≤ A.length ∧
    lcp64 (A ++ ja) A.length (Bs ++ 0 :: jb) ≤ strlen (Bs ++ 0 :: jb) ∧
    A.take (compute_lcp A Bs) = Bs.take (compute_lcp A Bs) ∧
    (compute_lcp A Bs < A.length → compute_lcp A Bs < Bs.length →
      read A (compute_lcp A Bs) ≠ read Bs (compute_lcp A Bs)) ∧
    ∀ jb2, lcp64 (A ++ ja) A.length (Bs ++ 0 :: jb2)
      = lcp64 (A ++ ja) A.length (Bs ++ 0 :: jb) := by
  have h1 := lcp64_spec A ja Bs (0 :: jb) hA (read_cons_zero 0 jb)
  have h2 := lcp64_spec A (0 :: ja) Bs (0 :: jb) hA (read_cons_zero 0 jb)
  refine ⟨h1, ?_, ?_, ?_, compute_lcp_take A Bs, compute_lcp_read_ne A Bs, ?_⟩
  · rw [h2, compute_lcp_cstr_spec A hA]
  · rw [h1]; exact compute_lcp_le_left A Bs
  · rw [h1, strlen_append_nul Bs jb hB]; exact compute_lcp_le_right A Bs
  · intro jb2
    rw [h1, lcp64_spec A ja Bs (0 :: jb2) hA (read_cons_zero 0 jb2)]

theorem lcp64_bytewise_witness :
    lcp64 [97, 98, 99, 100, 101, 102, 103, 104, 105, 106, 107, 108]
      12 [97, 98, 99, 100, 101, 102, 103, 104, 105, 106, 0, 108] = 10 ∧
    lcp64 ([97, 98, 99, 100, 101, 102, 103, 104, 105, 106, 107, 108] ++ [])
      12 ([97, 98, 99, 100, 101, 102, 103, 104, 105, 106] ++ 0 :: [108])
      = compute_lcp [97, 98, 99, 100, 101, 102, 103, 104, 105, 106, 107, 108]
        [97, 98, 99, 100, 101, 102, 103, 104, 105, 106] :=
  ⟨by decide,
    (lcp64_bytewise [97, 98, 99, 100, 101, 102, 103, 104, 105, 106, 107, 108] []
      [97, 98, 99, 100, 101, 102, 103, 104, 105, 106] [108] (by decide) (by decide)).1⟩

/-! ## Where the builder closes a block -/

theorem tail_build : build tail_sample 1 = Except.ok tail_dictionary := rfl

theorem layout_strings_eq_nil (bs : List Block) (h : (layout_strings bs).length = 0) :
    bs = [] := by
  cases bs with
  | nil => rfl
  | cons b rest => simp [layout_strings] at h

/-- With the tail region below `2^32` bytes, `current_block_bytes` is the tail size of the
last block. -/
theorem current_block_bytes_exact (init : List Block) (b : Block) (st : BuildState)
    (hrep : Represents (init ++ [b]) st) (hfit : st.data.length < 2 ^ 32) :
    current_block_bytes st = some (tail_records b.1 b.2).length := by
  obtain ⟨hd, _, hi, hn, _⟩ := hrep
  have hn0 : st.n ≠ 0 := by
    rw [hn, layout_strings_append]
    simp [layout_strings]
  have hlen : st.data.length = (layout_data init).length + (tail_records b.1 b.2).length := by
    rw [hd, layout_data_append]
    simp [layout_data]
  have hlast : st.info.getLast? = some (BlockInfo.make (layout_strings init).length
      (layout_data init).length (layout_headers init).length) := by
    rw [hi, layout_info_append]
    simp [layout_info, BlockInfo.trunc]
  unfold current_block_bytes
  simp only [hn0, if_false, hlast]
  simp only [BlockInfo.make]
  rw [Nat.mod_eq_of_lt (by omega), hlen]
  simp

theorem block_rule_snoc (bb : Nat) (init : List Block) (b : Block)
    (h : BlockRule bb (init ++ [b])) : (∀ x ∈ init, block_closed bb x) ∧ block_open bb b := by
  rcases h with h | ⟨init2, b2, heq, h1, h2⟩
  · simp at h
  · obtain ⟨e1, e2⟩ := List.append_inj' heq rfl
    have e3 : b = b2 := by simpa using e2
    subst e1
    subst e3
    exact ⟨h1, h2⟩

theorem build_step_rule (bb : Nat) (hbb : bb < 2 ^ 64) (bs : List Block)
    (st st1 : BuildState) (s : List Nat) (hrep : Represents bs st)
    (hrule : st.data.length < 2 ^ 32 → BlockRule bb bs)
    (hstep : build_step bb st s = Except.ok st1) :
    ∃ bs1, Represents bs1 st1 ∧ layout_strings bs1 = layout_strings bs ++ [s] ∧
      (st1.data.length < 2 ^ 32 → BlockRule bb bs1) := by
  have hrep0 := hrep
  obtain ⟨hd, hh, hi, hn, hp⟩ := hrep
  unfold build_step at hstep
  by_cases hle : string_le s st.prev = true
  · simp [hle] at hstep
  · simp only [hle] at hstep
    cases hc : current_block_bytes st with
    | none => simp [hc] at hstep
    | some cbb =>
      simp only [hc] at hstep
      by_cases hge : cbb ≥ bb
      · simp only [hge, if_true] at hstep
        injection hstep with hstep
        subst hstep
        refine ⟨bs ++ [(s, [])], ⟨?_, ?_, ?_, ?_, ?_⟩, ?_, ?_⟩
        · simp [layout_data_append, layout_data, tail_records, hd]
        · simp [layout_headers_append, layout_headers, hh]
        · simp [layout_info_append, layout_info, hi, BlockInfo.trunc, hn, hd, hh]
        · simp [layout_strings_append, layout_strings, hn]
        · simp [layout_prev_snoc, block_last]
        · simp [layout_strings_append, layout_strings]
        · intro hfit
          dsimp only at hfit
          right
          refine ⟨bs, (s, []), rfl, ?_, Or.inl rfl⟩
          rcases List.eq_nil_or_concat bs with h0 | ⟨init, b, h0⟩
          · subst h0; simp
          · have h0' : bs = init ++ [b] := by simpa using h0
            subst h0'
            obtain ⟨hcl, hop⟩ := block_rule_snoc bb init b (hrule hfit)
            have hex := current_block_bytes_exact init b st hrep0 hfit
            rw [hc] at hex
            injection hex with hex
            intro x hx
            rcases List.mem_append.mp hx with hx | hx
            · exact hcl x hx
            · have : x = b := by simpa using hx
              subst this
              exact ⟨by omega, hop⟩
      · simp only [hge, if_false] at hstep
        injection hstep with hstep
        subst hstep
        have hn0 : st.n ≠ 0 := by
          intro h0
          simp [current_block_bytes, h0] at hc
          omega
        have hne : bs ≠ [] := by
          intro h0
          subst h0
          simp [layout_strings] at hn
          exact hn0 hn
        obtain ⟨init, b, rfl⟩ : ∃ init b, bs = init ++ [b] := by
          rcases List.eq_nil_or_concat bs with h | ⟨init, b, h⟩
          · exact absurd h hne
          · exact ⟨init, b, by simpa using h⟩
        have hdata1 : encode_int (st.prev.length - compute_lcp st.prev s) st.data
            ++ s.drop (compute_lcp st.prev s) ++ [0]
            = layout_data (init ++ [(b.1, b.2 ++ [s])]) := by
          simp only [layout_data_append, layout_data, tail_records_snoc, List.append_nil]
          rw [encode_int_append, hd, hp, layout_prev_snoc]
          simp [layout_data_append, layout_data, tail_record]
        refine ⟨init ++ [(b.1, b.2 ++ [s])], ⟨hdata1, ?_, ?_, ?_, ?_⟩, ?_, ?_⟩
        · simp [layout_headers_append, layout_headers, hh]
        · simp [layout_info_append, layout_info, hi]
        · simp [layout_strings_append, layout_strings, hn]
          omega
        · simp [layout_prev_snoc, block_last_snoc]
        · simp [layout_strings_append, layout_strings]
        · intro hfit
          dsimp only at hfit
          have hfit0 : st.data.length < 2 ^ 32 := by
            have hlen1 : (encode_int (st.prev.length - compute_lcp st.prev s) st.data
                ++ s.drop (compute_lcp st.prev s) ++ [0]).length
                = st.data.length + ((encode_int (st.prev.length - compute_lcp st.prev s)
                  []).length + (s.drop (compute_lcp st.prev s)).length + 1) := by
              rw [encode_int_append]
              simp only [List.length_append, List.length_cons, List.length_nil]
              omega
            omega
          obtain ⟨hcl, _⟩ := block_rule_snoc bb init b (hrule hfit0)
          have hex := current_block_bytes_exact init b st hrep0 hfit0
          rw [hc] at hex
          injection hex with hex
          right
          refine ⟨init, (b.1, b.2 ++ [s]), rfl, hcl, Or.inr ?_⟩
          simp only [List.dropLast_concat]
          omega

theorem build_loop_rule (bb : Nat) (hbb : bb < 2 ^ 64) (S : List (List Nat)) :
    ∀ (bs : List Block) (st st1 : BuildState), Represents bs st →
      (st.data.length < 2 ^ 32 → BlockRule bb bs) →
      build_loop bb S st = Except.ok st1 →
      ∃ bs1, Represents bs1 st1 ∧ layout_strings bs1 = layout_strings bs ++ S ∧
        (st1.data.length < 2 ^ 32 → BlockRule bb bs1) := by
  induction S with
  | nil =>
    intro bs st st1 hrep hrule h
    simp only [build_loop] at h
    injection h with h
    subst h
    exact ⟨bs, hrep, by simp, hrule⟩
  | cons s rest ih =>
    intro bs st st1 hrep hrule h
    simp only [build_loop] at h
    cases hs : build_step bb st s with
    | error e => simp [hs] at h
    | ok st2 =>
      simp only [hs] at h
      obtain ⟨bs2, hrep2, hstr2, hrule2⟩ := build_step_rule bb hbb bs st st2 s hrep hrule hs
      obtain ⟨bs1, hrep1, hstr1, hrule1⟩ := ih bs2 st2 st1 hrep2 hrule2 h
      exact ⟨bs1, hrep1, by simp [hstr1, hstr2], hrule1⟩

/-- A successful build yields the layout of a list of blocks that follows the rule of the
builder. -/
theorem build_layout_rule (S : List (List Nat)) (bb : Nat) (r : RearCodedArray)
    (hbb : bb < 2 ^ 64) (hb : build S bb = Except.ok r) (hf : FitsOffsets S r) :
    ∃ bs, bs ≠ [] ∧ layout_strings bs = S ∧ Layout bs r ∧ BlockRule bb bs := by
  obtain ⟨st, hl, hr, hB⟩ := build_unfold S bb r hb
  obtain ⟨bs, hrep, hstr, hrule⟩ := build_loop_rule bb hbb S [] _ st represents_init
    (fun _ => Or.inl rfl) hl
  simp only [layout_strings, List.nil_append] at hstr
  obtain ⟨hd, hh, hi, hn, _⟩ := hrep
  obtain ⟨f1, f2, f3, _⟩ := hf
  have hrd : r.data = layout_data bs := by rw [hr]; simp [finish, hd]
  have hrh : r.headers = layout_headers bs := by rw [hr]; simp [finish, hh]
  have hrn : r.n = (layout_strings bs).length := by rw [hr]; simp [finish, hn]
  have hfit : st.data.length < 2 ^ 32 := by
    have : r.data = st.data := by rw [hr]; simp [finish]
    rw [← this]; exact f2
  rw [hrd] at f2
  rw [hrh] at f3
  rw [hrn] at f1
  have hri : r.info = layout_index bs := by
    rw [hr]
    simp only [finish, List.replicate_zero, List.append_nil]
    rw [hi, map_trunc_layout_info bs f1 f2 f3, layout_index, layout_index_from_eq, hn, hd, hh]
    simp only [Nat.zero_add, BlockInfo.make, Nat.mod_eq_of_lt f1, Nat.mod_eq_of_lt f2,
      Nat.mod_eq_of_lt f3]
  refine ⟨bs, ?_, hstr, ⟨hrd, hrh, hri, hrn⟩, hrule hfit⟩
  intro h0
  subst h0
  apply hB
  simp [blocks_count, hri, layout_index, layout_index_from]

theorem layout_strings_at (pre : List Block) (blk : Block) (post : List Block) (k : Nat)
    (hk : k ≤ blk.2.length) :
    (layout_strings (pre ++ blk :: post)).getD ((layout_strings pre).length + k) []
      = (blk.1 :: blk.2).getD k [] := by
  rw [layout_strings_append, List.getD_eq_getElem?_getD, List.getD_eq_getElem?_getD,
    List.getElem?_append_right (by omega)]
  simp only [Nat.add_sub_cancel_left, layout_strings]
  rw [List.getElem?_append_left (by simp; omega)]

theorem getD_block_last (init2 : List (List Nat)) : ∀ (l : List Nat) (tl : List (List Nat)),
    (l :: (init2 ++ tl)).getD init2.length [] = block_last l init2 := by
  induction init2 with
  | nil => intro l tl; simp [block_last]
  | cons a as ih =>
    intro l tl
    simp only [List.length_cons, List.cons_append, List.getD_cons_succ, block_last]
    exact ih a tl

theorem getD_block_snoc (init2 : List (List Nat)) (l s : List Nat) :
    (l :: (init2 ++ [s])).getD (init2.length + 1) [] = s := by
  rw [List.getD_cons_succ, List.getD_eq_getElem?_getD,
    List.getElem?_append_right (Nat.le_refl _)]
  simp

theorem tail_record_pos (prev s : List Nat) : 1 ≤ (tail_record prev s).length := by
  simp [tail_record]
  omega

theorem tail_records_pos (l : List Nat) (rest : List (List Nat)) (h : rest ≠ []) :
    1 ≤ (tail_records l rest).length := by
  cases rest with
  | nil => exact absurd rfl h
  | cons s ss =>
    have := tail_record_pos l s
    simp only [tail_records, List.length_append]
    omega

/-- A block that is followed by another block is one the builder closed. -/
theorem block_closed_of_followed (bb : Nat) (pre : List Block) (blk : Block)
    (post : List Block) (hpost : post ≠ []) (h : BlockRule bb (pre ++ blk :: post)) :
    block_closed bb blk := by
  rcases List.eq_nil_or_concat post with h0 | ⟨post2, z, h0⟩
  · exact absurd h0 hpost
  · have h0' : post = post2 ++ [z] := by simpa using h0
    subst h0'
    have e : pre ++ blk :: (post2 ++ [z]) = (pre ++ blk :: post2) ++ [z] := by simp
    rw [e] at h
    exact (block_rule_snoc bb _ z h).1 blk (by simp)

theorem block_open_last (bb : Nat) (pre : List Block) (blk : Block) (post : List Block)
    (h : BlockRule bb (pre ++ blk :: post)) : block_open bb blk := by
  rcases List.eq_nil_or_concat post with h0 | ⟨post2, z, h0⟩
  · subst h0
    exact (block_rule_snoc bb pre blk h).2
  · have h0' : post = post2 ++ [z] := by simpa using h0
    have hne : post ≠ [] := by rw [h0']; simp
    exact (block_closed_of_followed bb pre blk post hne h).2

/-- C17 (amended, tail-size bound): in a dictionary built with `block_bytes >= 1` (sizes
within the 32-bit index), a block `b` that is followed by another block holds at least two
strings, and its tail size `tail_off[b+1] - tail_off[b]` is below `block_bytes` plus the
length of its last tail record: the block was still open, with a tail shorter than
`block_bytes`, when its last string was appended. -/
theorem tail_size_bound (S : List (List Nat)) (bb : Nat) (r : RearCodedArray) (b : Nat)
    (hbb : bb < 2 ^ 64) (hbb1 : 1 ≤ bb) (hb : build S bb = Except.ok r)
    (hf : FitsOffsets S r) (hlt : b + 1 < blocks_count r) :
    (info_at r b).count + 2 ≤ (info_at r (b + 1)).count ∧
    (info_at r (b + 1)).data_pointer - (info_at r b).data_pointer
      < bb + (tail_record (S.getD ((info_at r (b + 1)).count - 2) [])
          (S.getD ((info_at r (b + 1)).count - 1) [])).length := by
  obtain ⟨bs, _, hstr, hl, hrule⟩ := build_layout_rule S bb r hbb hb hf
  rw [blocks_count_layout bs r hl] at hlt
  obtain ⟨pre, blk, post, hbs, hlen, h1, h2⟩ := layout_block bs r hl b (by omega)
  have hpost : post ≠ [] := by
    intro h0
    rw [hbs, h0] at hlt
    simp at hlt
    omega
  rw [hbs] at hrule
  obtain ⟨hge, hop⟩ := block_closed_of_followed bb pre blk post hpost hrule
  have hne : blk.2 ≠ [] := by
    intro h0
    rw [h0] at hge
    simp [tail_records] at hge
    omega
  obtain ⟨init2, s, hsn⟩ : ∃ init2 s, blk.2 = init2 ++ [s] := by
    rcases List.eq_nil_or_concat blk.2 with h | ⟨init2, s, h⟩
    · exact absurd h hne
    · exact ⟨init2, s, by simpa using h⟩
  have hopen : (tail_records blk.1 init2).length < bb := by
    rcases hop with h | h
    · exact absurd h hne
    · rw [hsn, List.dropLast_concat] at h
      exact h
  rw [info_at_of_getElem r _ _ h1, info_at_of_getElem r _ _ h2]
  dsimp only
  have hcnt : (layout_strings pre).length + (blk.2.length + 1)
      = (layout_strings pre).length + (init2.length + 1) + 1 := by
    rw [hsn]; simp; omega
  have hs1 : S.getD ((layout_strings pre).length + (init2.length + 1)) [] = s := by
    rw [← hstr, hbs, layout_strings_at pre blk post (init2.length + 1) (by rw [hsn]; simp),
      hsn]
    exact getD_block_snoc init2 blk.1 s
  have hs2 : S.getD ((layout_strings pre).length + init2.length) []
      = block_last blk.1 init2 := by
    rw [← hstr, hbs, layout_strings_at pre blk post init2.length (by rw [hsn]; simp), hsn]
    exact getD_block_last init2 blk.1 [s]
  have e1 : (layout_strings pre).length + (blk.2.length + 1) - 1
      = (layout_strings pre).length + (init2.length + 1) := by omega
  have e2 : (layout_strings pre).length + (blk.2.length + 1) - 2
      = (layout_strings pre).length + init2.length := by omega
  rw [e1, e2, hs1, hs2]
  have htail : (tail_records blk.1 blk.2).length
      = (tail_records blk.1 init2).length + (tail_record (block_last blk.1 init2) s).length := by
    rw [hsn, tail_records_snoc]
    simp
  refine ⟨by omega, ?_⟩
  omega

theorem tail_size_bound_witness :
    build tail_sample 1 = Except.ok tail_dictionary ∧
    (info_at tail_dictionary 1).data_pointer - (info_at tail_dictionary 0).data_pointer = 3 ∧
    (tail_record [97] [97, 98]).length = 3 ∧
    (info_at tail_dictionary 0).count + 2 ≤ (info_at tail_dictionary (0 + 1)).count ∧
    (info_at tail_dictionary (0 + 1)).data_pointer - (info_at tail_dictionary 0).data_pointer
      < 1 + (tail_record (tail_sample.getD ((info_at tail_dictionary (0 + 1)).count - 2) [])
          (tail_sample.getD ((info_at tail_dictionary (0 + 1)).count - 1) [])).length :=
  ⟨tail_build, by decide, by decide,
    tail_size_bound tail_sample 1 tail_dictionary 0 (by decide) (by decide) tail_build
      (by unfold FitsOffsets tail_sample tail_dictionary; decide) (by decide)⟩

/-- C17 (counterexample): for `["a", "ab", "b"]` and `block_bytes = 1` block 0 is followed by
block 1 and its tail size is 3, which is not at most `block_bytes`. -/
theorem tail_size_exceeds_block_bytes :
    build tail_sample 1 = Except.ok tail_dictionary ∧ 0 + 1 < blocks_count tail_dictionary ∧
    ¬ ((info_at tail_dictionary (0 + 1)).data_pointer
        - (info_at tail_dictionary 0).data_pointer ≤ 1) :=
  ⟨tail_build, by decide, by decide⟩

/-! ## Blocks for `block_bytes` 0 and 1 -/

theorem block_open_one (x : Block) (h : block_open 1 x) : x.2.length ≤ 1 := by
  rcases h with h | h
  · rw [h]; simp
  · by_contra hc
    have hne : x.2.dropLast ≠ [] := by
      intro h0
      have := congrArg List.length h0
      simp at this
      omega
    have := tail_records_pos x.1 x.2.dropLast hne
    omega

theorem block_closed_one (x : Block) (h : block_closed 1 x) : x.2.length = 1 := by
  have h1 := block_open_one x h.2
  have h2 : x.2 ≠ [] := by
    intro h0
    have := h.1
    rw [h0] at this
    simp [tail_records] at this
  have := List.length_pos.mpr h2
  omega

theorem block_open_zero (x : Block) (h : block_open 0 x) : x.2 = [] := by
  rcases h with h | h
  · exact h
  · omega

theorem layout_strings_pairs (bs : List Block) (h : ∀ x ∈ bs, x.2.length = 1) :
    (layout_strings bs).length = 2 * bs.length := by
  induction bs with
  | nil => simp [layout_strings]
  | cons b rest ih =>
    have h1 := h b (List.mem_cons_self _ _)
    have h2 := ih (fun x hx => h x (List.mem_cons_of_mem _ hx))
    simp only [layout_strings, List.length_append, List.length_cons, h1, h2]
    omega

theorem layout_leaders_only (bs : List Block) (h : ∀ x ∈ bs, x.2 = []) :
    (layout_strings bs).length = bs.length ∧ layout_data bs = [] := by
  induction bs with
  | nil => simp [layout_strings, layout_data]
  | cons b rest ih =>
    have h1 := h b (List.mem_cons_self _ _)
    have h2 := ih (fun x hx => h x (List.mem_cons_of_mem _ hx))
    simp [layout_strings, layout_data, h1, h2.1, h2.2, tail_records]

theorem layout_data_pos (bs : List Block) (x : Block) (hx : x ∈ bs) (hne : x.2 ≠ []) :
    layout_data bs ≠ [] := by
  induction bs with
  | nil => simp at hx
  | cons b rest ih =>
    rcases List.mem_cons.mp hx with rfl | hx
    · have hpos := tail_records_pos x.1 x.2 hne
      intro h0
      have := congrArg List.length h0
      simp only [layout_data, List.length_append, List.length_nil] at this
      omega
    · intro h0
      have := congrArg List.length h0
      simp only [layout_data, List.length_append, List.length_nil] at this
      have h1 : layout_data rest = [] := List.length_eq_zero.mp (by omega)
      exact ih hx h1

/-- C18 (amended, small `block_bytes`): in a dictionary the builder returns (sizes within the
32-bit index), `block_bytes = 0` makes every string a leader (`B = N`, empty tail region),
while `block_bytes = 1` closes a block only once it has a tail record: every block followed by
another holds exactly two strings, `B = (N + 1) / 2`, and the tail region is non-empty as soon
as `N >= 2`.  For `["alpha", "alphabet"]` and `block_bytes = 1` there is one block,
`alphabet` is a tail record, `rank("alphab") = 1`, `rank("alphabet") = 2` and `access(1)`
leaves `alphabet`. -/
theorem leaders_by_block_bytes (S : List (List Nat)) (bb : Nat) (r : RearCodedArray)
    (hb : build S bb = Except.ok r) (hf : FitsOffsets S r) :
    (bb = 0 → blocks_count r = S.length ∧ r.data = []) ∧
    (bb = 1 → blocks_count r = (S.length + 1) / 2 ∧
      (∀ b, b + 1 < blocks_count r → (info_at r (b + 1)).count = (info_at r b).count + 2) ∧
      (2 ≤ S.length → r.data ≠ [])) ∧
    (build e5_strings 1 = Except.ok e5_dictionary ∧ blocks_count e5_dictionary = 1 ∧
      e5_dictionary.data = [128, 98, 101, 116, 0] ∧
      rank e5_dictionary [97, 108, 112, 104, 97, 98] 6 = some 1 ∧
      rank e5_dictionary [97, 108, 112, 104, 97, 98, 101, 116] 8 = some 2 ∧
      access e5_dictionary 1 (List.replicate 9 0)
        = some ([97, 108, 112, 104, 97, 98, 101, 116, 0], 9)) := by
  refine ⟨?_, ?_, rfl, by decide, by decide, by decide, by decide, by decide⟩
  · intro h0
    subst h0
    obtain ⟨bs, hne, hstr, hl, hrule⟩ := build_layout_rule S 0 r (by norm_num) hb hf
    have hall : ∀ x ∈ bs, x.2 = [] := by
      intro x hx
      obtain ⟨pre, post, hsplit⟩ := List.append_of_mem hx
      rw [hsplit] at hrule
      exact block_open_zero x (block_open_last 0 pre x post hrule)
    have := layout_leaders_only bs hall
    rw [blocks_count_layout bs r hl, hl.1, ← hstr]
    exact ⟨this.1.symm, this.2⟩
  · intro h1
    subst h1
    obtain ⟨bs, hne, hstr, hl, hrule⟩ := build_layout_rule S 1 r (by norm_num) hb hf
    have hB := blocks_count_layout bs r hl
    obtain ⟨init, z, hbs⟩ : ∃ init z, bs = init ++ [z] := by
      rcases List.eq_nil_or_concat bs with h | ⟨init, z, h⟩
      · exact absurd h hne
      · exact ⟨init, z, by simpa using h⟩
    have hrule0 := hrule
    rw [hbs] at hrule
    obtain ⟨hcl, hop⟩ := block_rule_snoc 1 init z hrule
    have hz := block_open_one z hop
    have hinit := layout_strings_pairs init (fun x hx => block_closed_one x (hcl x hx))
    have hN : S.length = 2 * init.length + 1 + z.2.length := by
      rw [← hstr, hbs, layout_strings_append, List.length_append, hinit]
      simp [layout_strings]
      omega
    refine ⟨?_, ?_, ?_⟩
    · rw [hB, hbs, hN]
      simp
      omega
    · intro b hlt
      rw [hB] at hlt
      obtain ⟨pre, blk, post, hsplit, hlen, e1, e2⟩ := layout_block bs r hl b (by omega)
      have hpost : post ≠ [] := by
        intro h0
        rw [hsplit, h0] at hlt
        simp at hlt
        omega
      have hc := block_closed_one blk
        (block_closed_of_followed 1 pre blk post hpost (hsplit ▸ hrule0))
      rw [info_at_of_getElem r _ _ e1, info_at_of_getElem r _ _ e2]
      dsimp only
      omega
    · intro h2
      rw [hl.1]
      cases init with
      | nil =>
        have hz1 : z.2 ≠ [] := by
          intro h0
          rw [h0] at hN
          simp at hN
          omega
        exact layout_data_pos bs z (by rw [hbs]; simp) hz1
      | cons x rest =>
        have hx : x.2.length = 1 := block_closed_one x (hcl x (List.mem_cons_self _ _))
        have hx1 : x.2 ≠ [] := by
          intro h0
          rw [h0] at hx
          simp at hx
        exact layout_data_pos bs x (by rw [hbs]; simp) hx1

theorem leaders_by_block_bytes_witness :
    build e5_strings 1 = Except.ok e5_dictionary ∧ e5_strings.length = 2 ∧
    blocks_count e5_dictionary = (e5_strings.length + 1) / 2 ∧
    build leaders_sample 0 = Except.ok leaders_dictionary ∧
    blocks_count leaders_dictionary = leaders_sample.length ∧ leaders_dictionary.data = [] :=
  ⟨e5_build, rfl,
    ((leaders_by_block_bytes e5_strings 1 e5_dictionary e5_build
      (by unfold FitsOffsets e5_strings e5_dictionary; decide)).2.1 rfl).1,
    leaders_build,
    ((leaders_by_block_bytes leaders_sample 0 leaders_dictionary leaders_build
      (by unfold FitsOffsets leaders_sample leaders_dictionary; decide)).1 rfl).1,
    ((leaders_by_block_bytes leaders_sample 0 leaders_dictionary leaders_build
      (by unfold FitsOffsets leaders_sample leaders_dictionary; decide)).1 rfl).2⟩

/-- C18 (counterexample): for `["alpha", "alphabet"]` and `block_bytes = 1` the builder makes
one block for the two strings and the tail region holds five bytes. -/
theorem block_bytes_one_not_all_leaders :
    build e5_strings 1 = Except.ok e5_dictionary ∧
    ¬ (blocks_count e5_dictionary = e5_strings.length) ∧ ¬ (e5_dictionary.data = []) :=
  ⟨e5_build, by decide, by decide⟩

/-! ## Scenario E2, the empty string, the value `access` returns -/

/-- C11 (amended, scenario E2): for the dictionary built from
`["a", "aa", "aaa", "aaaa", "aaaaa"]` with `block_bytes = 8`, `rank(S[i]) = i + 1` for every
`i`, `rank("aaab") = 5` (all five strings are `<= "aaab"`, as the linear scan counts), and
`access(3)` leaves `"aaaa"`. -/
theorem scenario_e2 :
    build e2_strings 8 = Except.ok e2_dictionary ∧
    (∀ i, i < 5 →
      rank e2_dictionary (e2_strings.getD i []) (e2_strings.getD i []).length = some (i + 1)) ∧
    rank e2_dictionary [97, 97, 97, 98] 4 = some 5 ∧
    linear_scan_rank e2_strings [97, 97, 97, 98] = 5 ∧
    access e2_dictionary 3 [0, 0, 0, 0, 0, 0] = some ([97, 97, 97, 97, 0, 0], 5) ∧
    cstr [97, 97, 97, 97, 0, 0] = [97, 97, 97, 97] :=
  ⟨e2_build, by decide, by decide, by decide, by decide, by decide⟩

/-- C11 (counterexample): in scenario E2 `rank("aaab")` is 5, not 3. -/
theorem scenario_e2_rank_aaab :
    build e2_strings 8 = Except.ok e2_dictionary ∧
    ¬ (rank e2_dictionary [97, 97, 97, 98] 4 = some 3) :=
  ⟨e2_build, by decide⟩

/-- C12 (failing input): the strictly ascending inputs `[""]` and `["", "a"]`, whose first
string is the empty string, are not accepted, whatever `block_bytes`: the constructor throws
`invalid_argument("data is not sorted")`, because its test `*first <= prev` starts from
`prev = ""` and `"" <= ""` holds for the first string. -/
theorem empty_first_string_not_accepted (bb : Nat) :
    strictly_ascending [[]] = true ∧ strictly_ascending [[], [97]] = true ∧
    build [[]] bb = Except.error (Fault.invalid_argument "data is not sorted") ∧
    build [[], [97]] bb = Except.error (Fault.invalid_argument "data is not sorted") :=
  ⟨by decide, by decide, rfl, rfl⟩

/-- C13 (amended, return value of `access`): in a dictionary the builder returns (NUL-free
input, sizes within the 32-bit index), for every `i < N` and every output buffer longer than
each string, the pointer `access(i, out)` returns is `out + |S[i]| + 1`: one past the NUL
terminator, which is at offset `|S[i]|`. -/
theorem access_return_value (S : List (List Nat)) (bb : Nat) (r : RearCodedArray) (i : Nat)
    (out : List Nat) (hbb : bb < 2 ^ 64) (hnul : ∀ s ∈ S, NulFree s)
    (hb : build S bb = Except.ok r) (hf : FitsOffsets S r) (hi : i < S.length)
    (hcap : ∀ s ∈ S, s.length < out.length) :
    ∃ out1, access r i out = some (out1, S[i].length + 1) ∧ read out1 S[i].length = 0 ∧
      strlen out1 = S[i].length := by
  obtain ⟨out1, h1, _, h3⟩ := access_spec S bb r i out hbb hnul hb hf hi hcap
  rw [getD_eq_getElem S i hi] at h1 h3
  refine ⟨out1, h1, ?_, ?_⟩
  · have e : out1 = (S[i] ++ [0]) ++ out1.drop (S[i].length + 1) := by
      conv_lhs => rw [← List.take_append_drop (S[i].length + 1) out1, h3]
    rw [e, List.append_assoc]
    have := read_append_right S[i] ([0] ++ out1.drop (S[i].length + 1)) 0
    simpa [read_cons_zero] using this
  · rw [strlen, cstr_of_take out1 S[i] (hnul _ (List.getElem_mem _)) h3]

theorem access_return_value_witness :
    build sample_strings 8 = Except.ok sample_dictionary ∧
    ∃ out1, access sample_dictionary 1 [7, 7, 7, 7] = some (out1, 2 + 1) ∧
      read out1 2 = 0 ∧ strlen out1 = 2 :=
  ⟨sample_build, access_return_value sample_strings 8 sample_dictionary 1 [7, 7, 7, 7]
    (by decide) sample_nulfree sample_build sample_fits (by decide) (by decide)⟩

/-- C13 (counterexample): `access(1, out)` on the dictionary of `["a", "ab"]` returns offset
3, while `|S[1]| = 2`. -/
theorem access_returns_past_terminator :
    build sample_strings 8 = Except.ok sample_dictionary ∧
    access sample_dictionary 1 [7, 7, 7, 7] = some ([97, 98, 0, 7], 3) ∧
    (sample_strings.getD 1 []).length = 2 :=
  ⟨sample_build, by decide, by decide⟩

/-! ## The byte format of the varint -/

theorem encode_int_loop_cons (fuel x : Nat) (h : 127 < x) :
    encode_int_loop (fuel + 1) x [] = (x % 128) :: encode_int_loop fuel (x / 128) [] := by
  rw [encode_int_loop, if_pos h, encode_int_loop_append, and_127_of_mod]
  simp [Nat.shiftRight_eq_div_pow]

theorem encode_int_loop_last (fuel x : Nat) (h : x ≤ 127) (hf : x ≤ fuel) :
    encode_int_loop fuel x [] = [x + 128] := by
  cases fuel with
  | zero =>
    have : x = 0 := by omega
    subst this
    rfl
  | succ f =>
    rw [encode_int_loop, if_neg (by omega), or_128_of_le x h]
    rfl

/-- The byte format of the loop of `encode_int`, given enough iterations. -/
theorem encode_int_loop_format (fuel : Nat) : ∀ x, x ≤ fuel →
    1 ≤ (encode_int_loop fuel x []).length ∧
    (∀ k, k < (encode_int_loop fuel x []).length →
      (encode_int_loop fuel x []).getD k 0 % 128 = x / 2 ^ (7 * k) % 128 ∧
      (k + 1 < (encode_int_loop fuel x []).length → (encode_int_loop fuel x []).getD k 0 < 128) ∧
      (k + 1 = (encode_int_loop fuel x []).length →
        128 ≤ (encode_int_loop fuel x []).getD k 0 ∧
        (encode_int_loop fuel x []).getD k 0 < 256)) ∧
    x < 2 ^ (7 * (encode_int_loop fuel x []).length) ∧
    (1 < (encode_int_loop fuel x []).length →
      2 ^ (7 * ((encode_int_loop fuel x []).length - 1)) ≤ x) := by
  induction fuel with
  | zero =>
    intro x hx
    have : x = 0 := by omega
    subst this
    rw [encode_int_loop_last 0 0 (by omega) (by omega)]
    refine ⟨by simp, ?_, by simp, by simp⟩
    intro k hk
    have : k = 0 := by simpa using hk
    subst this
    simp
  | succ f ih =>
    intro x hx
    by_cases h : 127 < x
    · rw [encode_int_loop_cons f x h]
      have hdiv : x / 128 ≤ f := by omega
      obtain ⟨h1, h2, h3, h4⟩ := ih (x / 128) hdiv
      generalize encode_int_loop f (x / 128) [] = B at h1 h2 h3 h4
      refine ⟨by simp, ?_, ?_, ?_⟩
      · intro k hk
        cases k with
        | zero =>
          refine ⟨by simp, ?_, ?_⟩
          · intro _
            simp only [List.getD_cons_zero]
            omega
          · intro h0
            simp only [List.length_cons] at h0
            omega
        | succ k =>
          simp only [List.length_cons, Nat.add_lt_add_iff_right] at hk
          obtain ⟨a1, a2, a3⟩ := h2 k hk
          simp only [List.getD_cons_succ, List.length_cons, Nat.add_lt_add_iff_right]
          refine ⟨?_, a2, ?_⟩
          · rw [a1, Nat.div_div_eq_div_mul]
            have : 128 * 2 ^ (7 * k) = 2 ^ (7 * (k + 1)) := by
              rw [Nat.mul_add, Nat.pow_add]
              ring
            rw [this]
          · intro h0
            exact a3 (by omega)
      · simp only [List.length_cons]
        have : 2 ^ (7 * (B.length + 1)) = 128 * 2 ^ (7 * B.length) := by
          rw [Nat.mul_add, Nat.pow_add]
          ring
        rw [this]
        have := Nat.lt_mul_of_div_lt h3 (by decide : 0 < 128)
        omega
      · intro _
        simp only [List.length_cons, Nat.add_sub_cancel]
        by_cases hB : 1 < B.length
        · have h5 := h4 hB
          have e : 7 * B.length = 7 * (B.length - 1) + 7 := by omega
          rw [e, Nat.pow_add]
          have := Nat.div_mul_le_self x 128
          have h6 : 2 ^ (7 * (B.length - 1)) * 2 ^ 7 ≤ x / 128 * 128 :=
            Nat.mul_le_mul h5 (by decide)
          omega
        · have hB1 : B.length = 1 := by omega
          rw [hB1]
          simp
          omega
    · have hx127 : x ≤ 127 := by omega
      rw [encode_int_loop_last (f + 1) x hx127 hx]
      refine ⟨by simp, ?_, ?_, by simp⟩
      · intro k hk
        have : k = 0 := by simpa using hk
        subst this
        refine ⟨?_, by simp, ?_⟩
        · simp only [List.getD_cons_zero, Nat.mul_zero, Nat.pow_zero, Nat.div_one]
          omega
        · intro _
          simp only [List.getD_cons_zero]
          omega
      · simp
        omega


/-! ## The in-block scan on 7-bit data, for a query followed by a NUL -/

theorem read_ge (A : List Nat) (i : Nat) (h : A.length ≤ i) : read A i = 0 := by
  unfold read
  rw [List.getD_eq_getElem?_getD, List.getElem?_eq_none h]
  rfl

/-- The first byte at which two NUL-free strings differ decides their order, the byte past
the end of a string counting as 0. -/
theorem string_le_false_iff (a b : List Nat) (ha : NulFree a) (hb : NulFree b) :
    string_le b a = false ↔ read a (compute_lcp a b) < read b (compute_lcp a b) := by
  have h := byte_diff_sign a [] b [] ha hb (read_nil 0) (read_nil 0)
  simp only [List.append_nil] at h
  constructor
  · intro hf
    by_contra hc
    have : string_le b a = true := h.mp (by omega)
    rw [hf] at this
    exact Bool.noConfusion this
  · intro hlt
    cases hle : string_le b a with
    | false => rfl
    | true =>
      have := h.mpr hle
      omega

theorem compute_lcp_eq_of (A B : List Nat) (i : Nat) (h1 : i ≤ A.length) (h2 : i ≤ B.length)
    (heq : ∀ k, k < i → read A k = read B k) (hne : read A i ≠ read B i) :
    compute_lcp A B = i := by
  have hle := le_compute_lcp A B i h1 h2 heq
  rcases Nat.lt_or_ge i (compute_lcp A B) with h | h
  · exact absurd (compute_lcp_read_eq A B i h) hne
  · omega

/-- The scan of `block_rank`, case `prev_string_lcp < pattern_lcp`: the next string leaves the
current one before the query does, so it is above the query. -/
theorem scan_case_lt (q cur s : List Nat) (hq : NulFree q) (hc : NulFree cur) (hs : NulFree s)
    (hlt : string_lt cur s = true) (h : compute_lcp cur s < compute_lcp q cur) :
    string_le s q = false := by
  have hP1 := compute_lcp_le_left q cur
  have hP2 := compute_lcp_le_right q cur
  have hc2 := compute_lcp_le_right cur s
  have hcs : read cur (compute_lcp cur s) < read s (compute_lcp cur s) :=
    (string_le_false_iff cur s hc hs).mp ((string_lt_iff cur s).mp hlt)
  have hqc : read q (compute_lcp cur s) = read cur (compute_lcp cur s) :=
    compute_lcp_read_eq q cur _ h
  have hlcp : compute_lcp q s = compute_lcp cur s := by
    apply compute_lcp_eq_of q s _ (by omega) hc2
    · intro k hk
      rw [compute_lcp_read_eq q cur k (by omega), compute_lcp_read_eq cur s k hk]
    · omega
  rw [string_le_false_iff q s hq hs, hlcp]
  omega

/-- The scan of `block_rank`, case `prev_string_lcp > pattern_lcp`: the next string agrees with
the current one past the byte where the query left it, so it shares the same prefix with the
query and is still not above it. -/
theorem scan_case_gt (q cur s : List Nat) (hq : NulFree q) (hc : NulFree cur) (hs : NulFree s)
    (hle : string_le cur q = true) (h : compute_lcp q cur < compute_lcp cur s) :
    compute_lcp q s = compute_lcp q cur ∧ string_le s q = true := by
  have hP1 := compute_lcp_le_left q cur
  have hc1 := compute_lcp_le_left cur s
  have hc2 := compute_lcp_le_right cur s
  have hnot : ¬ read q (compute_lcp q cur) < read cur (compute_lcp q cur) := by
    intro hlt
    have := (string_le_false_iff q cur hq hc).mpr hlt
    rw [hle] at this
    exact Bool.noConfusion this
  have hcpos := (read_pos cur hc (compute_lcp q cur) (by omega)).1
  have hPq : compute_lcp q cur < q.length := by
    rcases Nat.lt_or_ge (compute_lcp q cur) q.length with h1 | h1
    · exact h1
    · have := read_ge q (compute_lcp q cur) h1
      omega
  have hne := compute_lcp_read_ne q cur hPq (by omega)
  have hcs : read cur (compute_lcp q cur) = read s (compute_lcp q cur) :=
    compute_lcp_read_eq cur s _ h
  have hlcp : compute_lcp q s = compute_lcp q cur := by
    apply compute_lcp_eq_of q s _ (by omega) (by omega)
    · intro k hk
      rw [compute_lcp_read_eq q cur k hk, compute_lcp_read_eq cur s k (by omega)]
    · rw [← hcs]
      exact hne
  refine ⟨hlcp, ?_⟩
  cases hsq : string_le s q with
  | true => rfl
  | false =>
    have := (string_le_false_iff q s hq hs).mp hsq
    rw [hlcp, ← hcs] at this
    exact absurd this hnot

/-- The scan of `block_rank`, case `prev_string_lcp == pattern_lcp`: the query shares with the
next string at least what it shares with the current one. -/
theorem scan_case_eq (q cur s : List Nat) (h : compute_lcp cur s = compute_lcp q cur) :
    compute_lcp cur s ≤ compute_lcp q s := by
  have hP1 := compute_lcp_le_left q cur
  have hc2 := compute_lcp_le_right cur s
  apply le_compute_lcp q s _ (by omega) hc2
  intro k hk
  rw [compute_lcp_read_eq q cur k (by omega), compute_lcp_read_eq cur s k hk]

/-- Once a string of an ascending run is above the query, none of the run counts. -/
theorem countP_above (q s : List Nat) (ss : List (List Nat))
    (hpw : (s :: ss).Pairwise (fun a b => string_lt a b = true))
    (h : string_le s q = false) :
    (s :: ss).countP (fun t => string_le t q) = 0 := by
  rw [List.countP_eq_zero]
  intro t ht
  rcases List.mem_cons.mp ht with h1 | h1
  · subst h1
    simp [h]
  · have hst : string_lt s t = true := (List.pairwise_cons.mp hpw).1 t h1
    cases htq : string_le t q with
    | false => simp
    | true =>
      have := string_le_trans s t q (string_lt_le s t hst) htq
      rw [h] at this
      exact Bool.noConfusion this

theorem seven_bit_nulfree (s : List Nat) (h : SevenBit s) : NulFree s := by
  intro b hb
  have := h b hb
  omega

theorem read_seven_bit (s : List Nat) (h : SevenBit s) (i : Nat) : read s i < 128 := by
  rcases Nat.lt_or_ge i s.length with hi | hi
  · exact (h _ (read_mem s i hi)).2
  · rw [read_ge s i hi]
    decide

theorem signed_char_small (b : Nat) (h : b < 128) : signed_char b = (b : Int) := by
  unfold signed_char
  have : b % 256 = b := Nat.mod_eq_of_lt (by omega)
  rw [this, if_pos h]

/-- On 7-bit data the comparison of two bytes through `char` is the comparison of the
bytes. -/
theorem signed_char_lt_iff (a b : Nat) (ha : a < 128) (hb : b < 128) :
    signed_char a < signed_char b ↔ a < b := by
  rw [signed_char_small a ha, signed_char_small b hb]
  exact Int.ofNat_lt

/-- The byte at offset `i` of the stored suffix `s[c..]`, terminator included, is byte `c + i`
of `s`. -/
theorem read_suffix (s junk : List Nat) (c i : Nat) (hc : c ≤ s.length)
    (hi : c + i ≤ s.length) : read (s.drop c ++ 0 :: junk) i = read s (c + i) := by
  rcases Nat.lt_or_ge (c + i) s.length with h | h
  · rw [read_append_left _ _ _ (by simp; omega)]
    unfold read
    rw [List.getD_eq_getElem?_getD, List.getD_eq_getElem?_getD, List.getElem?_drop]
  · have hi2 : i = (s.drop c).length := by simp; omega
    rw [read_ge s _ h, hi2]
    have := read_append_right (s.drop c) (0 :: junk) 0
    simpa [read_cons_zero] using this

/-- The byte at offset `i <= |q|` of a region that holds `q` followed by a NUL (or by nothing)
is byte `i` of `q`, the byte past the end of `q` counting as 0. -/
theorem read_terminated (q t1 : List Nat) (ht1 : read t1 0 = 0) (i : Nat)
    (hi : i ≤ q.length) : read (q ++ t1) i = read q i := by
  rcases Nat.lt_or_ge i q.length with h | h
  · exact read_append_left q t1 i h
  · have hi2 : i = q.length := by omega
    rw [read_ge q i h, hi2]
    have := read_append_right q t1 0
    simpa [ht1] using this

theorem block_rank_loop_lt (pattern : List Nat) (len sib k j : Nat) (dp : List Nat)
    (cl pl x : Nat) (dp1 : List Nat) (h : decode_int dp = some (x, dp1))
    (c1 : (cl + 2 ^ 64 - x) % 2 ^ 64 < pl) :
    block_rank_loop pattern len sib (k + 1) j dp cl pl = some j := by
  rw [block_rank_loop, h]
  dsimp only
  rw [if_pos c1]

theorem block_rank_loop_gt (pattern : List Nat) (len sib k j : Nat) (dp : List Nat)
    (cl pl x : Nat) (dp1 : List Nat) (h : decode_int dp = some (x, dp1))
    (c1 : pl < (cl + 2 ^ 64 - x) % 2 ^ 64) :
    block_rank_loop pattern len sib (k + 1) j dp cl pl =
      block_rank_loop pattern len sib k (j + 1) (dp1.drop (strlen dp1 + 1))
        (((cl + 2 ^ 64 - x) % 2 ^ 64 + strlen dp1) % 2 ^ 64) pl := by
  have hne : ¬ (cl + 2 ^ 64 - x) % 2 ^ 64 = pl := by omega
  rw [block_rank_loop, h]
  dsimp only
  rw [if_neg (by omega), if_neg (fun hc => hne hc.1), if_neg hne]
  rfl

theorem block_rank_loop_eq_stop (pattern : List Nat) (len sib k j : Nat) (dp : List Nat)
    (cl pl x : Nat) (dp1 : List Nat) (h : decode_int dp = some (x, dp1))
    (c1 : (cl + 2 ^ 64 - x) % 2 ^ 64 = pl)
    (c2 : signed_char (read pattern (pl + lcp64 (pattern.drop pl) (len - pl) dp1))
      < signed_char (read dp1 (lcp64 (pattern.drop pl) (len - pl) dp1))) :
    block_rank_loop pattern len sib (k + 1) j dp cl pl = some j := by
  rw [block_rank_loop, h]
  dsimp only
  rw [c1, if_neg (Nat.lt_irrefl _), if_pos rfl, if_pos ⟨rfl, c2⟩]

theorem block_rank_loop_eq_go (pattern : List Nat) (len sib k j : Nat) (dp : List Nat)
    (cl pl x : Nat) (dp1 : List Nat) (h : decode_int dp = some (x, dp1))
    (c1 : (cl + 2 ^ 64 - x) % 2 ^ 64 = pl)
    (c2 : ¬ signed_char (read pattern (pl + lcp64 (pattern.drop pl) (len - pl) dp1))
      < signed_char (read dp1 (lcp64 (pattern.drop pl) (len - pl) dp1))) :
    block_rank_loop pattern len sib (k + 1) j dp cl pl =
      block_rank_loop pattern len sib k (j + 1) (dp1.drop (strlen dp1 + 1))
        ((pl + strlen dp1) % 2 ^ 64)
        (pl + lcp64 (pattern.drop pl) (len - pl) dp1) := by
  rw [block_rank_loop, h]
  dsimp only
  rw [c1, if_neg (Nat.lt_irrefl _), if_pos rfl, if_neg (fun hc => c2 hc.2)]

/-- The loop of `block_rank` on 7-bit data and a query `q` that is followed by a NUL: started
on a string `cur <= q` with its length and `pattern_lcp = lcp(q, cur)`, at the tail records of
the ascending strings `rest`, it returns `j` plus the number of strings of `rest` that are
`<= q`. -/
theorem block_rank_loop_exact (q t1 : List Nat) (hq : SevenBit q) (ht1 : read t1 0 = 0)
    (sib : Nat) (rest : List (List Nat)) :
    ∀ (j : Nat) (cur junk : List Nat), SevenBit cur → (∀ s ∈ rest, SevenBit s) →
      cur.length < 2 ^ 64 → (∀ s ∈ rest, s.length < 2 ^ 64) →
      (cur :: rest).Pairwise (fun a b => string_lt a b = true) →
      string_le cur q = true → j + rest.length = sib →
      block_rank_loop (q ++ t1) q.length sib rest.length j (tail_records cur rest ++ junk)
          cur.length (compute_lcp q cur)
        = some (j + rest.countP (fun s => string_le s q)) := by
  induction rest with
  | nil =>
    intro j cur junk _ _ _ _ _ _ hj
    simp only [List.length_nil, Nat.add_zero] at hj
    simp [block_rank_loop, hj]
  | cons s ss ih =>
    intro j cur junk hcur7 h7 hcurlen hlens hpw hle hj
    have hq0 : NulFree q := seven_bit_nulfree q hq
    have hcur0 : NulFree cur := seven_bit_nulfree cur hcur7
    have hs7 : SevenBit s := h7 s (List.mem_cons_self _ _)
    have hs : NulFree s := seven_bit_nulfree s hs7
    have hlt : string_lt cur s = true := (List.pairwise_cons.mp hpw).1 s (List.mem_cons_self _ _)
    have hpw2 : (s :: ss).Pairwise (fun a b => string_lt a b = true) :=
      (List.pairwise_cons.mp hpw).2
    have hl1 := compute_lcp_le_left cur s
    have hl2 := compute_lcp_le_right cur s
    have hslen : s.length < 2 ^ 64 := hlens s (List.mem_cons_self _ _)
    have hdata : tail_records cur (s :: ss) ++ junk =
        encode_int (cur.length - compute_lcp cur s) [] ++
          (s.drop (compute_lcp cur s) ++ 0 :: (tail_records s ss ++ junk)) := by
      simp [tail_records, tail_record]
    have hstr := strlen_append_nul (s.drop (compute_lcp cur s)) (tail_records s ss ++ junk)
      (nulfree_drop s _ hs)
    have hdrop : (s.drop (compute_lcp cur s) ++ 0 :: (tail_records s ss ++ junk)).drop
        ((s.drop (compute_lcp cur s)).length + 1) = tail_records s ss ++ junk := by
      have e : (s.drop (compute_lcp cur s)).length + 1
          = (s.drop (compute_lcp cur s) ++ [0]).length := by simp
      have e2 : s.drop (compute_lcp cur s) ++ 0 :: (tail_records s ss ++ junk)
          = (s.drop (compute_lcp cur s) ++ [0]) ++ (tail_records s ss ++ junk) := by simp
      rw [e, e2, List.drop_left]
    have hdec := decode_encode (cur.length - compute_lcp cur s)
      (s.drop (compute_lcp cur s) ++ 0 :: (tail_records s ss ++ junk)) (by omega)
    rw [← hdata] at hdec
    have hpsl : (cur.length + 2 ^ 64 - (cur.length - compute_lcp cur s)) % 2 ^ 64
        = compute_lcp cur s := by
      have : cur.length + 2 ^ 64 - (cur.length - compute_lcp cur s)
          = compute_lcp cur s + 2 ^ 64 := by omega
      rw [this, Nat.add_mod_right]
      exact Nat.mod_eq_of_lt (by omega)
    have hnewlen : (compute_lcp cur s + (s.drop (compute_lcp cur s)).length) % 2 ^ 64
        = s.length := by
      rw [List.length_drop]
      have : compute_lcp cur s + (s.length - compute_lcp cur s) = s.length := by omega
      rw [this]
      exact Nat.mod_eq_of_lt hslen
    have hrec := fun (hsq : string_le s q = true) =>
      ih (j + 1) s junk hs7 (fun t ht => h7 t (List.mem_cons_of_mem _ ht)) hslen
        (fun t ht => hlens t (List.mem_cons_of_mem _ ht)) hpw2 hsq
        (by simp only [List.length_cons] at hj; omega)
    have hcount : ∀ (hsq : string_le s q = true),
        j + 1 + ss.countP (fun t => string_le t q)
          = j + (s :: ss).countP (fun t => string_le t q) := by
      intro hsq
      simp only [List.countP_cons, hsq, if_true]
      omega
    simp only [List.length_cons]
    rcases Nat.lt_trichotomy (compute_lcp cur s) (compute_lcp q cur) with h | h | h
    · rw [block_rank_loop_lt (q ++ t1) q.length sib ss.length j _ _ _ _ _ hdec
        (by rw [hpsl]; exact h)]
      rw [countP_above q s ss hpw2 (scan_case_lt q cur s hq0 hcur0 hs hlt h)]
      rfl
    · have hge := scan_case_eq q cur s h
      have hL := compute_lcp_drop q s (compute_lcp cur s) hge
      have hcq : compute_lcp cur s ≤ q.length := by
        rw [h]
        exact compute_lcp_le_left q cur
      have hqd : (q ++ t1).drop (compute_lcp cur s) = q.drop (compute_lcp cur s) ++ t1 :=
        List.drop_append_of_le_length hcq
      have hlcp := lcp64_spec (q.drop (compute_lcp cur s)) t1 (s.drop (compute_lcp cur s))
        (0 :: (tail_records s ss ++ junk)) (nulfree_drop q _ hq0) (read_cons_zero 0 _)
      simp only [List.length_drop] at hlcp
      rw [← hqd] at hlcp
      have hr2 := compute_lcp_le_right q s
      have hr3 := compute_lcp_le_left q s
      have hread : read (s.drop (compute_lcp cur s) ++ 0 :: (tail_records s ss ++ junk))
          (compute_lcp (q.drop (compute_lcp cur s)) (s.drop (compute_lcp cur s)))
          = read s (compute_lcp q s) := by
        rw [read_suffix s _ _ _ hl2 (by omega)]
        congr 1
        omega
      have hplus : compute_lcp cur s
          + compute_lcp (q.drop (compute_lcp cur s)) (s.drop (compute_lcp cur s))
          = compute_lcp q s := by omega
      have hcmp : signed_char (read (q ++ t1) (compute_lcp cur s +
            lcp64 ((q ++ t1).drop (compute_lcp cur s)) (q.length - compute_lcp cur s)
              (s.drop (compute_lcp cur s) ++ 0 :: (tail_records s ss ++ junk))))
          < signed_char (read (s.drop (compute_lcp cur s) ++ 0 :: (tail_records s ss ++ junk))
            (lcp64 ((q ++ t1).drop (compute_lcp cur s)) (q.length - compute_lcp cur s)
              (s.drop (compute_lcp cur s) ++ 0 :: (tail_records s ss ++ junk))))
          ↔ string_le s q = false := by
        rw [hlcp, hread, hplus, read_terminated q t1 ht1 _ hr3,
          signed_char_lt_iff _ _ (read_seven_bit q hq _) (read_seven_bit s hs7 _)]
        exact (string_le_false_iff q s hq0 hs).symm
      rw [← h]
      cases hsq : string_le s q with
      | false =>
        rw [block_rank_loop_eq_stop (q ++ t1) q.length sib ss.length j _ _ _ _ _ hdec hpsl
          (hcmp.mpr hsq)]
        rw [countP_above q s ss hpw2 hsq]
        rfl
      | true =>
        rw [block_rank_loop_eq_go (q ++ t1) q.length sib ss.length j _ _ _ _ _ hdec hpsl
          (fun hc => by have := hcmp.mp hc; rw [hsq] at this; exact Bool.noConfusion this)]
        rw [hstr, hdrop, hlcp, hnewlen, hplus, hrec hsq, hcount hsq]
    · obtain ⟨hlcp, hsq⟩ := scan_case_gt q cur s hq0 hcur0 hs hle h
      rw [block_rank_loop_gt (q ++ t1) q.length sib ss.length j _ _ _ _ _ hdec
        (by rw [hpsl]; exact h)]
      rw [hstr, hdrop, hpsl, hnewlen, ← hlcp, hrec hsq, hcount hsq]

/-- The member `block_rank` on block `pre.length` of a layout of 7-bit strings, for a 7-bit
query that is followed by a NUL: the number of strings of the block that are `<= q`. -/
theorem block_rank_exact (r : RearCodedArray) (pre : List Block) (blk : Block)
    (post : List Block) (hl : Layout (pre ++ blk :: post) r) (q t1 : List Nat)
    (hq : SevenBit q) (ht1 : read t1 0 = 0)
    (h7 : ∀ s ∈ layout_strings (pre ++ blk :: post), SevenBit s)
    (hlen : ∀ s ∈ layout_strings (pre ++ blk :: post), s.length < 2 ^ 64)
    (hn : (layout_strings (pre ++ blk :: post)).length < 2 ^ 32)
    (hpw : (blk.1 :: blk.2).Pairwise (fun a b => string_lt a b = true)) :
    block_rank r (q ++ t1) q.length pre.length
      = some ((blk.1 :: blk.2).countP (fun s => string_le s q)) := by
  obtain ⟨hd, hh, hi, _⟩ := hl
  have hlead := mem_layout_strings_leader pre blk post
  have hfol := mem_layout_strings_follower pre blk post
  have h1 := layout_index_entry pre blk post
  have h2 := layout_index_entry_succ pre blk post
  have hq0 : NulFree q := seven_bit_nulfree q hq
  have hb7 : SevenBit blk.1 := h7 _ hlead
  have hb0 : NulFree blk.1 := seven_bit_nulfree _ hb7
  have hcount : (layout_strings pre).length + (blk.2.length + 1)
      ≤ (layout_strings (pre ++ blk :: post)).length := by
    rw [layout_strings_append]
    simp [layout_strings]
  have hsib : ((layout_strings pre).length + (blk.2.length + 1) + 2 ^ 32
      - (layout_strings pre).length) % 2 ^ 32 = blk.2.length + 1 := by
    have : (layout_strings pre).length + (blk.2.length + 1) + 2 ^ 32
        - (layout_strings pre).length = blk.2.length + 1 + 2 ^ 32 := by omega
    rw [this, Nat.add_mod_right]
    exact Nat.mod_eq_of_lt (by omega)
  have hlcp := lcp64_spec q t1 blk.1 (0 :: layout_headers post) hq0 (read_cons_zero 0 _)
  have hP := compute_lcp_le_right q blk.1
  have hPq := compute_lcp_le_left q blk.1
  have hread : read (blk.1 ++ 0 :: layout_headers post) (compute_lcp q blk.1)
      = read blk.1 (compute_lcp q blk.1) := by
    have := read_suffix blk.1 (layout_headers post) 0 (compute_lcp q blk.1) (Nat.zero_le _)
      (by omega)
    simpa only [List.drop_zero, Nat.zero_add] using this
  have hcmp : signed_char (read (q ++ t1) (compute_lcp q blk.1))
      < signed_char (read (blk.1 ++ 0 :: layout_headers post) (compute_lcp q blk.1))
      ↔ string_le blk.1 q = false := by
    rw [hread, read_terminated q t1 ht1 _ hPq,
      signed_char_lt_iff _ _ (read_seven_bit q hq _) (read_seven_bit blk.1 hb7 _)]
    exact (string_le_false_iff q blk.1 hq0 hb0).symm
  have hcur : compute_lcp q blk.1
      + strlen ((blk.1 ++ 0 :: layout_headers post).drop (compute_lcp q blk.1))
      = blk.1.length := by
    rw [List.drop_append_of_le_length hP, strlen_append_nul _ _ (nulfree_drop blk.1 _ hb0),
      List.length_drop]
    omega
  unfold block_rank
  rw [hi, h1, h2]
  dsimp only
  rw [hsib, hh, layout_headers_drop, hlcp]
  cases hsq : string_le blk.1 q with
  | false =>
    rw [if_pos (hcmp.mpr hsq), countP_above q blk.1 blk.2 hpw hsq]
  | true =>
    rw [if_neg (fun hc => by have := hcmp.mp hc; rw [hsq] at this; exact Bool.noConfusion this)]
    rw [hd, layout_data_drop, hcur]
    simp only [Nat.add_sub_cancel]
    rw [block_rank_loop_exact q t1 hq ht1 (blk.2.length + 1) blk.2 1 blk.1 (layout_data post)
      hb7 (fun s hs => h7 s (hfol s hs)) (hlen _ hlead) (fun s hs => hlen s (hfol s hs)) hpw
      hsq (by omega)]
    simp only [List.countP_cons, hsq, if_true]
    congr 1
    omega

theorem countP_below (q : List Nat) (l : List (List Nat))
    (h : ∀ t ∈ l, string_le t q = true) :
    l.countP (fun t => string_le t q) = l.length := by
  rw [List.countP_eq_length]
  intro t ht
  exact h t ht

theorem countP_above_nil (q : List Nat) (l : List (List Nat))
    (hpw : l.Pairwise (fun a b => string_lt a b = true))
    (h : string_le (l.getD 0 []) q = false) :
    l.countP (fun t => string_le t q) = 0 := by
  cases l with
  | nil => rfl
  | cons s ss => exact countP_above q s ss hpw (by simpa using h)

theorem layout_strings_head (p : Block) (post : List Block) :
    (layout_strings (p :: post)).getD 0 [] = p.1 := by
  simp [layout_strings]

/-- Rank on 7-bit data for a query that is followed by a NUL (or ends its region, as the
bytes of a `std::string` do): on every dictionary the builder returns for an input whose
bytes are all in `1..127`, and for every such query `q` with bytes in `1..127`, `rank`
returns the number of strings of the input that are `<= q`. -/
theorem rank_exact (S : List (List Nat)) (bb : Nat) (r : RearCodedArray) (q t1 : List Nat)
    (hbb : bb < 2 ^ 64) (h7 : ∀ s ∈ S, SevenBit s) (hq : SevenBit q) (ht1 : read t1 0 = 0)
    (hb : build S bb = Except.ok r) (hf : FitsOffsets S r) :
    rank r (q ++ t1) q.length = some (linear_scan_rank S q) := by
  obtain ⟨bs, hne, hstr, hl⟩ := build_layout S bb r hbb hb hf
  have hq0 : NulFree q := seven_bit_nulfree q hq
  have hnul : ∀ s ∈ S, NulFree s := fun s hs => seven_bit_nulfree s (h7 s hs)
  have hpwS := build_pairwise S bb r hb
  obtain ⟨lo1, hsel, hlo, hbelow, habove⟩ := search_spec (bs.map Prod.fst) r q t1
    (layout_header_table bs r hl)
    (hpwS.sublist (hstr ▸ leaders_sublist bs))
    (fun l hl' => hnul l ((hstr ▸ leaders_sublist bs).subset hl')) hq0 ht1
  simp only [List.length_map] at hlo habove
  have hpos : 0 < bs.length := List.length_pos.mpr hne
  have hblt : lo1 - (if lo1 ≠ 0 then 1 else 0) < bs.length := by
    split <;> omega
  obtain ⟨pre, blk, post, hbs, hlen, h1, h2⟩ := layout_block bs r hl _ hblt
  subst hstr
  have hn : (layout_strings bs).length < 2 ^ 32 := by
    have := hf.1; rw [hl.2.2.2] at this; exact this
  have hlens : ∀ s ∈ layout_strings bs, s.length < 2 ^ 64 := by
    intro s hs
    have := hf.2.2.2 s hs
    omega
  have hS : layout_strings bs
      = layout_strings pre ++ ((blk.1 :: blk.2) ++ layout_strings post) := by
    rw [hbs, layout_strings_append]
    rfl
  have hpw1 := hpwS
  rw [hS, List.pairwise_append] at hpw1
  obtain ⟨_, hpw2, hcross⟩ := hpw1
  have hpwblk : (blk.1 :: blk.2).Pairwise (fun a b => string_lt a b = true) :=
    (List.pairwise_append.mp hpw2).1
  have hbr := block_rank_exact r pre blk post (hbs ▸ hl) q t1 hq ht1 (hbs ▸ h7) (hbs ▸ hlens)
    (hbs ▸ hn) hpwblk
  rw [hlen] at hbr
  have hrank : rank r (q ++ t1) q.length = some ((layout_strings pre).length
      + (blk.1 :: blk.2).countP (fun s => string_le s q)) := by
    simp only [rank, hsel, h1, hbr]
  rw [hrank]
  congr 1
  unfold linear_scan_rank
  rw [hS, List.countP_append, List.countP_append]
  have hlead : (bs.map Prod.fst).getD pre.length [] = blk.1 := by
    rw [hbs]
    exact leaders_getD pre blk post
  by_cases h0 : lo1 = 0
  · have hpre : pre = [] := by
      apply List.eq_nil_of_length_eq_zero
      rw [hlen, h0]
      rfl
    have hgt : string_le blk.1 q = false := by
      rw [← hlead, hpre]
      exact habove 0 (by omega) hpos
    have hall := countP_above_nil q ((blk.1 :: blk.2) ++ layout_strings post) hpw2
      (by simpa using hgt)
    rw [List.countP_append] at hall
    rw [hpre]
    simp only [layout_strings, List.length_nil, List.countP_nil]
    omega
  · have hlo1 : pre.length = lo1 - 1 := by
      rw [hlen, if_pos h0]
    have hle : string_le blk.1 q = true := by
      rw [← hlead]
      exact hbelow pre.length (by omega)
    have hprec : (layout_strings pre).countP (fun t => string_le t q)
        = (layout_strings pre).length := by
      apply countP_below
      intro t ht
      have := hcross t ht blk.1 (by simp)
      exact string_le_trans t blk.1 q (string_lt_le t blk.1 this) hle
    have hpostc : (layout_strings post).countP (fun t => string_le t q) = 0 := by
      have hpwpost := (List.pairwise_append.mp hpw2).2.1
      cases hp : post with
      | nil => rfl
      | cons p0 post2 =>
        rw [hp] at hpwpost
        apply countP_above_nil q _ hpwpost
        rw [layout_strings_head]
        have e : bs = (pre ++ [blk]) ++ p0 :: post2 := by rw [hbs, hp]; simp
        have hl2 : (bs.map Prod.fst).getD (pre.length + 1) [] = p0.1 := by
          have := leaders_getD (pre ++ [blk]) p0 post2
          rw [← e] at this
          simpa using this
        rw [← hl2]
        apply habove
        · omega
        · rw [e]; simp
    rw [hprec, hpostc]
    omega


/-! ## The varint format, rank past the view, closed blocks -/

/-- C21 (varint byte format): `encode_int(x, out)` appends to `out` the bytes
`encode_int(x, "")`; these are at least one byte, every byte but the last is below 128 (high
bit clear), the last byte is in `128..255` (high bit set), the low seven bits of byte `k` are
bits `7k..7k+6` of `x`, and the number of bytes is the least one whose groups hold `x` (no
redundant trailing group); encoding 0 appends the single byte `0x80`, and 300 is encoded as
`0x2c 0x82`. -/
theorem varint_byte_format (x : Nat) (out : List Nat) :
    encode_int x out = out ++ encode_int x [] ∧
    1 ≤ (encode_int x []).length ∧
    (∀ k, k + 1 < (encode_int x []).length → (encode_int x []).getD k 0 < 128) ∧
    (128 ≤ (encode_int x []).getD ((encode_int x []).length - 1) 0 ∧
      (encode_int x []).getD ((encode_int x []).length - 1) 0 < 256) ∧
    (∀ k, k < (encode_int x []).length →
      (encode_int x []).getD k 0 % 128 = x / 2 ^ (7 * k) % 128) ∧
    x < 2 ^ (7 * (encode_int x []).length) ∧
    (1 < (encode_int x []).length → 2 ^ (7 * ((encode_int x []).length - 1)) ≤ x) ∧
    encode_int 0 out = out ++ [128] ∧ encode_int 300 [] = [44, 130] := by
  have hfmt := encode_int_loop_format x x (Nat.le_refl _)
  have e : encode_int_loop x x [] = encode_int x [] := rfl
  rw [e] at hfmt
  obtain ⟨h1, h2, h3, h4⟩ := hfmt
  refine ⟨encode_int_append x out, h1, fun k hk => ((h2 k (by omega)).2.1 hk), ?_,
    fun k hk => (h2 k hk).1, h3, h4, ?_⟩
  · exact (h2 ((encode_int x []).length - 1) (by omega)).2.2 (by omega)
  · rw [encode_int_append]
    exact ⟨rfl, by decide⟩

/-- C22 (failing input): on the dictionary built from `["a", "ab"]` with `block_bytes = 8`,
whose bytes are all 7-bit, the 7-bit query `"a"` passed as the view of the first byte of the
buffer `"ab"` gets rank 2, while one string of the input is `<= "a"`; the same query gets
rank 1 when a NUL follows it.  `strcmp_lcp` and `block_rank` read the byte after the view,
`pattern[pattern.length()] = 'b'`, where the comparison needs the end of the query. -/
theorem rank_past_view :
    build sample_strings 8 = Except.ok sample_dictionary ∧
    (∀ s ∈ sample_strings, SevenBit s) ∧ SevenBit ([97, 98].take 1) ∧
    rank sample_dictionary [97, 98] 1 = some 2 ∧
    linear_scan_rank sample_strings ([97, 98].take 1) = 1 ∧
    rank sample_dictionary [97] 1 = some 1 :=
  ⟨rfl, by unfold sample_strings; decide, by decide, by decide, by decide, by decide⟩

/-- C23 (blocks are closed only once full): in a dictionary built with `block_bytes >= 1`
(sizes within the 32-bit index), every block `b` that is followed by another block has a tail
of at least `block_bytes` bytes, `tail_off[b+1] - tail_off[b] >= block_bytes`, and holds at
least two strings, `count[b+1] - count[b] >= 2`; hence a block that consists of its leader
alone is the last block. -/
theorem blocks_closed_once_full (S : List (List Nat)) (bb : Nat) (r : RearCodedArray)
    (hbb : bb < 2 ^ 64) (hbb1 : 1 ≤ bb) (hb : build S bb = Except.ok r)
    (hf : FitsOffsets S r) :
    (∀ b, b + 1 < blocks_count r →
      bb ≤ (info_at r (b + 1)).data_pointer - (info_at r b).data_pointer ∧
      2 ≤ (info_at r (b + 1)).count - (info_at r b).count) ∧
    (∀ b, b < blocks_count r → (info_at r (b + 1)).count - (info_at r b).count = 1 →
      b + 1 = blocks_count r) := by
  obtain ⟨bs, _, hstr, hl, hrule⟩ := build_layout_rule S bb r hbb hb hf
  have key : ∀ b, b + 1 < blocks_count r →
      bb ≤ (info_at r (b + 1)).data_pointer - (info_at r b).data_pointer ∧
      2 ≤ (info_at r (b + 1)).count - (info_at r b).count := by
    intro b hlt
    rw [blocks_count_layout bs r hl] at hlt
    obtain ⟨pre, blk, post, hbs, hlen, h1, h2⟩ := layout_block bs r hl b (by omega)
    have hpost : post ≠ [] := by
      intro h0
      rw [hbs, h0] at hlt
      simp at hlt
      omega
    rw [hbs] at hrule
    obtain ⟨hge, _⟩ := block_closed_of_followed bb pre blk post hpost hrule
    have hne : blk.2 ≠ [] := by
      intro h0
      rw [h0] at hge
      simp [tail_records] at hge
      omega
    have hpos : 1 ≤ blk.2.length := by
      cases h : blk.2 with
      | nil => exact absurd h hne
      | cons a as => simp
    rw [info_at_of_getElem r _ _ h1, info_at_of_getElem r _ _ h2]
    dsimp only
    omega
  refine ⟨key, ?_⟩
  intro b hlt hone
  by_contra hne
  have := (key b (by omega)).2
  omega

theorem blocks_closed_once_full_witness :
    build e2_strings 8 = Except.ok e2_dictionary ∧ blocks_count e2_dictionary = 2 ∧
    (8 ≤ (info_at e2_dictionary (0 + 1)).data_pointer
        - (info_at e2_dictionary 0).data_pointer ∧
      2 ≤ (info_at e2_dictionary (0 + 1)).count - (info_at e2_dictionary 0).count) ∧
    (info_at e2_dictionary (1 + 1)).count - (info_at e2_dictionary 1).count = 1 ∧
    1 + 1 = blocks_count e2_dictionary :=
  ⟨e2_build, by decide,
    (blocks_closed_once_full e2_strings 8 e2_dictionary (by decide) (by decide) e2_build
      (by unfold FitsOffsets e2_strings e2_dictionary; decide)).1 0 (by decide),
    by decide,
    (blocks_closed_once_full e2_strings 8 e2_dictionary (by decide) (by decide) e2_build
      (by unfold FitsOffsets e2_strings e2_dictionary; decide)).2 1 (by decide) (by decide)⟩

end RCA
